import Mathlib

/-!
Verification of the Universal Input Sanitizer core
(`src/universal_sanitizer/sanitizer.py`).

The embedding works over `List Char` (a Python `str` is modelled as its
list of characters).  Python library calls that the source uses are
modelled as Lean functions (`str.strip`, `str.splitlines`,
`str.replace` with a one-character needle, `str.split("=", 1)`,
`json.loads` / `json.dumps`, and the three `re` patterns, whose simple
shapes are translated to first-match scanning functions).  Unicode
subtleties that no claim touches are simplified: `\s`, `str.strip` and
`str.isdigit` are modelled on ASCII (the six ASCII whitespace
characters, decimal digits), `str.splitlines` splits on `\n`, `\r\n`
and `\r`, and a lone surrogate in a `\uXXXX` JSON escape goes through
`Char.ofNat`'s total fallback since Lean's `Char` cannot hold it.
-/

namespace UniSan

/-- Python `\s` / `str.strip` whitespace, ASCII part:
space, tab, newline, carriage return, vertical tab, form feed. -/
def isPySpace (c : Char) : Bool :=
  c = ' ' || c = '\t' || c = '\n' || c = '\r' || c = '\x0b' || c = '\x0c'

/-- ASCII decimal digit (models Python `str.isdigit` / `\d`). -/
def isDigitC (c : Char) : Bool :=
  '0' ≤ c && c ≤ '9'

/-- Drop trailing elements satisfying `p` (helper for `pyStrip`). -/
def dropTrailing (p : Char → Bool) (l : List Char) : List Char :=
  (l.reverse.dropWhile p).reverse

/-- Python `str.strip()` (ASCII whitespace). -/
def pyStrip (l : List Char) : List Char :=
  dropTrailing isPySpace (l.dropWhile isPySpace)

/-- Worker for `splitLines`; `acc` holds the current line reversed. -/
def splitLinesGo : List Char → List Char → List (List Char)
  | [], acc => if acc.isEmpty then [] else [acc.reverse]
  | '\r' :: '\n' :: rest, acc => acc.reverse :: splitLinesGo rest []
  | '\n' :: rest, acc => acc.reverse :: splitLinesGo rest []
  | '\r' :: rest, acc => acc.reverse :: splitLinesGo rest []
  | c :: rest, acc => splitLinesGo rest (c :: acc)

/-- Python `str.splitlines()` restricted to the `\n`, `\r\n`, `\r`
terminators (the exotic Unicode terminators are not modelled). -/
def splitLines (l : List Char) : List (List Char) :=
  splitLinesGo l []

/-- Python `str.split("=", 1)` when `"="` occurs: the part before the
first `'='` and the rest after it. -/
def splitFirstEq : List Char → Option (List Char × List Char)
  | [] => none
  | '=' :: rest => some ([], rest)
  | c :: rest => (splitFirstEq rest).map (fun p => (c :: p.1, p.2))

/-- Python `str.replace(t, r)` for a one-character needle `t`:
each occurrence of `t` becomes `r`. -/
def replaceChar (t : Char) (r : List Char) : List Char → List Char
  | [] => []
  | c :: cs => (if c = t then r else [c]) ++ replaceChar t r cs

/-- `escape_sql`: double the single quotes (`value.replace("'", "''")`). -/
def escape_sql (v : List Char) : List Char :=
  replaceChar '\'' ['\'', '\''] v

/-- `html_escape`: the five sequential replacements of the source, in
source order (`&`, `<`, `>`, `"`, `'`). -/
def html_escape (v : List Char) : List Char :=
  replaceChar '\'' ['&', '#', 'x', '2', '7', ';']
    (replaceChar '"' ['&', 'q', 'u', 'o', 't', ';']
      (replaceChar '>' ['&', 'g', 't', ';']
        (replaceChar '<' ['&', 'l', 't', ';']
          (replaceChar '&' ['&', 'a', 'm', 'p', ';'] v))))

/-- Character class `[^@\s]` shared by the local part and the domain of
`_EMAIL_RE`. -/
def emailChunkOk (c : Char) : Bool :=
  !(c = '@') && !(isPySpace c)

/-- Does the list have a `'.'` that is neither its first nor its last
element?  (`[^\s@]+\.[^\s@]+` can split the domain exactly at such a
dot.) -/
def interiorDot (l : List Char) : Bool :=
  ((l.drop 1).dropLast).contains '.'

/-- Split at the first `'@'` (helper for the email matcher). -/
def splitFirstAt : List Char → Option (List Char × List Char)
  | [] => none
  | '@' :: rest => some ([], rest)
  | c :: rest => (splitFirstAt rest).map (fun p => (c :: p.1, p.2))

/-- `_EMAIL_RE.fullmatch`: `(?P<local>[^@\s]+)@(?P<domain>[^\s@]+\.[^\s@]+)`
anchored on the whole string.  Both parts exclude `'@'`, so the string
must contain exactly one `'@'`; the domain needs an interior dot. -/
def emailFullmatch (l : List Char) : Bool :=
  match splitFirstAt l with
  | none => false
  | some (a, b) =>
    !a.isEmpty && a.all emailChunkOk && b.all emailChunkOk && interiorDot b

/-- Character class `[\d\-() ]` of `_PHONE_RE`. -/
def phoneClass (c : Char) : Bool :=
  isDigitC c || c = '-' || c = '(' || c = ')' || c = ' '

/-- `_PHONE_RE.fullmatch`: `\+?\d[\d\-() ]{6,}\d` anchored: an optional
`'+'`, then a digit, at least six class characters, and a final digit. -/
def phoneFullmatch (l : List Char) : Bool :=
  match (match l with | '+' :: rest => rest | _ => l) with
  | [] => false
  | c :: rest =>
    isDigitC c && decide (7 ≤ rest.length) && rest.dropLast.all phoneClass &&
      (match rest.getLast? with | some d => isDigitC d | none => false)

/-- `_URL_RE.fullmatch`: `https?://[^\s]+` anchored. -/
def urlFullmatch (l : List Char) : Bool :=
  match l with
  | 'h' :: 't' :: 't' :: 'p' :: rest =>
    match rest with
    | ':' :: '/' :: '/' :: r => !r.isEmpty && r.all (fun c => !isPySpace c)
    | 's' :: ':' :: '/' :: '/' :: r => !r.isEmpty && r.all (fun c => !isPySpace c)
    | _ => false
  | _ => false

/-- `mask_part` from `mask_email`: empty stays empty, one or two
characters keep the first character (plus one star in the length-one
case), longer parts keep first and last with stars in between. -/
def mask_part : List Char → List Char
  | [] => []
  | [c] => [c, '*']
  | [c, _] => [c, '*']
  | c :: cs => c :: (List.replicate (cs.length - 1) '*' ++ cs.drop (cs.length - 1))

/-- Try to match `_EMAIL_RE` starting exactly at the head of `l`;
returns `(local, domain, rest-after-match)`.  The local part is the
maximal `[^@\s]` run (the class excludes `'@'`, so no shorter run can
be followed by `'@'`), then `'@'`, then the domain is the maximal
`[^\s@]` run, which matches `[^\s@]+\.[^\s@]+` exactly when it has an
interior dot. -/
def emailMatchAt (l : List Char) : Option (List Char × List Char × List Char) :=
  let run := l.takeWhile emailChunkOk
  if run.isEmpty then none
  else
    match l.dropWhile emailChunkOk with
    | '@' :: rest =>
      let run2 := rest.takeWhile emailChunkOk
      if interiorDot run2 then some (run, run2, rest.dropWhile emailChunkOk)
      else none
    | _ => none

/-- `_EMAIL_RE.search`: try each start position left to right; returns
`(prefix-before-match, local, domain, rest)`. -/
def emailSearch : List Char → Option (List Char × List Char × List Char × List Char)
  | [] => none
  | c :: cs =>
    match emailMatchAt (c :: cs) with
    | some (lo, d, after) => some ([], lo, d, after)
    | none =>
      match emailSearch cs with
      | some (b, lo, d, a) => some (c :: b, lo, d, a)
      | none => none

/-- `mask_email`: mask the first email-shaped substring; without a
match the value is returned unchanged.  Note the source returns only
the masked match, dropping any text around it. -/
def mask_email (v : List Char) : List Char :=
  match emailSearch v with
  | none => v
  | some (_, lo, d, _) =>
    mask_part lo ++ '@' :: List.intercalate ['.'] ((d.splitOn '.').map mask_part)

/-- Re-interleave the masked digit stream into the original layout:
digit positions consume the stream, other characters pass through
(the stream cannot run dry in `mask_phone`, where its length equals
the number of digit positions; the `[]` fallback is unreachable there). -/
def reinter : List Char → List Char → List Char
  | [], _ => []
  | c :: cs, ds =>
    if isDigitC c then
      match ds with
      | d :: ds' => d :: reinter cs ds'
      | [] => c :: reinter cs []
    else c :: reinter cs ds

/-- `mask_phone`: with fewer than 4 digits return one `'*'` per digit;
otherwise star all digits but the last two and re-interleave. -/
def mask_phone (v : List Char) : List Char :=
  let digits := v.filter isDigitC
  if digits.length < 4 then List.replicate digits.length '*'
  else reinter v (List.replicate (digits.length - 2) '*' ++ digits.drop (digits.length - 2))

/-- Character class `[^\s?]` of the query-stripping pattern. -/
def urlRunOk (c : Char) : Bool :=
  !(isPySpace c) && !(c = '?')

/-- Match `(https?://[^\s?]+)\?.*` at the head of `l`; returns the
kept group and the rest after the match (`.` does not cross `'\n'`). -/
def urlQMatchAt (l : List Char) : Option (List Char × List Char) :=
  match l with
  | 'h' :: 't' :: 't' :: 'p' :: rest =>
    let (sPart, rest2) := match rest with
      | 's' :: r => (['s'], r)
      | _ => (([] : List Char), rest)
    match rest2 with
    | ':' :: '/' :: '/' :: r3 =>
      let run := r3.takeWhile urlRunOk
      if run.isEmpty then none
      else
        match r3.dropWhile urlRunOk with
        | '?' :: r4 =>
          some ('h' :: 't' :: 't' :: 'p' :: (sPart ++ ':' :: '/' :: '/' :: run),
                r4.dropWhile (fun c => !(c = '\n')))
        | _ => none
    | _ => none
  | _ => none

/-- Worker for `strip_url_query` (fuel bounds the scan; `l.length`
always suffices since a match consumes at least nine characters). -/
def stripUrlGo : Nat → List Char → List Char
  | 0, l => l
  | _ + 1, [] => []
  | fuel + 1, c :: cs =>
    match urlQMatchAt (c :: cs) with
    | some (g, after) => g ++ stripUrlGo fuel after
    | none => c :: stripUrlGo fuel cs

/-- `strip_url_query`: `re.sub(r"(https?://[^\s?]+)\?.*", r"\1", value)`. -/
def strip_url_query (v : List Char) : List Char :=
  stripUrlGo v.length v

/-- `_js_literal`: wrap in double quotes, backslash-escaping backslashes
and double quotes (the two sequential `str.replace` of the source). -/
def js_literal (s : List Char) : List Char :=
  '"' :: replaceChar '"' ['\\', '"'] (replaceChar '\\' ['\\', '\\'] s) ++ ['"']

/-- `_java_literal`: as `_js_literal` plus `\n` and `\r` escapes. -/
def java_literal (s : List Char) : List Char :=
  '"' :: replaceChar '\r' ['\\', 'r']
      (replaceChar '\n' ['\\', 'n']
        (replaceChar '"' ['\\', '"'] (replaceChar '\\' ['\\', '\\'] s))) ++ ['"']

/-! ### JSON model (`json.loads` / `json.dumps(…, ensure_ascii=False)`)

Numbers are kept as their source lexemes (Python parses them to
`int`/`float`; no sanitization rule ever inspects a number, so the
lexeme representation is faithful for everything the claims state,
except that Python would re-normalize float spellings on output). -/

/-- JSON values.  Objects keep insertion order; duplicate keys are
resolved during parsing exactly as a Python `dict` does (value
replaced in place). -/
inductive Json where
  | null : Json
  | bool : Bool → Json
  | num : List Char → Json
  | str : List Char → Json
  | arr : List Json → Json
  | obj : List (List Char × Json) → Json

instance : Inhabited Json := ⟨Json.null⟩

/-- JSON whitespace skipped by Python's decoder (`[ \t\n\r]`). -/
def isJsonWs (c : Char) : Bool :=
  c = ' ' || c = '\t' || c = '\n' || c = '\r'

/-- Skip JSON whitespace. -/
def skipWs (l : List Char) : List Char :=
  l.dropWhile isJsonWs

/-- Hexadecimal digit value. -/
def hexVal (c : Char) : Option Nat :=
  if '0' ≤ c ∧ c ≤ '9' then some (c.toNat - 48)
  else if 'a' ≤ c ∧ c ≤ 'f' then some (c.toNat - 87)
  else if 'A' ≤ c ∧ c ≤ 'F' then some (c.toNat - 55)
  else none

/-- Four hex digits to a number. -/
def hex4 (a b c d : Char) : Option Nat :=
  match hexVal a, hexVal b, hexVal c, hexVal d with
  | some x, some y, some z, some w => some (((x * 16 + y) * 16 + z) * 16 + w)
  | _, _, _, _ => none

/-- Decode a one-character JSON escape. -/
def escDecode (c : Char) : Option Char :=
  if c = '"' then some '"'
  else if c = '\\' then some '\\'
  else if c = '/' then some '/'
  else if c = 'b' then some '\x08'
  else if c = 'f' then some '\x0c'
  else if c = 'n' then some '\n'
  else if c = 'r' then some '\r'
  else if c = 't' then some '\t'
  else none

/-- Lookahead for a low-surrogate escape `\uXXXX` immediately after a
high surrogate (Python combines the pair into one character). -/
def surrPair (l : List Char) : Option (Nat × List Char) :=
  match l with
  | '\\' :: 'u' :: g1 :: g2 :: g3 :: g4 :: rest =>
    match hex4 g1 g2 g3 g4 with
    | some m => if 0xDC00 ≤ m ∧ m ≤ 0xDFFF then some (m, rest) else none
    | none => none
  | _ => none

/-- Combine a surrogate pair into one scalar value. -/
def combineSurr (n m : Nat) : Char :=
  Char.ofNat (0x10000 + (n - 0xD800) * 0x400 + (m - 0xDC00))

/-- Parse the content of a JSON string after its opening quote, in
strict mode (unescaped control characters below 0x20 are rejected, as
in `json.loads`): returns the decoded characters and the rest after
the closing quote.  A high surrogate followed by a low one combines;
a lone surrogate goes through `Char.ofNat`'s total fallback (Lean's
`Char` cannot represent it; Python keeps it as a lone surrogate). -/
def parseStrContent : Nat → List Char → Option (List Char × List Char)
  | 0, _ => none
  | fuel + 1, l =>
    match l with
    | [] => none
    | c :: rest =>
      if c = '"' then some ([], rest)
      else if c = '\\' then
        match rest with
        | [] => none
        | e :: rest2 =>
          if e = 'u' then
            match rest2 with
            | h1 :: h2 :: h3 :: h4 :: rest3 =>
              match hex4 h1 h2 h3 h4 with
              | none => none
              | some n =>
                if 0xD800 ≤ n ∧ n ≤ 0xDBFF then
                  match surrPair rest3 with
                  | some (m, rest4) =>
                    (parseStrContent fuel rest4).map (fun p => (combineSurr n m :: p.1, p.2))
                  | none =>
                    (parseStrContent fuel rest3).map (fun p => (Char.ofNat n :: p.1, p.2))
                else (parseStrContent fuel rest3).map (fun p => (Char.ofNat n :: p.1, p.2))
            | _ => none
          else
            match escDecode e with
            | some d => (parseStrContent fuel rest2).map (fun p => (d :: p.1, p.2))
            | none => none
      else if c.toNat < 32 then none
      else (parseStrContent fuel rest).map (fun p => (c :: p.1, p.2))

/-- Optional fraction part `(\.\d+)?`: consumed only when a digit
follows the dot. -/
def grabFrac (l : List Char) : List Char × List Char :=
  match l with
  | '.' :: r =>
    let ds := r.takeWhile isDigitC
    if ds.isEmpty then ([], l) else ('.' :: ds, r.dropWhile isDigitC)
  | _ => ([], l)

/-- Optional exponent part `([eE][-+]?\d+)?`: consumed only when its
digits are present. -/
def grabExp (l : List Char) : List Char × List Char :=
  match l with
  | c :: r =>
    if c = 'e' ∨ c = 'E' then
      match r with
      | s :: r2 =>
        if s = '+' ∨ s = '-' then
          let ds := r2.takeWhile isDigitC
          if ds.isEmpty then ([], l) else (c :: s :: ds, r2.dropWhile isDigitC)
        else
          let ds := r.takeWhile isDigitC
          if ds.isEmpty then ([], l) else (c :: ds, r.dropWhile isDigitC)
      | [] => ([], l)
    else ([], l)
  | [] => ([], l)

/-- Unsigned part of the number lexer: `(0|[1-9]\d*)` then the
optional fraction and exponent. -/
def parseNumCore (l : List Char) : Option (List Char × List Char) :=
  match l with
  | [] => none
  | c :: r =>
    if c = '0' then
      let (fr, r2) := grabFrac r
      let (ex, r3) := grabExp r2
      some ('0' :: (fr ++ ex), r3)
    else if isDigitC c then
      let ds := r.takeWhile isDigitC
      let (fr, r2) := grabFrac (r.dropWhile isDigitC)
      let (ex, r3) := grabExp r2
      some (c :: (ds ++ fr ++ ex), r3)
    else none

/-- The number lexer of Python's scanner,
`(-?(?:0|[1-9]\d*))(\.\d+)?([eE][-+]?\d+)?`: returns the lexeme and
the rest. -/
def parseNumTok (l : List Char) : Option (List Char × List Char) :=
  match l with
  | '-' :: r => (parseNumCore r).map (fun p => ('-' :: p.1, p.2))
  | _ => parseNumCore l

/-- Token of the `Infinity` constant. -/
def infinityTok : List Char := ['I', 'n', 'f', 'i', 'n', 'i', 't', 'y']

/-- Prefix test used for the keyword constants (Python compares
`s[idx:idx+n]` against the keyword): returns the rest on success. -/
def keyword : List Char → List Char → Option (List Char)
  | [], l => some l
  | c :: w, x :: l => if x = c then keyword w l else none
  | _ :: _, [] => none

/-- Insert into an association list the way a Python `dict` does: an
existing key keeps its position and gets the new value, a new key is
appended. -/
def insertKV : List (List Char × Json) → List Char → Json → List (List Char × Json)
  | [], k, v => [(k, v)]
  | (k0, v0) :: rest, k, v =>
    if k0 = k then (k0, v) :: rest else (k0, v0) :: insertKV rest k v

mutual

/-- One JSON value at the head of the input (Python's `scan_once`):
string, object, array, the keyword constants (including the non-standard
`NaN`/`Infinity`/`-Infinity` that `json.loads` accepts), or a number.
The fuel decreases at every recursive call; `length + 1` is always
enough (each nested call follows at least one consumed character). -/
def parseValue : Nat → List Char → Option (Json × List Char)
  | 0, _ => none
  | fuel + 1, l =>
    match l with
    | [] => none
    | c :: rest =>
      if c = '"' then
        (parseStrContent (rest.length + 1) rest).map (fun p => (Json.str p.1, p.2))
      else if c = '{' then
        match skipWs rest with
        | '}' :: r2 => some (Json.obj [], r2)
        | r => parseMembers fuel r []
      else if c = '[' then
        match skipWs rest with
        | ']' :: r2 => some (Json.arr [], r2)
        | r => parseElems fuel r []
      else
        match keyword ['t', 'r', 'u', 'e'] l with
        | some r2 => some (Json.bool true, r2)
        | none =>
        match keyword ['f', 'a', 'l', 's', 'e'] l with
        | some r2 => some (Json.bool false, r2)
        | none =>
        match keyword ['n', 'u', 'l', 'l'] l with
        | some r2 => some (Json.null, r2)
        | none =>
        match keyword ['N', 'a', 'N'] l with
        | some r2 => some (Json.num ['N', 'a', 'N'], r2)
        | none =>
        match keyword infinityTok l with
        | some r2 => some (Json.num infinityTok, r2)
        | none =>
        match keyword ('-' :: infinityTok) l with
        | some r2 => some (Json.num ('-' :: infinityTok), r2)
        | none => (parseNumTok l).map (fun p => (Json.num p.1, p.2))

/-- Object members from the first key on (whitespace before the key
already skipped), accumulating into `acc`. -/
def parseMembers : Nat → List Char → List (List Char × Json) → Option (Json × List Char)
  | 0, _, _ => none
  | fuel + 1, l, acc =>
    match l with
    | '"' :: rest =>
      match parseStrContent (rest.length + 1) rest with
      | none => none
      | some (k, r1) =>
        match skipWs r1 with
        | ':' :: r2 =>
          match parseValue fuel (skipWs r2) with
          | none => none
          | some (v, r3) =>
            match skipWs r3 with
            | ',' :: r4 => parseMembers fuel (skipWs r4) (insertKV acc k v)
            | '}' :: r4 => some (Json.obj (insertKV acc k v), r4)
            | _ => none
        | _ => none
    | _ => none

/-- Array elements from the first element on (whitespace already
skipped), accumulating into `acc`. -/
def parseElems : Nat → List Char → List Json → Option (Json × List Char)
  | 0, _, _ => none
  | fuel + 1, l, acc =>
    match parseValue fuel l with
    | none => none
    | some (v, r) =>
      match skipWs r with
      | ',' :: r2 => parseElems fuel (skipWs r2) (acc ++ [v])
      | ']' :: r2 => some (Json.arr (acc ++ [v]), r2)
      | _ => none

end

/-- `json.loads`: skip leading whitespace, parse one value, require
only whitespace after it. -/
def jsonLoads (l : List Char) : Option Json :=
  match parseValue (l.length + 1) (skipWs l) with
  | some (v, r) => if (skipWs r).isEmpty then some v else none
  | none => none

/-- Lowercase hexadecimal digit. -/
def hexDigitCh (n : Nat) : Char :=
  if n < 10 then Char.ofNat (48 + n) else Char.ofNat (87 + n)

/-- `json.dumps` escaping of one string character with
`ensure_ascii=False`: quote, backslash and the control characters are
escaped, everything else passes through. -/
def escJsonChar (c : Char) : List Char :=
  if c = '"' then ['\\', '"']
  else if c = '\\' then ['\\', '\\']
  else if c = '\n' then ['\\', 'n']
  else if c = '\r' then ['\\', 'r']
  else if c = '\t' then ['\\', 't']
  else if c = '\x08' then ['\\', 'b']
  else if c = '\x0c' then ['\\', 'f']
  else if c.toNat < 32 then
    ['\\', 'u', '0', '0', hexDigitCh (c.toNat / 16), hexDigitCh (c.toNat % 16)]
  else [c]

/-- Serialize a string with its quotes. -/
def encodeStr (s : List Char) : List Char :=
  '"' :: (s.map escJsonChar).flatten ++ ['"']

mutual

/-- `json.dumps(…, ensure_ascii=False)` with the default separators
`", "` and `": "`. -/
def jsonDumps : Json → List Char
  | Json.null => ['n', 'u', 'l', 'l']
  | Json.bool true => ['t', 'r', 'u', 'e']
  | Json.bool false => ['f', 'a', 'l', 's', 'e']
  | Json.num t => t
  | Json.str s => encodeStr s
  | Json.arr [] => ['[', ']']
  | Json.arr (x :: xs) => '[' :: (jsonDumps x ++ dumpsElems xs) ++ [']']
  | Json.obj [] => ['{', '}']
  | Json.obj (kv :: kvs) =>
    '{' :: (encodeStr kv.1 ++ ':' :: ' ' :: jsonDumps kv.2 ++ dumpsMembers kvs) ++ ['}']

/-- Remaining array elements, each preceded by `", "`. -/
def dumpsElems : List Json → List Char
  | [] => []
  | x :: xs => ',' :: ' ' :: (jsonDumps x ++ dumpsElems xs)

/-- Remaining object members, each preceded by `", "`. -/
def dumpsMembers : List (List Char × Json) → List Char
  | [] => []
  | kv :: kvs => ',' :: ' ' :: (encodeStr kv.1 ++ ':' :: ' ' :: jsonDumps kv.2 ++ dumpsMembers kvs)

end

mutual

/-- The `recurse` helper of the JSON branch of `sanitize_value`, with
the string-leaf rewriting supplied as `f`: string leaves are mapped
through `f`, object keys, order and the other leaves are unchanged. -/
def mapLeaves (f : List Char → List Char) : Json → Json
  | Json.null => Json.null
  | Json.bool b => Json.bool b
  | Json.num t => Json.num t
  | Json.str s => Json.str (f s)
  | Json.arr xs => Json.arr (mapLeavesL f xs)
  | Json.obj kvs => Json.obj (mapLeavesKV f kvs)

/-- `mapLeaves` over a list of values. -/
def mapLeavesL (f : List Char → List Char) : List Json → List Json
  | [] => []
  | x :: xs => mapLeaves f x :: mapLeavesL f xs

/-- `mapLeaves` over object members (keys untouched). -/
def mapLeavesKV (f : List Char → List Char) :
    List (List Char × Json) → List (List Char × Json)
  | [] => []
  | kv :: kvs => (kv.1, mapLeaves f kv.2) :: mapLeavesKV f kvs

end

/-! ### Type detection and sanitization -/

/-- One line survives the env filter of `detect_type` when it is not
blank and its stripped form does not start with `'#'`. -/
def envKeepLine (ln : List Char) : Bool :=
  !(pyStrip ln).isEmpty && !((pyStrip ln).head? = some '#')

/-- The env condition of `detect_type` on the trimmed input: after
discarding blank and comment lines at least one line remains and every
remaining line contains `'='`. -/
def envLinesOk (t : List Char) : Bool :=
  let lines := (splitLines t).filter envKeepLine
  !lines.isEmpty && lines.all (fun ln => ln.contains '=')

/-- `detect_type`: trim, then first match among JSON (delimiter shape
plus a successful parse), env, email, phone, URL, else text. -/
def detect_type (v : List Char) : String :=
  let t := pyStrip v
  if ((t.head? = some '{' ∧ t.getLast? = some '}') ∨
      (t.head? = some '[' ∧ t.getLast? = some ']')) ∧ (jsonLoads t).isSome then "json"
  else if '=' ∈ t ∧ envLinesOk t then "env"
  else if emailFullmatch t then "email"
  else if phoneFullmatch t then "phone"
  else if urlFullmatch t then "url"
  else "text"

/-- One line of the env branch of `sanitize_value`: blank lines,
comment lines and lines without `'='` are kept verbatim; otherwise the
line is split at the first `'='`, the key is kept, and the stripped
value goes through `san`. -/
def envLine (san : List Char → List Char) (line : List Char) : List Char :=
  if (pyStrip line).isEmpty then line
  else if (pyStrip line).head? = some '#' then line
  else if '=' ∈ line then
    match splitFirstEq line with
    | some (k, val) => k ++ '=' :: san (pyStrip val)
    | none => line
  else line

/-- The env branch of `sanitize_value`: process every line and re-join
with `'\n'`. -/
def envProcess (san : List Char → List Char) (v : List Char) : List Char :=
  List.intercalate ['\n'] ((splitLines v).map (envLine san))

/-- The branch dispatch of `sanitize_value`, with the recursive
"sanitize a nested string by its detected kind" call supplied as
`san` (the JSON branch maps it over the string leaves, the env branch
applies it to each stripped value side). -/
def sanitizeBody (san : List Char → List Char) (v : List Char) (kind : Option String) :
    String × List Char :=
  let detected := match kind with
    | none => detect_type v
    | some k => if k = "" then detect_type v else k
  if detected = "email" then (detected, mask_email v)
  else if detected = "phone" then (detected, mask_phone v)
  else if detected = "url" then (detected, strip_url_query v)
  else if detected = "json" then
    match jsonLoads v with
    | some obj => (detected, jsonDumps (mapLeaves san obj))
    | none => ("text", html_escape v)
  else if detected = "env" then (detected, envProcess san v)
  else ("text", html_escape (escape_sql v))

/-- `sanitize_value` with explicit fuel for its recursion (the JSON
branch recurses into decoded string leaves, the env branch into
stripped values; both are strictly shorter than the input, so
`length + 1` fuel — see `sanitize_value` — never runs out; the fuel-0
row is unreachable from there). -/
def sanitizeVal : Nat → List Char → Option String → String × List Char
  | 0, v, _ => ("text", v)
  | fuel + 1, v, kind =>
    sanitizeBody (fun o => (sanitizeVal fuel o (some (detect_type o))).2) v kind

/-- `sanitize_value(value, kind=None)`: detect (unless overridden by a
non-empty kind) and sanitize. -/
def sanitize_value (v : List Char) (kind : Option String) : String × List Char :=
  sanitizeVal (v.length + 1) v kind

mutual

/-- The string leaves of a JSON value that the sanitizer's `recurse`
visits (object keys are not rewritten, hence not listed). -/
def leavesOf : Json → List (List Char)
  | Json.str s => [s]
  | Json.arr xs => leavesL xs
  | Json.obj kvs => leavesKV kvs
  | _ => []

/-- `leavesOf` over a list of values. -/
def leavesL : List Json → List (List Char)
  | [] => []
  | x :: xs => leavesOf x ++ leavesL xs

/-- `leavesOf` over object members. -/
def leavesKV : List (List Char × Json) → List (List Char)
  | [] => []
  | kv :: kvs => leavesOf kv.2 ++ leavesKV kvs

end

/-- Are the first and the last character (when they exist) both
non-whitespace?  (Used to state the implicit env-value claim.) -/
def noEdgeWs (l : List Char) : Bool :=
  (match l.head? with | some c => !isPySpace c | none => true) &&
  (match l.getLast? with | some c => !isPySpace c | none => true)

/-- Is `t` a lexeme the number scanner accepts in full, or one of the
three non-standard constants?  (The shape of every `Json.num` token
the parser can produce.) -/
def validNum (t : List Char) : Bool :=
  (match parseNumTok t with
   | some (t2, r) => t2 = t && r.isEmpty
   | none => false) ||
  t = ['N', 'a', 'N'] || t = infinityTok || t = '-' :: infinityTok

/-- `k` does not occur among the keys. -/
def noKey (k : List Char) : List (List Char × Json) → Bool
  | [] => true
  | kv :: kvs => !(kv.1 = k) && noKey k kvs

mutual

/-- Well-formedness invariant of parsed JSON values: number tokens are
valid lexemes and object keys are distinct (a Python `dict` cannot
hold duplicates). -/
def wfJson : Json → Bool
  | Json.null => true
  | Json.bool _ => true
  | Json.num t => validNum t
  | Json.str _ => true
  | Json.arr xs => wfL xs
  | Json.obj kvs => wfKV kvs

/-- `wfJson` over a list of values. -/
def wfL : List Json → Bool
  | [] => true
  | x :: xs => wfJson x && wfL xs

/-- `wfJson` over object members, with key distinctness. -/
def wfKV : List (List Char × Json) → Bool
  | [] => true
  | kv :: kvs => noKey kv.1 kvs && wfJson kv.2 && wfKV kvs

end

/-- The characters that can follow a serialized value inside a JSON
document (or its end). -/
def goodFollow : List Char → Bool
  | [] => true
  | c :: _ => c = ',' || c = ']' || c = '}'

/-- The characters after which the number lexer stops extending a
token. -/
def numStop : List Char → Bool
  | [] => true
  | c :: _ => !isDigitC c && !(c = '.') && !(c = 'e') && !(c = 'E')

/-- The shape of a lexeme accepted by the number scanner's regular
expression. -/
def NumShape (t : List Char) : Prop :=
  ∃ sign ip fr ex : List Char,
    t = sign ++ ip ++ fr ++ ex ∧
    (sign = [] ∨ sign = ['-']) ∧
    (ip = ['0'] ∨ ∃ d ds, ip = d :: ds ∧ isDigitC d = true ∧ ¬ d = '0' ∧
      ds.all isDigitC = true) ∧
    (fr = [] ∨ ∃ f1, fr = '.' :: f1 ∧ ¬ f1 = [] ∧ f1.all isDigitC = true) ∧
    (ex = [] ∨ ∃ e sg xs, ex = e :: (sg ++ xs) ∧ (e = 'e' ∨ e = 'E') ∧
      (sg = [] ∨ sg = ['+'] ∨ sg = ['-']) ∧ ¬ xs = [] ∧ xs.all isDigitC = true)

/-- Sanitize one nested value by its detected kind — the recursive
call `sanitize_value(x, detect_type(x))[1]` that the JSON and env
branches of the source make. -/
def sanDetected (w : List Char) : List Char :=
  (sanitize_value w (some (detect_type w))).2

/-! ### Specification-side definitions (from the spec's words, for the
refinement claims) -/

/-- The Type Detector cascade as the spec words it: trim; a brace- or
bracket-delimited string that parses as JSON is JSON (a parse failure
falls through); else a trimmed string containing `'='` whose non-blank
non-comment lines are non-empty and all contain `'='` is Env; else the
anchored email, phone, URL matchers in that order; else Text. -/
def detectTypeSpec (v : List Char) : String :=
  let t := pyStrip v
  let kept := (splitLines t).filter
    (fun ln => !(pyStrip ln).isEmpty && !((pyStrip ln).head? = some '#'))
  if ((t.head? = some '{' ∧ t.getLast? = some '}') ∨
      (t.head? = some '[' ∧ t.getLast? = some ']')) ∧ (jsonLoads t).isSome then "json"
  else if '=' ∈ t ∧ (!kept.isEmpty && kept.all (fun ln => ln.contains '=')) = true then "env"
  else if emailFullmatch t then "email"
  else if phoneFullmatch t then "phone"
  else if urlFullmatch t then "url"
  else "text"

/-- Per-character JavaScript escaping as the code actually performs it:
backslash and double quote only. -/
def escJsSpec (c : Char) : List Char :=
  if c = '\\' then ['\\', '\\'] else if c = '"' then ['\\', '"'] else [c]

/-- Per-character Java escaping as the code actually performs it:
backslash, double quote, newline and carriage return. -/
def escJavaSpec (c : Char) : List Char :=
  if c = '\\' then ['\\', '\\'] else if c = '"' then ['\\', '"']
  else if c = '\n' then ['\\', 'n'] else if c = '\r' then ['\\', 'r'] else [c]

/-- Per-character view of `html_escape` (the five sequential
replacements act independently on each source character because no
introduced entity contains a character replaced by a later pass). -/
def hHtml (c : Char) : List Char :=
  if c = '&' then ['&', 'a', 'm', 'p', ';']
  else if c = '<' then ['&', 'l', 't', ';']
  else if c = '>' then ['&', 'g', 't', ';']
  else if c = '"' then ['&', 'q', 'u', 'o', 't', ';']
  else if c = '\'' then ['&', '#', 'x', '2', '7', ';']
  else [c]

/-! ### Basic lemmas about the string helpers -/

theorem replaceChar_append (t : Char) (r : List Char) (a b : List Char) :
    replaceChar t r (a ++ b) = replaceChar t r a ++ replaceChar t r b := by
  induction a with
  | nil => rfl
  | cons c cs ih => simp [replaceChar, ih]

theorem html_escape_eq_hHtml (v : List Char) :
    html_escape v = (v.map hHtml).flatten := by
  induction v with
  | nil => rfl
  | cons c cs ih =>
    show html_escape (c :: cs) = hHtml c ++ (cs.map hHtml).flatten
    rw [← ih]
    show replaceChar '\'' _ (replaceChar '"' _ (replaceChar '>' _ (replaceChar '<' _
      ((if c = '&' then ['&', 'a', 'm', 'p', ';'] else [c]) ++ replaceChar '&' _ cs)))) = _
    rw [replaceChar_append, replaceChar_append, replaceChar_append, replaceChar_append]
    show _ ++ html_escape cs = _ ++ html_escape cs
    congr 1
    by_cases h1 : c = '&'
    · subst h1; rfl
    by_cases h2 : c = '<'
    · subst h2; rfl
    by_cases h3 : c = '>'
    · subst h3; rfl
    by_cases h4 : c = '"'
    · subst h4; rfl
    by_cases h5 : c = '\''
    · subst h5; rfl
    simp [replaceChar, hHtml, h1, h2, h3, h4, h5]

theorem js_core_eq (s : List Char) :
    replaceChar '"' ['\\', '"'] (replaceChar '\\' ['\\', '\\'] s) =
      (s.map escJsSpec).flatten := by
  induction s with
  | nil => rfl
  | cons c cs ih =>
    show replaceChar '"' _ ((if c = '\\' then ['\\', '\\'] else [c]) ++ replaceChar '\\' _ cs) =
      escJsSpec c ++ (cs.map escJsSpec).flatten
    rw [replaceChar_append, ← ih]
    congr 1
    by_cases h1 : c = '\\'
    · subst h1; rfl
    by_cases h2 : c = '"'
    · subst h2; rfl
    simp [replaceChar, escJsSpec, h1, h2]

theorem java_core_eq (s : List Char) :
    replaceChar '\r' ['\\', 'r'] (replaceChar '\n' ['\\', 'n']
      (replaceChar '"' ['\\', '"'] (replaceChar '\\' ['\\', '\\'] s))) =
      (s.map escJavaSpec).flatten := by
  induction s with
  | nil => rfl
  | cons c cs ih =>
    show replaceChar '\r' _ (replaceChar '\n' _ (replaceChar '"' _
      ((if c = '\\' then ['\\', '\\'] else [c]) ++ replaceChar '\\' _ cs))) =
      escJavaSpec c ++ (cs.map escJavaSpec).flatten
    rw [replaceChar_append, replaceChar_append, replaceChar_append, ← ih]
    congr 1
    by_cases h1 : c = '\\'
    · subst h1; rfl
    by_cases h2 : c = '"'
    · subst h2; rfl
    by_cases h3 : c = '\n'
    · subst h3; rfl
    by_cases h4 : c = '\r'
    · subst h4; rfl
    simp [replaceChar, escJavaSpec, h1, h2, h3, h4]

/-- Every per-character block of `html_escape` is non-empty. -/
theorem hHtml_length_pos (c : Char) : 1 ≤ (hHtml c).length := by
  unfold hHtml; split_ifs <;> simp

/-- `html_escape` never shortens a string. -/
theorem html_escape_length_ge (v : List Char) :
    v.length ≤ (html_escape v).length := by
  rw [html_escape_eq_hHtml]
  induction v with
  | nil => simp
  | cons c cs ih =>
    simp only [List.map_cons, List.flatten_cons, List.length_append, List.length_cons]
    have := hHtml_length_pos c
    omega

/-- `html_escape` strictly lengthens any string containing `'&'`. -/
theorem html_escape_length_lt {v : List Char} (h : '&' ∈ v) :
    v.length < (html_escape v).length := by
  rw [html_escape_eq_hHtml]
  induction v with
  | nil => cases h
  | cons c cs ih =>
    simp only [List.map_cons, List.flatten_cons, List.length_append, List.length_cons]
    rcases List.mem_cons.mp h with h | h
    · subst h
      have h1 := html_escape_length_ge cs
      rw [html_escape_eq_hHtml] at h1
      have h5 : (hHtml '&').length = 5 := by decide
      omega
    · have := ih h
      have := hHtml_length_pos c
      omega

/-- A string with any of the five special characters escapes to a
string containing `'&'`. -/
theorem amp_mem_html_escape {v : List Char} {c : Char} (hc : c ∈ v)
    (hs : c = '&' ∨ c = '<' ∨ c = '>' ∨ c = '"' ∨ c = '\'') :
    '&' ∈ html_escape v := by
  rw [html_escape_eq_hHtml]
  have hin : '&' ∈ hHtml c := by
    rcases hs with h | h | h | h | h <;> subst h <;> simp [hHtml]
  exact List.mem_flatten.mpr ⟨hHtml c, List.mem_map.mpr ⟨c, hc, rfl⟩, hin⟩

/-! ### Lemmas about `reinter` (phone masking) -/

theorem reinter_cons_digit {c : Char} (hc : isDigitC c = true)
    (cs ds' : List Char) (d : Char) :
    reinter (c :: cs) (d :: ds') = d :: reinter cs ds' := by
  simp [reinter, hc]

theorem reinter_cons_nondigit {c : Char} (hc : isDigitC c = false)
    (cs ds : List Char) :
    reinter (c :: cs) ds = c :: reinter cs ds := by
  simp [reinter, hc]

theorem reinter_length (cs : List Char) :
    ∀ ds : List Char, ds.length = (cs.filter isDigitC).length →
      (reinter cs ds).length = cs.length := by
  induction cs with
  | nil => intro ds _; rfl
  | cons c cs ih =>
    intro ds hds
    cases hc : isDigitC c
    · simp only [List.filter_cons, hc] at hds
      rw [reinter_cons_nondigit hc, List.length_cons, ih ds (by simpa using hds)]
      rfl
    · simp only [List.filter_cons, hc, if_pos, List.length_cons] at hds
      match ds, hds with
      | d :: ds', hds =>
        rw [reinter_cons_digit hc, List.length_cons, List.length_cons,
          ih ds' (by simpa using hds)]

theorem reinter_nondigit (cs : List Char) :
    ∀ ds : List Char, ds.length = (cs.filter isDigitC).length →
      ∀ p ∈ cs.zip (reinter cs ds), isDigitC p.1 = false → p.2 = p.1 := by
  induction cs with
  | nil => intro ds _ p hp; cases hp
  | cons c cs ih =>
    intro ds hds p hp hnd
    cases hc : isDigitC c
    · simp only [List.filter_cons, hc] at hds
      rw [reinter_cons_nondigit hc, List.zip_cons_cons] at hp
      rcases List.mem_cons.mp hp with h | h
      · subst h; rfl
      · exact ih ds (by simpa using hds) p h hnd
    · simp only [List.filter_cons, hc, if_pos, List.length_cons] at hds
      match ds, hds with
      | d :: ds', hds =>
        rw [reinter_cons_digit hc, List.zip_cons_cons] at hp
        rcases List.mem_cons.mp hp with h | h
        · subst h; simp [hc] at hnd
        · exact ih ds' (by simpa using hds) p h hnd

theorem reinter_digits (cs : List Char) :
    ∀ ds : List Char, ds.length = (cs.filter isDigitC).length →
      (cs.zip (reinter cs ds)).filterMap
        (fun p => if isDigitC p.1 then some p.2 else none) = ds := by
  induction cs with
  | nil =>
    intro ds hds
    simp at hds
    subst hds; rfl
  | cons c cs ih =>
    intro ds hds
    cases hc : isDigitC c
    · simp only [List.filter_cons, hc] at hds
      rw [reinter_cons_nondigit hc, List.zip_cons_cons, List.filterMap_cons]
      simp only [hc, Bool.false_eq_true, if_neg, reduceCtorEq]
      exact ih ds (by simpa using hds)
    · simp only [List.filter_cons, hc, if_pos, List.length_cons] at hds
      match ds, hds with
      | d :: ds', hds =>
        rw [reinter_cons_digit hc, List.zip_cons_cons, List.filterMap_cons]
        simp only [hc, if_pos]
        rw [ih ds' (by simpa using hds)]

/-! ### Length and structure lemmas for the string helpers -/

theorem pyStrip_length_le (l : List Char) : (pyStrip l).length ≤ l.length := by
  unfold pyStrip dropTrailing
  calc ((l.dropWhile isPySpace).reverse.dropWhile isPySpace).reverse.length
      = ((l.dropWhile isPySpace).reverse.dropWhile isPySpace).length := by
        rw [List.length_reverse]
    _ ≤ (l.dropWhile isPySpace).reverse.length := (List.dropWhile_sublist _).length_le
    _ = (l.dropWhile isPySpace).length := by rw [List.length_reverse]
    _ ≤ l.length := (List.dropWhile_sublist _).length_le

theorem splitLinesGo_mem_length (l acc : List Char) :
    ∀ x ∈ splitLinesGo l acc, x.length ≤ l.length + acc.length := by
  induction l, acc using splitLinesGo.induct with
  | case1 acc h => simp [splitLinesGo, h]
  | case2 acc h =>
    intro x hx
    simp [splitLinesGo, h] at hx
    simp [hx]
  | case3 rest acc ih =>
    intro x hx
    rcases List.mem_cons.mp (by simpa [splitLinesGo] using hx) with h | h
    · simp [h]
    · have := ih x h; simp at this ⊢; omega
  | case4 rest acc ih =>
    intro x hx
    rcases List.mem_cons.mp (by simpa [splitLinesGo] using hx) with h | h
    · simp [h]
    · have := ih x h; simp at this ⊢; omega
  | case5 rest acc hne ih =>
    intro x hx
    rcases List.mem_cons.mp (by simpa [splitLinesGo] using hx) with h | h
    · simp [h]
    · have := ih x h; simp at this ⊢; omega
  | case6 c rest acc h1 h2 h3 ih =>
    intro x hx
    have hx' : x ∈ splitLinesGo rest (c :: acc) := by
      simpa [splitLinesGo, h1, h2, h3] using hx
    have := ih x hx'
    simp at this ⊢
    omega

theorem splitLines_mem_length {v x : List Char} (hx : x ∈ splitLines v) :
    x.length ≤ v.length := by
  have := splitLinesGo_mem_length v [] x hx
  simpa using this

theorem splitFirstEq_spec :
    ∀ l k val : List Char, splitFirstEq l = some (k, val) →
      l = k ++ '=' :: val ∧ '=' ∉ k := by
  intro l
  induction l with
  | nil => intro k val h; simp [splitFirstEq] at h
  | cons c cs ih =>
    intro k val h
    by_cases hc : c = '='
    · subst hc
      simp [splitFirstEq] at h
      obtain ⟨rfl, rfl⟩ := h
      simp
    · rw [show splitFirstEq (c :: cs) =
          (splitFirstEq cs).map (fun p => (c :: p.1, p.2)) from by
        cases c <;> simp_all [splitFirstEq]] at h
      match hs : splitFirstEq cs with
      | none => rw [hs] at h; simp at h
      | some (k', val') =>
        rw [hs] at h
        simp at h
        obtain ⟨rfl, rfl⟩ := h
        obtain ⟨he, hne⟩ := ih k' val' hs
        refine ⟨by simp [he], ?_⟩
        intro hmem
        rcases List.mem_cons.mp hmem with h | h
        · exact hc h.symm
        · exact hne h

theorem mem_leavesL : ∀ (xs : List Json) (s : List Char),
    s ∈ leavesL xs ↔ ∃ x ∈ xs, s ∈ leavesOf x := by
  intro xs s
  induction xs with
  | nil => simp [leavesL]
  | cons x xs ih => simp [leavesL, ih]

theorem mem_leavesKV : ∀ (kvs : List (List Char × Json)) (s : List Char),
    s ∈ leavesKV kvs ↔ ∃ kv ∈ kvs, s ∈ leavesOf kv.2 := by
  intro kvs s
  induction kvs with
  | nil => simp [leavesKV]
  | cons kv kvs ih => simp [leavesKV, ih]

theorem leavesKV_insertKV :
    ∀ (acc : List (List Char × Json)) (k : List Char) (v : Json) (s : List Char),
      s ∈ leavesKV (insertKV acc k v) → s ∈ leavesKV acc ∨ s ∈ leavesOf v := by
  intro acc k v
  induction acc with
  | nil => intro s hs; simp [insertKV, leavesKV] at hs; exact Or.inr hs
  | cons kv kvs ih =>
    intro s hs
    by_cases hk : kv.1 = k
    · rw [show insertKV (kv :: kvs) k v = (kv.1, v) :: kvs from by
        cases kv; simp_all [insertKV]] at hs
      simp only [leavesKV] at hs
      rcases List.mem_append.mp hs with h | h
      · exact Or.inr h
      · exact Or.inl (by simp [leavesKV]; exact Or.inr h)
    · rw [show insertKV (kv :: kvs) k v = kv :: insertKV kvs k v from by
        cases kv; simp_all [insertKV]] at hs
      simp only [leavesKV] at hs
      rcases List.mem_append.mp hs with h | h
      · exact Or.inl (by simp [leavesKV]; exact Or.inl h)
      · rcases ih s h with h' | h'
        · exact Or.inl (by simp [leavesKV]; exact Or.inr h')
        · exact Or.inr h'

theorem mapLeavesL_congr_of {f g : List Char → List Char} :
    ∀ xs : List Json, (∀ x ∈ xs, mapLeaves f x = mapLeaves g x) →
      mapLeavesL f xs = mapLeavesL g xs := by
  intro xs h
  induction xs with
  | nil => rfl
  | cons x xs ih =>
    simp only [mapLeavesL]
    rw [h x (by simp), ih (fun y hy => h y (by simp [hy]))]

theorem mapLeavesKV_congr_of {f g : List Char → List Char} :
    ∀ kvs : List (List Char × Json), (∀ kv ∈ kvs, mapLeaves f kv.2 = mapLeaves g kv.2) →
      mapLeavesKV f kvs = mapLeavesKV g kvs := by
  intro kvs h
  induction kvs with
  | nil => rfl
  | cons kv kvs ih =>
    simp only [mapLeavesKV]
    rw [h kv (by simp), ih (fun y hy => h y (by simp [hy]))]

theorem mapLeaves_congr {f g : List Char → List Char} :
    ∀ (n : Nat) (t : Json), sizeOf t ≤ n →
      (∀ s ∈ leavesOf t, f s = g s) → mapLeaves f t = mapLeaves g t := by
  intro n
  induction n using Nat.strong_induction_on with
  | _ n IH =>
    intro t ht hfg
    cases t with
    | null => rfl
    | bool b => rfl
    | num t0 => rfl
    | str s =>
      simp only [mapLeaves]
      rw [hfg s (by simp [leavesOf])]
    | arr xs =>
      simp only [mapLeaves]
      rw [mapLeavesL_congr_of xs (fun x hx => ?_)]
      have hlt : sizeOf x < sizeOf (Json.arr xs) := by
        have := List.sizeOf_lt_of_mem hx
        simp only [Json.arr.sizeOf_spec]
        omega
      exact IH (sizeOf x) (by omega) x le_rfl
        (fun s hs => hfg s (by simp only [leavesOf]; exact (mem_leavesL xs s).mpr ⟨x, hx, hs⟩))
    | obj kvs =>
      simp only [mapLeaves]
      rw [mapLeavesKV_congr_of kvs (fun kv hkv => ?_)]
      have hlt : sizeOf kv.2 < sizeOf (Json.obj kvs) := by
        have h1 := List.sizeOf_lt_of_mem hkv
        have h2 : sizeOf kv.2 < sizeOf kv := by
          cases kv; simp
        simp only [Json.obj.sizeOf_spec]
        omega
      exact IH (sizeOf kv.2) (by omega) kv.2 le_rfl
        (fun s hs => hfg s (by simp only [leavesOf]; exact (mem_leavesKV kvs s).mpr ⟨kv, hkv, hs⟩))

/-! ### Parser bounds -/

theorem skipWs_length_le (l : List Char) : (skipWs l).length ≤ l.length :=
  (List.dropWhile_sublist _).length_le

/-! ### Parser bounds (continued) -/

theorem surrPair_some {l : List Char} {m : Nat} {r : List Char}
    (h : surrPair l = some (m, r)) : l.length = r.length + 6 := by
  unfold surrPair at h
  split at h
  · split at h
    · split at h
      · simp_all
      · simp_all
    · simp_all
  · simp_all

/-- The string parser consumes at least one character more than it
decodes (the closing quote), so decoded content plus rest is strictly
shorter than the input. -/
theorem parseStrContent_bound :
    ∀ (fuel : Nat) (l s r : List Char), parseStrContent fuel l = some (s, r) →
      s.length + r.length < l.length := by
  intro fuel
  induction fuel with
  | zero => intro l s r h; simp [parseStrContent] at h
  | succ fuel ih =>
    intro l s r h
    simp only [parseStrContent] at h
    split at h
    · simp at h
    · rename_i c rest
      by_cases hq : c = '"'
      · rw [if_pos hq] at h
        simp at h
        obtain ⟨rfl, rfl⟩ := h
        simp
      rw [if_neg hq] at h
      by_cases hb : c = '\\'
      · rw [if_pos hb] at h
        split at h
        · simp at h
        · rename_i e rest2
          by_cases he : e = 'u'
          · rw [if_pos he] at h
            split at h
            · rename_i h1 h2 h3 h4 rest3
              split at h
              · simp at h
              · rename_i n hhex
                by_cases hsur : 0xD800 ≤ n ∧ n ≤ 0xDBFF
                · rw [if_pos hsur] at h
                  split at h
                  · rename_i m rest4 hsp
                    simp only [Option.map_eq_some'] at h
                    obtain ⟨⟨s', r'⟩, hp, heq⟩ := h
                    obtain ⟨rfl, rfl⟩ := Prod.mk.injEq .. ▸ heq
                    have hb1 := ih rest4 s' r' hp
                    have hb2 := surrPair_some hsp
                    simp at hb1 ⊢
                    omega
                  · rename_i hsp
                    simp only [Option.map_eq_some'] at h
                    obtain ⟨⟨s', r'⟩, hp, heq⟩ := h
                    obtain ⟨rfl, rfl⟩ := Prod.mk.injEq .. ▸ heq
                    have hb1 := ih rest3 s' r' hp
                    simp at hb1 ⊢
                    omega
                · rw [if_neg hsur] at h
                  simp only [Option.map_eq_some'] at h
                  obtain ⟨⟨s', r'⟩, hp, heq⟩ := h
                  obtain ⟨rfl, rfl⟩ := Prod.mk.injEq .. ▸ heq
                  have hb1 := ih rest3 s' r' hp
                  simp at hb1 ⊢
                  omega
            · simp at h
          · rw [if_neg he] at h
            split at h
            · rename_i d hdec
              simp only [Option.map_eq_some'] at h
              obtain ⟨⟨s', r'⟩, hp, heq⟩ := h
              obtain ⟨rfl, rfl⟩ := Prod.mk.injEq .. ▸ heq
              have hb1 := ih rest2 s' r' hp
              simp at hb1 ⊢
              omega
            · simp at h
      rw [if_neg hb] at h
      by_cases hctl : c.toNat < 32
      · rw [if_pos hctl] at h
        simp at h
      rw [if_neg hctl] at h
      simp only [Option.map_eq_some'] at h
      obtain ⟨⟨s', r'⟩, hp, heq⟩ := h
      obtain ⟨rfl, rfl⟩ := Prod.mk.injEq .. ▸ heq
      have hb1 := ih rest s' r' hp
      simp at hb1 ⊢
      omega

theorem grabFrac_eq (l : List Char) : (grabFrac l).1 ++ (grabFrac l).2 = l := by
  unfold grabFrac
  split
  · dsimp only
    split_ifs
    · rfl
    · simp [List.takeWhile_append_dropWhile]
  · rfl

theorem grabExp_eq (l : List Char) : (grabExp l).1 ++ (grabExp l).2 = l := by
  unfold grabExp
  split
  · split_ifs
    · split
      · dsimp only
        split_ifs <;> simp [List.takeWhile_append_dropWhile]
      · rfl
    · rfl
  · rfl

theorem parseNumCore_eq : ∀ l t r : List Char, parseNumCore l = some (t, r) → l = t ++ r := by
  intro l t r h
  match l with
  | [] => simp [parseNumCore] at h
  | c :: r0 =>
    simp only [parseNumCore] at h
    by_cases hc0 : c = '0'
    · rw [if_pos hc0] at h
      subst hc0
      simp at h
      obtain ⟨rfl, rfl⟩ := h
      simp only [List.cons_append, List.append_assoc, grabExp_eq, grabFrac_eq]
    · rw [if_neg hc0] at h
      split_ifs at h with hdig
      · simp at h
        obtain ⟨rfl, rfl⟩ := h
        simp only [List.cons_append, List.append_assoc, grabExp_eq, grabFrac_eq,
          List.takeWhile_append_dropWhile]

theorem parseNumTok_eq : ∀ l t r : List Char, parseNumTok l = some (t, r) → l = t ++ r := by
  intro l t r h
  unfold parseNumTok at h
  split at h
  · rename_i r0
    simp only [Option.map_eq_some'] at h
    obtain ⟨⟨t', r'⟩, hp, heq⟩ := h
    obtain ⟨rfl, rfl⟩ := Prod.mk.injEq .. ▸ heq
    have := parseNumCore_eq r0 t' r' hp
    simp [this]
  · exact parseNumCore_eq l t r h

theorem keyword_eq : ∀ (w l r : List Char), keyword w l = some r → l = w ++ r := by
  intro w
  induction w with
  | nil =>
    intro l r h
    simp [keyword] at h
    simp [h]
  | cons c w ih =>
    intro l r h
    match l with
    | [] => simp [keyword] at h
    | x :: l2 =>
      simp only [keyword] at h
      split_ifs at h with hx
      · subst hx
        rw [ih l2 r h]
        rfl

/-- Rest lengths and decoded-leaf lengths for the three mutually
recursive parsing functions: the rest never grows, and every decoded
string leaf (plus the rest) is strictly shorter than the input that
produced it — the key fact bounding the sanitizer's recursion. -/
theorem parser_bound : ∀ fuel : Nat,
    (∀ l j r, parseValue fuel l = some (j, r) →
      r.length ≤ l.length ∧ ∀ s ∈ leavesOf j, s.length + r.length < l.length) ∧
    (∀ l acc j r, parseMembers fuel l acc = some (j, r) →
      r.length ≤ l.length ∧
        ∀ s ∈ leavesOf j, s ∈ leavesKV acc ∨ s.length + r.length < l.length) ∧
    (∀ l acc j r, parseElems fuel l acc = some (j, r) →
      r.length ≤ l.length ∧
        ∀ s ∈ leavesOf j, (∃ x ∈ acc, s ∈ leavesOf x) ∨ s.length + r.length < l.length) := by
  intro fuel
  induction fuel with
  | zero =>
    refine ⟨?_, ?_, ?_⟩
    · intro l j r h; rw [show parseValue 0 l = none from rfl] at h; cases h
    · intro l acc j r h; rw [show parseMembers 0 l acc = none from rfl] at h; cases h
    · intro l acc j r h; rw [show parseElems 0 l acc = none from rfl] at h; cases h
  | succ fuel ih =>
    obtain ⟨ihV, ihM, ihE⟩ := ih
    refine ⟨?_, ?_, ?_⟩
    · intro l j r h
      match l with
      | [] =>
        rw [show parseValue (fuel + 1) ([] : List Char) = none from rfl] at h
        cases h
      | c :: rest =>
        simp only [parseValue] at h
        by_cases hq : c = '"'
        · rw [if_pos hq] at h
          simp only [Option.map_eq_some'] at h
          obtain ⟨⟨s', r'⟩, hp, heq⟩ := h
          obtain ⟨rfl, rfl⟩ := Prod.mk.injEq .. ▸ heq
          have hb := parseStrContent_bound _ _ _ _ hp
          constructor
          · simp; omega
          · intro s hs
            simp [leavesOf] at hs
            subst hs
            simp
            omega
        rw [if_neg hq] at h
        by_cases hob : c = '{'
        · rw [if_pos hob] at h
          have hsk : (skipWs rest).length ≤ rest.length := skipWs_length_le rest
          split at h
          · rename_i r2 heq
            simp at h
            obtain ⟨rfl, rfl⟩ := h
            have : r2.length + 1 = (skipWs rest).length := by rw [heq]; rfl
            constructor
            · simp; omega
            · intro s hs; simp [leavesOf, leavesKV] at hs
          · rename_i hne
            have hm := ihM _ _ _ _ h
            constructor
            · simp; omega
            · intro s hs
              rcases hm.2 s hs with h' | h'
              · simp [leavesKV] at h'
              · simp; omega
        rw [if_neg hob] at h
        by_cases har : c = '['
        · rw [if_pos har] at h
          have hsk : (skipWs rest).length ≤ rest.length := skipWs_length_le rest
          split at h
          · rename_i r2 heq
            simp at h
            obtain ⟨rfl, rfl⟩ := h
            have : r2.length + 1 = (skipWs rest).length := by rw [heq]; rfl
            constructor
            · simp; omega
            · intro s hs; simp [leavesOf, leavesL] at hs
          · rename_i hne
            have hm := ihE _ _ _ _ h
            constructor
            · simp; omega
            · intro s hs
              rcases hm.2 s hs with h' | h'
              · simp at h'
              · simp; omega
        rw [if_neg har] at h
        split at h
        · rename_i r2 hkw
          simp at h
          obtain ⟨rfl, rfl⟩ := h
          have hkeq := keyword_eq _ _ _ hkw
          exact ⟨by simp [hkeq]; try omega, by intro s hs; simp [leavesOf] at hs⟩
        split at h
        · rename_i r2 hkw
          simp at h
          obtain ⟨rfl, rfl⟩ := h
          have hkeq := keyword_eq _ _ _ hkw
          exact ⟨by simp [hkeq]; try omega, by intro s hs; simp [leavesOf] at hs⟩
        split at h
        · rename_i r2 hkw
          simp at h
          obtain ⟨rfl, rfl⟩ := h
          have hkeq := keyword_eq _ _ _ hkw
          exact ⟨by simp [hkeq]; try omega, by intro s hs; simp [leavesOf] at hs⟩
        split at h
        · rename_i r2 hkw
          simp at h
          obtain ⟨rfl, rfl⟩ := h
          have hkeq := keyword_eq _ _ _ hkw
          exact ⟨by simp [hkeq]; try omega, by intro s hs; simp [leavesOf] at hs⟩
        split at h
        · rename_i r2 hkw
          simp at h
          obtain ⟨rfl, rfl⟩ := h
          have hkeq := keyword_eq _ _ _ hkw
          exact ⟨by simp [hkeq]; try omega, by intro s hs; simp [leavesOf] at hs⟩
        split at h
        · rename_i r2 hkw
          simp at h
          obtain ⟨rfl, rfl⟩ := h
          have hkeq := keyword_eq _ _ _ hkw
          exact ⟨by simp [hkeq]; try omega, by intro s hs; simp [leavesOf] at hs⟩
        simp only [Option.map_eq_some'] at h
        obtain ⟨⟨t', r'⟩, hp, heq⟩ := h
        obtain ⟨rfl, rfl⟩ := Prod.mk.injEq .. ▸ heq
        have := parseNumTok_eq _ _ _ hp
        constructor
        · simp [this]
        · intro s hs; simp [leavesOf] at hs
    · intro l acc j r h
      simp only [parseMembers] at h
      split at h
      · rename_i rest
        split at h
        · simp at h
        · rename_i k r1 hp
          have hkb := parseStrContent_bound _ _ _ _ hp
          split at h
          · rename_i r2 heq2
            have h2 : r2.length + 1 ≤ r1.length := by
              have := skipWs_length_le r1
              rw [heq2] at this
              simpa using this
            split at h
            · simp at h
            · rename_i v r3 hq
              have hv := ihV _ _ _ hq
              have h3 : r3.length ≤ r2.length :=
                le_trans hv.1 (skipWs_length_le r2)
              split at h
              · rename_i r4 heq4
                have h4 : r4.length + 1 ≤ r3.length := by
                  have := skipWs_length_le r3
                  rw [heq4] at this
                  simpa using this
                have hm := ihM _ _ _ _ h
                have h5 : r.length ≤ r4.length :=
                  le_trans hm.1 (skipWs_length_le r4)
                constructor
                · simp; omega
                · intro s hs
                  rcases hm.2 s hs with h' | h'
                  · rcases leavesKV_insertKV _ _ _ _ h' with h'' | h''
                    · exact Or.inl h''
                    · right
                      have := hv.2 s h''
                      have h6 : (skipWs r2).length ≤ r2.length := skipWs_length_le r2
                      simp
                      omega
                  · right
                    have h6 : (skipWs r4).length ≤ r4.length := skipWs_length_le r4
                    simp
                    omega
              · rename_i r4 heq4
                have h4 : r4.length + 1 ≤ r3.length := by
                  have := skipWs_length_le r3
                  rw [heq4] at this
                  simpa using this
                simp at h
                obtain ⟨rfl, rfl⟩ := h
                constructor
                · simp; omega
                · intro s hs
                  simp only [leavesOf] at hs
                  rcases leavesKV_insertKV _ _ _ _ hs with h'' | h''
                  · exact Or.inl h''
                  · right
                    have := hv.2 s h''
                    have h6 : (skipWs r2).length ≤ r2.length := skipWs_length_le r2
                    simp
                    omega
              · simp at h
          · simp at h
      · simp at h
    · intro l acc j r h
      simp only [parseElems] at h
      split at h
      · simp at h
      · rename_i v r1 hq
        have hv := ihV _ _ _ hq
        split at h
        · rename_i r2 heq2
          have h2 : r2.length + 1 ≤ r1.length := by
            have := skipWs_length_le r1
            rw [heq2] at this
            simpa using this
          have hm := ihE _ _ _ _ h
          have h5 : r.length ≤ r2.length :=
            le_trans hm.1 (skipWs_length_le r2)
          constructor
          · omega
          · intro s hs
            rcases hm.2 s hs with h' | h'
            · obtain ⟨x, hx, hsx⟩ := h'
              rcases List.mem_append.mp hx with hx' | hx'
              · exact Or.inl ⟨x, hx', hsx⟩
              · right
                simp at hx'
                subst hx'
                have := hv.2 s hsx
                omega
            · right
              have h6 := skipWs_length_le r2
              omega
        · rename_i r2 heq2
          have h2 : r2.length + 1 ≤ r1.length := by
            have := skipWs_length_le r1
            rw [heq2] at this
            simpa using this
          simp at h
          obtain ⟨rfl, rfl⟩ := h
          constructor
          · omega
          · intro s hs
            simp only [leavesOf] at hs
            rcases (mem_leavesL _ s).mp hs with ⟨x, hx, hsx⟩
            rcases List.mem_append.mp hx with hx' | hx'
            · exact Or.inl ⟨x, hx', hsx⟩
            · right
              simp at hx'
              subst hx'
              have := hv.2 s hsx
              omega
        · simp at h

/-- Every string leaf decoded by `json.loads` is strictly shorter than
the input text. -/
theorem jsonLoads_leaf_bound {v : List Char} {t : Json} (h : jsonLoads v = some t) :
    ∀ s ∈ leavesOf t, s.length < v.length := by
  unfold jsonLoads at h
  split at h
  · rename_i j r hp
    split_ifs at h
    · simp at h
      subst h
      intro s hs
      have hb := (parser_bound (v.length + 1)).1 _ _ _ hp
      have := hb.2 s hs
      have := skipWs_length_le v
      omega
  · simp at h

/-- `sanitizeVal` is fuel-insensitive once the fuel exceeds the input
length: the JSON branch recurses only into decoded string leaves and
the env branch only into stripped value sides, both strictly shorter
than the input. -/
theorem sanitizeBody_congr (san1 san2 : List Char → List Char) (v : List Char)
    (k : Option String)
    (hj : ∀ t, jsonLoads v = some t → ∀ s ∈ leavesOf t, san1 s = san2 s)
    (he : ∀ line ∈ splitLines v, ∀ kk val, splitFirstEq line = some (kk, val) →
      san1 (pyStrip val) = san2 (pyStrip val)) :
    sanitizeBody san1 v k = sanitizeBody san2 v k := by
  simp only [sanitizeBody]
  generalize (match k with
    | none => detect_type v
    | some kk => if kk = "" then detect_type v else kk) = d
  split_ifs
  · rfl
  · rfl
  · rfl
  · match hjl : jsonLoads v with
    | none => rfl
    | some t =>
      show (d, jsonDumps (mapLeaves san1 t)) = (d, jsonDumps (mapLeaves san2 t))
      congr 2
      apply mapLeaves_congr (sizeOf t) t le_rfl
      exact hj t hjl
  · unfold envProcess
    congr 2
    apply List.map_congr_left
    intro line hline
    unfold envLine
    split_ifs
    · rfl
    · rfl
    · match hsp : splitFirstEq line with
      | none => rfl
      | some (kk, val) =>
        show kk ++ '=' :: san1 (pyStrip val) = kk ++ '=' :: san2 (pyStrip val)
        rw [he line hline kk val hsp]
    · rfl
  · rfl

/-- `sanitizeVal` is fuel-insensitive once the fuel exceeds the input
length: the JSON branch recurses only into decoded string leaves and
the env branch only into stripped value sides, both strictly shorter
than the input. -/
theorem sanitizeVal_stable :
    ∀ (L : Nat) (w : List Char), w.length ≤ L → ∀ (n m : Nat) (k : Option String),
      w.length < n → w.length < m → sanitizeVal n w k = sanitizeVal m w k := by
  intro L
  induction L using Nat.strong_induction_on with
  | _ L IH =>
    intro w hw n m k hn hm
    match n, m with
    | n' + 1, m' + 1 =>
      simp only [sanitizeVal]
      apply sanitizeBody_congr
      · intro t hjl s hs
        have hb := jsonLoads_leaf_bound hjl s hs
        rw [IH s.length (lt_of_lt_of_le hb hw) s le_rfl n' m'
          (some (detect_type s)) (by omega) (by omega)]
      · intro line hline kk val hsp
        have hlinelen : line.length ≤ w.length := splitLines_mem_length hline
        have hval : val.length < line.length := by
          have := (splitFirstEq_spec line kk val hsp).1
          subst this
          simp
          omega
        have hstrip : (pyStrip val).length ≤ val.length := pyStrip_length_le val
        rw [IH (pyStrip val).length (by omega) (pyStrip val) le_rfl n' m'
          (some (detect_type (pyStrip val))) (by omega) (by omega)]

theorem sanitizeBody_env (san : List Char → List Char) (v : List Char)
    (k : Option String)
    (hd : (match k with
      | none => detect_type v
      | some kk => if kk = "" then detect_type v else kk) = "env") :
    sanitizeBody san v k = ("env", envProcess san v) := by
  simp only [sanitizeBody]
  rw [hd]
  rfl

theorem envLine_congr {san1 san2 : List Char → List Char} (line : List Char)
    (h : ∀ kk val, splitFirstEq line = some (kk, val) →
      san1 (pyStrip val) = san2 (pyStrip val)) :
    envLine san1 line = envLine san2 line := by
  unfold envLine
  split_ifs
  · rfl
  · rfl
  · match hsp : splitFirstEq line with
    | none => rfl
    | some (kk, val) =>
      show kk ++ '=' :: san1 (pyStrip val) = kk ++ '=' :: san2 (pyStrip val)
      rw [h kk val hsp]
  · rfl

/-- The env branch of `sanitize_value`, with the nested sanitization
expressed through the canonical (full-fuel) `sanDetected`. -/
theorem env_sanitize_eq (v : List Char) (k : Option String)
    (hk : k = some "env" ∨ (k = none ∧ detect_type v = "env")) :
    sanitize_value v k =
      ("env", List.intercalate ['\n'] ((splitLines v).map (envLine sanDetected))) := by
  have hsan : sanitize_value v k =
      sanitizeBody (fun o => (sanitizeVal v.length o (some (detect_type o))).2) v k := rfl
  rw [hsan, sanitizeBody_env _ _ _ ?hd]
  case hd =>
    rcases hk with rfl | ⟨rfl, hdet⟩
    · rfl
    · exact hdet
  unfold envProcess
  congr 2
  apply List.map_congr_left
  intro line hline
  apply envLine_congr
  intro kk val hsp
  have hlinelen : line.length ≤ v.length := splitLines_mem_length hline
  have hval : val.length < line.length := by
    have := (splitFirstEq_spec line kk val hsp).1
    subst this
    simp
    omega
  have hstrip : (pyStrip val).length ≤ val.length := pyStrip_length_le val
  show (sanitizeVal v.length (pyStrip val) (some (detect_type (pyStrip val)))).2 =
    sanDetected (pyStrip val)
  unfold sanDetected sanitize_value
  rw [sanitizeVal_stable (pyStrip val).length (pyStrip val) le_rfl v.length
    ((pyStrip val).length + 1) (some (detect_type (pyStrip val))) (by omega) (by omega)]

/-! ### Number lexer: shape and completeness -/

theorem all_takeWhile (p : Char → Bool) : ∀ l : List Char, (l.takeWhile p).all p = true := by
  intro l
  induction l with
  | nil => rfl
  | cons c cs ih =>
    by_cases h : p c
    · simp [List.takeWhile_cons, h, ih]
    · simp [List.takeWhile_cons, h]

theorem takeWhile_append_all {p : Char → Bool} (ds rest : List Char) (h : ds.all p = true) :
    (ds ++ rest).takeWhile p = ds ++ rest.takeWhile p := by
  induction ds with
  | nil => rfl
  | cons c cs ih =>
    simp only [List.all_cons, Bool.and_eq_true] at h
    simp [List.takeWhile_cons, h.1, ih h.2]

theorem dropWhile_append_all {p : Char → Bool} (ds rest : List Char) (h : ds.all p = true) :
    (ds ++ rest).dropWhile p = rest.dropWhile p := by
  induction ds with
  | nil => rfl
  | cons c cs ih =>
    simp only [List.all_cons, Bool.and_eq_true] at h
    simp [List.dropWhile_cons, h.1, ih h.2]

theorem ne_nil_of_isEmpty_false {l : List Char} (h : ¬ (l.isEmpty = true)) : ¬ l = [] := by
  cases l with
  | nil => exact absurd rfl h
  | cons a as => simp

theorem takeWhile_eq_nil {p : Char → Bool} (l : List Char)
    (h : match l with | [] => True | c :: _ => p c = false) :
    l.takeWhile p = [] ∧ l.dropWhile p = l := by
  cases l with
  | nil => exact ⟨rfl, rfl⟩
  | cons c cs =>
    have hc : p c = false := h
    simp [List.takeWhile_cons, List.dropWhile_cons, hc]

theorem grabFrac_nil : grabFrac [] = ([], []) := rfl

theorem grabFrac_cons_ne {c : Char} (y : List Char) (h : ¬ c = '.') :
    grabFrac (c :: y) = ([], c :: y) := by
  unfold grabFrac
  split
  · rename_i r heq
    obtain ⟨h1, -⟩ := List.cons.injEq .. ▸ heq
    exact absurd h1 h
  · rfl

theorem grabFrac_dot (f1 rest : List Char) (h1 : ¬ f1 = [])
    (h2 : f1.all isDigitC = true) (h3 : rest.takeWhile isDigitC = [])
    (h4 : rest.dropWhile isDigitC = rest) :
    grabFrac ('.' :: (f1 ++ rest)) = ('.' :: f1, rest) := by
  cases f1 with
  | nil => exact absurd rfl h1
  | cons f fs =>
    unfold grabFrac
    split
    · rename_i r heq
      obtain ⟨-, hr⟩ := List.cons.injEq .. ▸ heq
      subst hr
      dsimp only
      rw [takeWhile_append_all (f :: fs) rest h2, h3, List.append_nil,
        dropWhile_append_all (f :: fs) rest h2, h4]
      rw [if_neg (by simp)]
    · rename_i hne
      exact ((hne ((f :: fs) ++ rest)) rfl).elim

theorem grabExp_nil : grabExp [] = ([], []) := rfl

theorem grabExp_cons_ne {c : Char} (y : List Char) (h : ¬ (c = 'e' ∨ c = 'E')) :
    grabExp (c :: y) = ([], c :: y) := by
  unfold grabExp
  dsimp only
  rw [if_neg h]

theorem grabExp_pos (e : Char) (sg xs rest : List Char)
    (he : e = 'e' ∨ e = 'E') (hsg : sg = [] ∨ sg = ['+'] ∨ sg = ['-'])
    (hxs : ¬ xs = []) (hdig : xs.all isDigitC = true)
    (h3 : rest.takeWhile isDigitC = []) (h4 : rest.dropWhile isDigitC = rest) :
    grabExp (e :: (sg ++ xs ++ rest)) = (e :: (sg ++ xs), rest) := by
  cases xs with
  | nil => exact absurd rfl hxs
  | cons x xs2 =>
  have hx : isDigitC x = true := by
    simp only [List.all_cons, Bool.and_eq_true] at hdig
    exact hdig.1
  have htk : (x :: (xs2 ++ rest)).takeWhile isDigitC = x :: xs2 := by
    have := takeWhile_append_all (x :: xs2) rest hdig
    simp only [List.cons_append] at this
    rw [this, h3, List.append_nil]
  have hdr : (x :: (xs2 ++ rest)).dropWhile isDigitC = rest := by
    have := dropWhile_append_all (x :: xs2) rest hdig
    simp only [List.cons_append] at this
    rw [this, h4]
  have hxp : ¬ (x = '+' ∨ x = '-') := by
    rintro (rfl | rfl) <;> exact absurd hx (by decide)
  rcases hsg with rfl | rfl | rfl
  · show grabExp (e :: x :: (xs2 ++ rest)) = (e :: x :: xs2, rest)
    unfold grabExp
    dsimp only
    rw [if_pos he, if_neg hxp, htk, hdr, if_neg (by simp)]
  · show grabExp (e :: '+' :: x :: (xs2 ++ rest)) = (e :: '+' :: x :: xs2, rest)
    unfold grabExp
    dsimp only
    rw [if_pos he, if_pos (Or.inl rfl), htk, hdr, if_neg (by simp)]
  · show grabExp (e :: '-' :: x :: (xs2 ++ rest)) = (e :: '-' :: x :: xs2, rest)
    unfold grabExp
    dsimp only
    rw [if_pos he, if_pos (Or.inr rfl), htk, hdr, if_neg (by simp)]

theorem grabFrac_shape {x fr r2 : List Char} (h : grabFrac x = (fr, r2)) :
    fr = [] ∨ ∃ f1, fr = '.' :: f1 ∧ ¬ f1 = [] ∧ f1.all isDigitC = true := by
  unfold grabFrac at h
  split at h
  · rename_i r
    dsimp only at h
    split_ifs at h with he
    · exact Or.inl (by simp_all)
    · right
      refine ⟨r.takeWhile isDigitC, ?_, ne_nil_of_isEmpty_false he, all_takeWhile isDigitC r⟩
      obtain ⟨rfl, -⟩ := Prod.mk.injEq .. ▸ h
      rfl
  · exact Or.inl (by simp_all)

theorem grabExp_shape {x ex r2 : List Char} (h : grabExp x = (ex, r2)) :
    ex = [] ∨ ∃ e sg xs, ex = e :: (sg ++ xs) ∧ (e = 'e' ∨ e = 'E') ∧
      (sg = [] ∨ sg = ['+'] ∨ sg = ['-']) ∧ ¬ xs = [] ∧ xs.all isDigitC = true := by
  unfold grabExp at h
  split at h
  · rename_i c r
    by_cases he : c = 'e' ∨ c = 'E'
    · rw [if_pos he] at h
      cases r with
      | nil =>
        dsimp only at h
        obtain ⟨rfl, -⟩ := Prod.mk.injEq .. ▸ h
        exact Or.inl rfl
      | cons s r2x =>
        dsimp only at h
        by_cases hs : s = '+' ∨ s = '-'
        · rw [if_pos hs] at h
          by_cases hds : (r2x.takeWhile isDigitC).isEmpty = true
          · rw [if_pos hds] at h
            obtain ⟨rfl, -⟩ := Prod.mk.injEq .. ▸ h
            exact Or.inl rfl
          · rw [if_neg hds] at h
            obtain ⟨rfl, -⟩ := Prod.mk.injEq .. ▸ h
            right
            exact ⟨c, [s], r2x.takeWhile isDigitC, rfl, he,
              by rcases hs with rfl | rfl <;> simp,
              ne_nil_of_isEmpty_false hds, all_takeWhile isDigitC r2x⟩
        · rw [if_neg hs] at h
          by_cases hds : ((s :: r2x).takeWhile isDigitC).isEmpty = true
          · rw [if_pos hds] at h
            obtain ⟨rfl, -⟩ := Prod.mk.injEq .. ▸ h
            exact Or.inl rfl
          · rw [if_neg hds] at h
            obtain ⟨rfl, -⟩ := Prod.mk.injEq .. ▸ h
            right
            exact ⟨c, [], (s :: r2x).takeWhile isDigitC, by simp, he, Or.inl rfl,
              ne_nil_of_isEmpty_false hds, all_takeWhile isDigitC (s :: r2x)⟩
    · rw [if_neg he] at h
      obtain ⟨rfl, -⟩ := Prod.mk.injEq .. ▸ h
      exact Or.inl rfl
  · obtain ⟨rfl, -⟩ := Prod.mk.injEq .. ▸ h
    exact Or.inl rfl

theorem parseNumCore_shape {l t r : List Char} (h : parseNumCore l = some (t, r)) :
    ∃ ip fr ex : List Char, t = ip ++ fr ++ ex ∧
      (ip = ['0'] ∨ ∃ d ds, ip = d :: ds ∧ isDigitC d = true ∧ ¬ d = '0' ∧
        ds.all isDigitC = true) ∧
      (fr = [] ∨ ∃ f1, fr = '.' :: f1 ∧ ¬ f1 = [] ∧ f1.all isDigitC = true) ∧
      (ex = [] ∨ ∃ e sg xs, ex = e :: (sg ++ xs) ∧ (e = 'e' ∨ e = 'E') ∧
        (sg = [] ∨ sg = ['+'] ∨ sg = ['-']) ∧ ¬ xs = [] ∧ xs.all isDigitC = true) := by
  match l with
  | [] => simp [parseNumCore] at h
  | c :: r0 =>
    simp only [parseNumCore] at h
    by_cases hc0 : c = '0'
    · rw [if_pos hc0] at h
      subst hc0
      simp at h
      obtain ⟨rfl, rfl⟩ := h
      refine ⟨['0'], (grabFrac r0).1, (grabExp (grabFrac r0).2).1, by simp, Or.inl rfl, ?_, ?_⟩
      · exact @grabFrac_shape r0 _ _ rfl
      · exact @grabExp_shape (grabFrac r0).2 _ _ rfl
    · rw [if_neg hc0] at h
      split_ifs at h with hdig
      · simp at h
        obtain ⟨rfl, rfl⟩ := h
        refine ⟨c :: r0.takeWhile isDigitC, (grabFrac (r0.dropWhile isDigitC)).1,
          (grabExp (grabFrac (r0.dropWhile isDigitC)).2).1, by simp, ?_, ?_, ?_⟩
        · exact Or.inr ⟨c, r0.takeWhile isDigitC, rfl, hdig, hc0, all_takeWhile isDigitC r0⟩
        · exact @grabFrac_shape (r0.dropWhile isDigitC) _ _ rfl
        · exact @grabExp_shape (grabFrac (r0.dropWhile isDigitC)).2 _ _ rfl

theorem parseNumTok_shape {l t r : List Char} (h : parseNumTok l = some (t, r)) :
    NumShape t := by
  unfold parseNumTok at h
  split at h
  · rename_i r0
    simp only [Option.map_eq_some'] at h
    obtain ⟨⟨t2, r2⟩, hp, heq⟩ := h
    obtain ⟨rfl, rfl⟩ := Prod.mk.injEq .. ▸ heq
    obtain ⟨ip, fr, ex, rfl, hip, hfr, hex⟩ := parseNumCore_shape hp
    exact ⟨['-'], ip, fr, ex, rfl, Or.inr rfl, hip, hfr, hex⟩
  · obtain ⟨ip, fr, ex, rfl, hip, hfr, hex⟩ := parseNumCore_shape h
    exact ⟨[], ip, fr, ex, rfl, Or.inl rfl, hip, hfr, hex⟩

theorem numStop_take {ext : List Char} (h : numStop ext = true) :
    ext.takeWhile isDigitC = [] ∧ ext.dropWhile isDigitC = ext := by
  apply takeWhile_eq_nil
  cases ext with
  | nil => trivial
  | cons c cs =>
    simp [numStop] at h
    exact h.1.1.1

theorem goodFollow_numStop {ext : List Char} (h : goodFollow ext = true) :
    numStop ext = true := by
  cases ext with
  | nil => rfl
  | cons c cs =>
    simp [goodFollow] at h
    rcases h with (rfl | rfl) | rfl <;> rfl

/-- Behind `fr ++ ex` of a well-shaped token, followed by a stopper,
the digit run is over. -/
theorem frex_stop (fr ex ext : List Char)
    (hfr : fr = [] ∨ ∃ f1, fr = '.' :: f1 ∧ ¬ f1 = [] ∧ f1.all isDigitC = true)
    (hex : ex = [] ∨ ∃ e sg xs, ex = e :: (sg ++ xs) ∧ (e = 'e' ∨ e = 'E') ∧
      (sg = [] ∨ sg = ['+'] ∨ sg = ['-']) ∧ ¬ xs = [] ∧ xs.all isDigitC = true)
    (hstop : numStop ext = true) :
    (fr ++ ex ++ ext).takeWhile isDigitC = [] ∧
      (fr ++ ex ++ ext).dropWhile isDigitC = fr ++ ex ++ ext := by
  apply takeWhile_eq_nil
  rcases hfr with rfl | ⟨f1, rfl, -, -⟩
  · rcases hex with rfl | ⟨e, sg, xs, rfl, he, -, -, -⟩
    · simp only [List.nil_append]
      cases ext with
      | nil => trivial
      | cons c cs =>
        simp [numStop] at hstop
        exact hstop.1.1.1
    · rcases he with rfl | rfl
      · exact (by decide : isDigitC 'e' = false)
      · exact (by decide : isDigitC 'E' = false)
  · exact (by decide : isDigitC '.' = false)

/-- Behind `ex` of a well-shaped token, followed by a stopper, the
digit run is over. -/
theorem ex_stop (ex ext : List Char)
    (hex : ex = [] ∨ ∃ e sg xs, ex = e :: (sg ++ xs) ∧ (e = 'e' ∨ e = 'E') ∧
      (sg = [] ∨ sg = ['+'] ∨ sg = ['-']) ∧ ¬ xs = [] ∧ xs.all isDigitC = true)
    (hstop : numStop ext = true) :
    (ex ++ ext).takeWhile isDigitC = [] ∧ (ex ++ ext).dropWhile isDigitC = ex ++ ext := by
  apply takeWhile_eq_nil
  rcases hex with rfl | ⟨e, sg, xs, rfl, he, -, -, -⟩
  · simp only [List.nil_append]
    cases ext with
    | nil => trivial
    | cons c cs =>
      simp [numStop] at hstop
      exact hstop.1.1.1
  · rcases he with rfl | rfl
    · exact (by decide : isDigitC 'e' = false)
    · exact (by decide : isDigitC 'E' = false)

theorem grabFrac_of_shape (fr tail : List Char)
    (hfr : fr = [] ∨ ∃ f1, fr = '.' :: f1 ∧ ¬ f1 = [] ∧ f1.all isDigitC = true)
    (htail : tail.takeWhile isDigitC = [] ∧ tail.dropWhile isDigitC = tail)
    (hdot : fr = [] → match tail with | [] => True | c :: _ => ¬ c = '.') :
    grabFrac (fr ++ tail) = (fr, tail) := by
  rcases hfr with rfl | ⟨f1, rfl, h1, h2⟩
  · simp only [List.nil_append]
    cases tail with
    | nil => exact grabFrac_nil
    | cons c cs => exact grabFrac_cons_ne cs (hdot rfl)
  · exact grabFrac_dot f1 tail h1 h2 htail.1 htail.2

theorem grabExp_of_shape (ex tail : List Char)
    (hex : ex = [] ∨ ∃ e sg xs, ex = e :: (sg ++ xs) ∧ (e = 'e' ∨ e = 'E') ∧
      (sg = [] ∨ sg = ['+'] ∨ sg = ['-']) ∧ ¬ xs = [] ∧ xs.all isDigitC = true)
    (htail : tail.takeWhile isDigitC = [] ∧ tail.dropWhile isDigitC = tail)
    (he : ex = [] → match tail with | [] => True | c :: _ => ¬ (c = 'e' ∨ c = 'E')) :
    grabExp (ex ++ tail) = (ex, tail) := by
  rcases hex with rfl | ⟨e, sg, xs, rfl, he2, hsg, hxs, hdig⟩
  · simp only [List.nil_append]
    cases tail with
    | nil => exact grabExp_nil
    | cons c cs => exact grabExp_cons_ne cs (he rfl)
  · exact grabExp_pos e sg xs tail he2 hsg hxs hdig htail.1 htail.2

theorem parseNumTok_cons_ne {c : Char} (y : List Char) (h : ¬ c = '-') :
    parseNumTok (c :: y) = parseNumCore (c :: y) := by
  unfold parseNumTok
  split
  · rename_i r heq
    obtain ⟨h1, -⟩ := List.cons.injEq .. ▸ heq
    exact absurd h1 h
  · rfl

theorem parseNumCore_of_shape (ip fr ex ext : List Char)
    (hip : ip = ['0'] ∨ ∃ d ds, ip = d :: ds ∧ isDigitC d = true ∧ ¬ d = '0' ∧
      ds.all isDigitC = true)
    (hfr : fr = [] ∨ ∃ f1, fr = '.' :: f1 ∧ ¬ f1 = [] ∧ f1.all isDigitC = true)
    (hex : ex = [] ∨ ∃ e sg xs, ex = e :: (sg ++ xs) ∧ (e = 'e' ∨ e = 'E') ∧
      (sg = [] ∨ sg = ['+'] ∨ sg = ['-']) ∧ ¬ xs = [] ∧ xs.all isDigitC = true)
    (hstop : numStop ext = true) :
    parseNumCore ((ip ++ fr ++ ex) ++ ext) = some (ip ++ fr ++ ex, ext) := by
  have hfx := frex_stop fr ex ext hfr hex hstop
  have hx := ex_stop ex ext hex hstop
  have hgf : grabFrac (fr ++ (ex ++ ext)) = (fr, ex ++ ext) := by
    apply grabFrac_of_shape fr (ex ++ ext) hfr hx
    intro _
    rcases hex with rfl | ⟨e, sg, xs, rfl, he, -, -, -⟩
    · simp only [List.nil_append]
      cases ext with
      | nil => trivial
      | cons c cs =>
        simp [numStop] at hstop
        exact hstop.1.1.2
    · rcases he with rfl | rfl
      · exact (by decide : ¬ ('e' = '.'))
      · exact (by decide : ¬ ('E' = '.'))
  have hge : grabExp (ex ++ ext) = (ex, ext) := by
    apply grabExp_of_shape ex ext hex (numStop_take hstop)
    intro _
    cases ext with
    | nil => trivial
    | cons c cs =>
      show ¬ (c = 'e' ∨ c = 'E')
      simp [numStop] at hstop
      rintro (rfl | rfl)
      · exact hstop.1.2 rfl
      · exact hstop.2 rfl
  rcases hip with rfl | ⟨d, ds, rfl, hd, hd0, hds⟩
  · show parseNumCore ('0' :: (fr ++ ex ++ ext)) = some ('0' :: (fr ++ ex), ext)
    simp only [parseNumCore]
    rw [if_pos True.intro]
    rw [show fr ++ ex ++ ext = fr ++ (ex ++ ext) from by simp, hgf]
    dsimp only
    rw [hge]
  · show parseNumCore (d :: (ds ++ fr ++ ex ++ ext)) = some (d :: (ds ++ fr ++ ex), ext)
    simp only [parseNumCore]
    rw [if_neg hd0, if_pos hd]
    have hds2 : (ds ++ (fr ++ ex ++ ext)).takeWhile isDigitC = ds := by
      rw [takeWhile_append_all ds _ hds, hfx.1, List.append_nil]
    have hdd2 : (ds ++ (fr ++ ex ++ ext)).dropWhile isDigitC = fr ++ (ex ++ ext) := by
      rw [dropWhile_append_all ds _ hds, hfx.2]
      simp
    rw [show ds ++ fr ++ ex ++ ext = ds ++ (fr ++ ex ++ ext) from by simp, hds2, hdd2, hgf]
    dsimp only
    rw [hge]

/-- A well-shaped number lexeme followed by a stopper re-lexes to
exactly itself. -/
theorem numShape_parse (t ext : List Char) (hs : NumShape t) (hstop : numStop ext = true) :
    parseNumTok (t ++ ext) = some (t, ext) := by
  obtain ⟨sign, ip, fr, ex, rfl, hsign, hip, hfr, hex⟩ := hs
  rcases hsign with rfl | rfl
  · simp only [List.nil_append]
    have hd : ∃ d tl, ip ++ fr ++ ex ++ ext = d :: tl ∧ isDigitC d = true := by
      rcases hip with rfl | ⟨d, ds, rfl, hdg, -, -⟩
      · exact ⟨'0', fr ++ ex ++ ext, by simp, by decide⟩
      · exact ⟨d, ds ++ fr ++ ex ++ ext, by simp, hdg⟩
    obtain ⟨d, tl, heq, hdig⟩ := hd
    rw [heq, parseNumTok_cons_ne tl
      (by intro hcon; subst hcon; exact absurd hdig (by decide)), ← heq]
    exact parseNumCore_of_shape ip fr ex ext hip hfr hex hstop
  · show parseNumTok ('-' :: (ip ++ fr ++ ex ++ ext)) = some ('-' :: (ip ++ fr ++ ex), ext)
    unfold parseNumTok
    split
    · rename_i r heq
      obtain ⟨-, hr⟩ := List.cons.injEq .. ▸ heq
      subst hr
      rw [show ip ++ fr ++ ex ++ ext = (ip ++ fr ++ ex) ++ ext from by simp,
        parseNumCore_of_shape ip fr ex ext hip hfr hex hstop]
      rfl
    · rename_i hne
      exact ((hne (ip ++ fr ++ ex ++ ext)) rfl).elim

/-! ### Well-formedness of parsed values -/

theorem noKey_append (k : List Char) (a b : List (List Char × Json)) :
    noKey k (a ++ b) = (noKey k a && noKey k b) := by
  induction a with
  | nil => simp [noKey]
  | cons kv kvs ih => simp [noKey, ih, Bool.and_assoc]

theorem insertKV_of_noKey (acc : List (List Char × Json)) (k : List Char) (v : Json)
    (h : noKey k acc = true) : insertKV acc k v = acc ++ [(k, v)] := by
  induction acc with
  | nil => rfl
  | cons kv kvs ih =>
    obtain ⟨k0, v0⟩ := kv
    simp only [noKey, Bool.and_eq_true] at h
    have h1 : ¬ k0 = k := by simpa using h.1
    simp only [insertKV]
    rw [if_neg h1, ih h.2]
    rfl

theorem noKey_insertKV (a k : List Char) (v : Json) (acc : List (List Char × Json))
    (hne : ¬ k = a) (h : noKey a acc = true) : noKey a (insertKV acc k v) = true := by
  induction acc with
  | nil => simp [insertKV, noKey, hne]
  | cons kv kvs ih =>
    obtain ⟨k0, v0⟩ := kv
    simp only [noKey, Bool.and_eq_true] at h
    simp only [insertKV]
    by_cases hk : k0 = k
    · rw [if_pos hk]
      simp only [noKey, Bool.and_eq_true]
      exact ⟨h.1, h.2⟩
    · rw [if_neg hk]
      simp only [noKey, Bool.and_eq_true]
      exact ⟨h.1, ih h.2⟩

theorem wfKV_insertKV (acc : List (List Char × Json)) (k : List Char) (v : Json)
    (ha : wfKV acc = true) (hv : wfJson v = true) : wfKV (insertKV acc k v) = true := by
  induction acc with
  | nil => simp [insertKV, wfKV, noKey, hv]
  | cons kv kvs ih =>
    obtain ⟨k0, v0⟩ := kv
    simp only [wfKV, Bool.and_eq_true] at ha
    simp only [insertKV]
    by_cases hk : k0 = k
    · rw [if_pos hk]
      simp only [wfKV, Bool.and_eq_true]
      exact ⟨⟨ha.1.1, hv⟩, ha.2⟩
    · rw [if_neg hk]
      simp only [wfKV, Bool.and_eq_true]
      exact ⟨⟨noKey_insertKV k0 k v kvs (fun hh => hk hh.symm) ha.1.1, ha.1.2⟩, ih ha.2⟩

theorem wfL_append (a b : List Json) : wfL (a ++ b) = (wfL a && wfL b) := by
  induction a with
  | nil => simp [wfL]
  | cons x xs ih => simp [wfL, ih, Bool.and_assoc]

theorem wfKV_append_right (a b : List (List Char × Json)) (h : wfKV (a ++ b) = true) :
    wfKV b = true := by
  induction a with
  | nil => simpa using h
  | cons kv kvs ih =>
    simp only [List.cons_append, wfKV, Bool.and_eq_true] at h
    exact ih h.2

theorem wfKV_mid_noKey (k : List Char) (v : Json) :
    ∀ (acc kvs : List (List Char × Json)), wfKV (acc ++ (k, v) :: kvs) = true →
      noKey k acc = true := by
  intro acc
  induction acc with
  | nil => intro kvs h; rfl
  | cons kv0 a ih =>
    intro kvs h
    obtain ⟨k0, v0⟩ := kv0
    simp only [List.cons_append, List.append_eq, wfKV, Bool.and_eq_true] at h
    have hn := h.1.1
    rw [noKey_append] at hn
    simp only [Bool.and_eq_true] at hn
    have h2 : ¬ k = k0 := by
      have := hn.2
      simp [noKey] at this
      exact this.1
    simp only [noKey, Bool.and_eq_true]
    exact ⟨by simpa using fun hh => h2 hh.symm, ih kvs h.2⟩

/-! ### Keyword lemmas -/

theorem keyword_self_append : ∀ (w l : List Char), keyword w (w ++ l) = some l := by
  intro w
  induction w with
  | nil => intro l; rfl
  | cons c w ih =>
    intro l
    show keyword (c :: w) (c :: (w ++ l)) = some l
    simp [keyword, ih]

theorem keyword_cons_ne {c x : Char} (w l : List Char) (h : ¬ x = c) :
    keyword (c :: w) (x :: l) = none := by
  simp only [keyword]
  rw [if_neg h]

/-! ### Well-formedness of every parsed value -/

theorem wf_parse : ∀ fuel : Nat,
    (∀ l j r, parseValue fuel l = some (j, r) → wfJson j = true) ∧
    (∀ l acc j r, wfKV acc = true → parseMembers fuel l acc = some (j, r) →
      wfJson j = true) ∧
    (∀ l acc j r, wfL acc = true → parseElems fuel l acc = some (j, r) →
      wfJson j = true) := by
  intro fuel
  induction fuel with
  | zero =>
    refine ⟨?_, ?_, ?_⟩
    · intro l j r h; rw [show parseValue 0 l = none from rfl] at h; cases h
    · intro l acc j r _ h; rw [show parseMembers 0 l acc = none from rfl] at h; cases h
    · intro l acc j r _ h; rw [show parseElems 0 l acc = none from rfl] at h; cases h
  | succ fuel ih =>
    obtain ⟨ihV, ihM, ihE⟩ := ih
    refine ⟨?_, ?_, ?_⟩
    · intro l j r h
      match l with
      | [] =>
        rw [show parseValue (fuel + 1) ([] : List Char) = none from rfl] at h
        cases h
      | c :: rest =>
        simp only [parseValue] at h
        by_cases hq : c = '"'
        · rw [if_pos hq] at h
          simp only [Option.map_eq_some'] at h
          obtain ⟨⟨s2, r2⟩, hp, heq⟩ := h
          obtain ⟨rfl, rfl⟩ := Prod.mk.injEq .. ▸ heq
          rfl
        rw [if_neg hq] at h
        by_cases hob : c = '{'
        · rw [if_pos hob] at h
          split at h
          · rename_i r2 heq
            simp at h
            obtain ⟨rfl, rfl⟩ := h
            rfl
          · exact ihM _ [] _ _ rfl h
        rw [if_neg hob] at h
        by_cases har : c = '['
        · rw [if_pos har] at h
          split at h
          · rename_i r2 heq
            simp at h
            obtain ⟨rfl, rfl⟩ := h
            rfl
          · exact ihE _ [] _ _ rfl h
        rw [if_neg har] at h
        split at h
        · rename_i r2 hkw; simp at h; obtain ⟨rfl, rfl⟩ := h; rfl
        split at h
        · rename_i r2 hkw; simp at h; obtain ⟨rfl, rfl⟩ := h; rfl
        split at h
        · rename_i r2 hkw; simp at h; obtain ⟨rfl, rfl⟩ := h; rfl
        split at h
        · rename_i r2 hkw; simp at h; obtain ⟨rfl, rfl⟩ := h; decide
        split at h
        · rename_i r2 hkw; simp at h; obtain ⟨rfl, rfl⟩ := h; decide
        split at h
        · rename_i r2 hkw; simp at h; obtain ⟨rfl, rfl⟩ := h; decide
        simp only [Option.map_eq_some'] at h
        obtain ⟨⟨t2, r2⟩, hp, heq⟩ := h
        obtain ⟨rfl, rfl⟩ := Prod.mk.injEq .. ▸ heq
        show validNum t2 = true
        unfold validNum
        have hsh := parseNumTok_shape hp
        have hself := numShape_parse t2 [] hsh rfl
        rw [List.append_nil] at hself
        rw [hself]
        simp
    · intro l acc j r hacc h
      simp only [parseMembers] at h
      split at h
      · rename_i rest
        split at h
        · simp at h
        · rename_i k r1 hp
          split at h
          · rename_i r2 heq2
            split at h
            · simp at h
            · rename_i v r3 hq
              have hv := ihV _ _ _ hq
              split at h
              · rename_i r4 heq4
                exact ihM _ _ _ _ (wfKV_insertKV acc k v hacc hv) h
              · rename_i r4 heq4
                simp at h
                obtain ⟨rfl, rfl⟩ := h
                show wfKV (insertKV acc k v) = true
                exact wfKV_insertKV acc k v hacc hv
              · simp at h
          · simp at h
      · simp at h
    · intro l acc j r hacc h
      simp only [parseElems] at h
      split at h
      · simp at h
      · rename_i v r1 hq
        have hv := ihV _ _ _ hq
        split at h
        · rename_i r2 heq2
          exact ihE _ _ _ _ (by simp [wfL_append, hacc, hv, wfL]) h
        · rename_i r2 heq2
          simp at h
          obtain ⟨rfl, rfl⟩ := h
          show wfL (acc ++ [v]) = true
          simp [wfL_append, hacc, hv, wfL]
        · simp at h

/-- Every value `json.loads` returns is well-formed. -/
theorem wf_of_loads {v : List Char} {t : Json} (h : jsonLoads v = some t) :
    wfJson t = true := by
  unfold jsonLoads at h
  split at h
  · rename_i j r hp
    split_ifs at h
    · simp at h
      subst h
      exact (wf_parse (v.length + 1)).1 _ _ _ hp
  · simp at h

/-! ### `mapLeaves` preserves well-formedness -/

theorem noKey_mapLeavesKV (f : List Char → List Char) (k : List Char) :
    ∀ kvs, noKey k (mapLeavesKV f kvs) = noKey k kvs := by
  intro kvs
  induction kvs with
  | nil => rfl
  | cons kv kvs ih => simp [mapLeavesKV, noKey, ih]

theorem mapLeavesL_wf (f : List Char → List Char) :
    ∀ xs : List Json, (∀ x ∈ xs, wfJson x = true → wfJson (mapLeaves f x) = true) →
      wfL xs = true → wfL (mapLeavesL f xs) = true := by
  intro xs h hwf
  induction xs with
  | nil => rfl
  | cons x xs ih =>
    simp only [wfL, Bool.and_eq_true] at hwf
    simp only [mapLeavesL, wfL, Bool.and_eq_true]
    exact ⟨h x (by simp) hwf.1, ih (fun y hy hw => h y (by simp [hy]) hw) hwf.2⟩

theorem mapLeavesKV_wf (f : List Char → List Char) :
    ∀ kvs : List (List Char × Json),
      (∀ kv ∈ kvs, wfJson kv.2 = true → wfJson (mapLeaves f kv.2) = true) →
      wfKV kvs = true → wfKV (mapLeavesKV f kvs) = true := by
  intro kvs h hwf
  induction kvs with
  | nil => rfl
  | cons kv kvs ih =>
    simp only [wfKV, Bool.and_eq_true] at hwf
    simp only [mapLeavesKV, wfKV, Bool.and_eq_true]
    refine ⟨⟨?_, h kv (by simp) hwf.1.2⟩, ih (fun y hy hw => h y (by simp [hy]) hw) hwf.2⟩
    show noKey kv.1 (mapLeavesKV f kvs) = true
    rw [noKey_mapLeavesKV]
    exact hwf.1.1

theorem mapLeaves_wf (f : List Char → List Char) :
    ∀ (n : Nat) (t : Json), sizeOf t ≤ n → wfJson t = true →
      wfJson (mapLeaves f t) = true := by
  intro n
  induction n using Nat.strong_induction_on with
  | _ n IH =>
    intro t ht hwf
    cases t with
    | null => rfl
    | bool b => rfl
    | num t0 => exact hwf
    | str s => rfl
    | arr xs =>
      show wfL (mapLeavesL f xs) = true
      refine mapLeavesL_wf f xs (fun x hx hw => ?_) hwf
      have hlt : sizeOf x < sizeOf (Json.arr xs) := by
        have := List.sizeOf_lt_of_mem hx
        simp only [Json.arr.sizeOf_spec]
        omega
      exact IH (sizeOf x) (by omega) x le_rfl hw
    | obj kvs =>
      show wfKV (mapLeavesKV f kvs) = true
      refine mapLeavesKV_wf f kvs (fun kv hkv hw => ?_) hwf
      have hlt : sizeOf kv.2 < sizeOf (Json.obj kvs) := by
        have h1 := List.sizeOf_lt_of_mem hkv
        have h2 : sizeOf kv.2 < sizeOf kv := by
          cases kv; simp
        simp only [Json.obj.sizeOf_spec]
        omega
      exact IH (sizeOf kv.2) (by omega) kv.2 le_rfl hw

/-! ### String serialization round trip -/

theorem hexVal_hexDigitCh : ∀ x : Nat, x < 16 → hexVal (hexDigitCh x) = some x := by
  intro x hx
  interval_cases x <;> decide

theorem hex4_lowctrl (n : Nat) (h : n < 32) :
    hex4 '0' '0' (hexDigitCh (n / 16)) (hexDigitCh (n % 16)) = some n := by
  unfold hex4
  rw [show hexVal '0' = some 0 from rfl, hexVal_hexDigitCh (n / 16) (by omega),
    hexVal_hexDigitCh (n % 16) (by omega)]
  simp only [Option.some.injEq]
  omega

theorem parseStr_step_esc (e d : Char) (R : List Char) (f : Nat)
    (hu : ¬ e = 'u') (hd : escDecode e = some d) :
    parseStrContent (f + 1) ('\\' :: e :: R)
      = (parseStrContent f R).map (fun p => (d :: p.1, p.2)) := by
  simp only [parseStrContent]
  rw [if_neg hu, hd, if_neg (show ¬ (('\\' : Char) = '"') from by decide), if_pos True.intro]

theorem parseStr_step_u (n : Nat) (hn : n < 32) (R : List Char) (f : Nat) :
    parseStrContent (f + 1)
      ('\\' :: 'u' :: '0' :: '0' :: hexDigitCh (n / 16) :: hexDigitCh (n % 16) :: R)
      = (parseStrContent f R).map (fun p => (Char.ofNat n :: p.1, p.2)) := by
  simp only [parseStrContent]
  rw [if_neg (show ¬ (('\\' : Char) = '"') from by decide), if_pos True.intro,
    if_pos True.intro, hex4_lowctrl n hn]
  dsimp only
  rw [if_neg (by omega : ¬ (0xD800 ≤ n ∧ n ≤ 0xDBFF))]

theorem parseStr_step_plain (c : Char) (R : List Char) (f : Nat)
    (h1 : ¬ c = '"') (h2 : ¬ c = '\\') (h3 : ¬ c.toNat < 32) :
    parseStrContent (f + 1) (c :: R)
      = (parseStrContent f R).map (fun p => (c :: p.1, p.2)) := by
  simp only [parseStrContent]
  rw [if_neg h1, if_neg h2, if_neg h3]

theorem escJsonChar_length_pos (c : Char) : 1 ≤ (escJsonChar c).length := by
  unfold escJsonChar
  split_ifs <;> simp

theorem parseStr_complete_esc_step (c e : Char) (s rest2 : List Char) (f : Nat)
    (hblock : escJsonChar c = ['\\', e]) (hu : ¬ e = 'u') (hd : escDecode e = some c)
    (hih : parseStrContent f ((s.map escJsonChar).flatten ++ '"' :: rest2) = some (s, rest2)) :
    parseStrContent (f + 1) (escJsonChar c ++ ((s.map escJsonChar).flatten ++ '"' :: rest2))
      = some (c :: s, rest2) := by
  rw [hblock]
  rw [show (['\\', e] : List Char) ++ ((s.map escJsonChar).flatten ++ '"' :: rest2)
      = '\\' :: e :: ((s.map escJsonChar).flatten ++ '"' :: rest2) from rfl]
  rw [parseStr_step_esc e c _ f hu hd, hih]
  rfl

/-- A `json.dumps`-escaped string body followed by its closing quote
parses back to exactly the original string. -/
theorem parseStr_complete : ∀ (s rest2 : List Char) (fuel : Nat),
    ((s.map escJsonChar).flatten ++ '"' :: rest2).length < fuel →
    parseStrContent fuel ((s.map escJsonChar).flatten ++ '"' :: rest2) = some (s, rest2) := by
  intro s
  induction s with
  | nil =>
    intro rest2 fuel hf
    match fuel, hf with
    | fuel + 1, _ =>
      show parseStrContent (fuel + 1) ('"' :: rest2) = some ([], rest2)
      simp [parseStrContent]
  | cons c s ih =>
    intro rest2 fuel hf
    have hsplit : (((c :: s).map escJsonChar).flatten) ++ '"' :: rest2
        = escJsonChar c ++ ((s.map escJsonChar).flatten ++ '"' :: rest2) := by
      simp
    rw [hsplit] at hf ⊢
    have hfc := escJsonChar_length_pos c
    match fuel, hf with
    | f + 1, hf =>
      have hb : ((s.map escJsonChar).flatten ++ '"' :: rest2).length < f := by
        simp only [List.length_append, List.length_cons] at hf ⊢
        omega
      have hihf := ih rest2 f hb
      by_cases h1 : c = '"'
      · subst h1
        exact parseStr_complete_esc_step '"' '"' s rest2 f rfl (by decide) rfl hihf
      by_cases h2 : c = '\\'
      · subst h2
        exact parseStr_complete_esc_step '\\' '\\' s rest2 f rfl (by decide) rfl hihf
      by_cases h3 : c = '\n'
      · subst h3
        exact parseStr_complete_esc_step '\n' 'n' s rest2 f rfl (by decide) rfl hihf
      by_cases h4 : c = '\r'
      · subst h4
        exact parseStr_complete_esc_step '\r' 'r' s rest2 f rfl (by decide) rfl hihf
      by_cases h5 : c = '\t'
      · subst h5
        exact parseStr_complete_esc_step '\t' 't' s rest2 f rfl (by decide) rfl hihf
      by_cases h6 : c = '\x08'
      · subst h6
        exact parseStr_complete_esc_step '\x08' 'b' s rest2 f rfl (by decide) rfl hihf
      by_cases h7 : c = '\x0c'
      · subst h7
        exact parseStr_complete_esc_step '\x0c' 'f' s rest2 f rfl (by decide) rfl hihf
      by_cases h8 : c.toNat < 32
      · have hblock : escJsonChar c
            = ['\\', 'u', '0', '0', hexDigitCh (c.toNat / 16), hexDigitCh (c.toNat % 16)] := by
          unfold escJsonChar
          rw [if_neg h1, if_neg h2, if_neg h3, if_neg h4, if_neg h5, if_neg h6, if_neg h7,
            if_pos h8]
        rw [hblock]
        rw [show (['\\', 'u', '0', '0', hexDigitCh (c.toNat / 16), hexDigitCh (c.toNat % 16)] :
              List Char) ++ ((s.map escJsonChar).flatten ++ '"' :: rest2)
            = '\\' :: 'u' :: '0' :: '0' :: hexDigitCh (c.toNat / 16) ::
              hexDigitCh (c.toNat % 16) :: ((s.map escJsonChar).flatten ++ '"' :: rest2)
            from rfl]
        rw [parseStr_step_u c.toNat h8 _ f, hihf, Char.ofNat_toNat]
        rfl
      · have hblock : escJsonChar c = [c] := by
          unfold escJsonChar
          rw [if_neg h1, if_neg h2, if_neg h3, if_neg h4, if_neg h5, if_neg h6, if_neg h7,
            if_neg h8]
        rw [hblock]
        rw [show ([c] : List Char) ++ ((s.map escJsonChar).flatten ++ '"' :: rest2)
            = c :: ((s.map escJsonChar).flatten ++ '"' :: rest2) from rfl]
        rw [parseStr_step_plain c _ f h1 h2 h8, hihf]
        rfl

/-! ### Head characters of serialized values -/

theorem digit_head_ok {c : Char} (h : isDigitC c = true) :
    isJsonWs c = false ∧ ¬ c = ']' ∧ ¬ c = '}' := by
  refine ⟨?_, fun hc => by subst hc; exact absurd h (by decide),
    fun hc => by subst hc; exact absurd h (by decide)⟩
  cases hws : isJsonWs c
  · rfl
  · exfalso
    simp [isJsonWs] at hws
    rcases hws with ((rfl | rfl) | rfl) | rfl <;> exact absurd h (by decide)

theorem validNum_head {t : List Char} (h : validNum t = true) :
    ∃ c tl, t = c :: tl ∧ (c = '-' ∨ isDigitC c = true ∨ c = 'N' ∨ c = 'I') := by
  unfold validNum at h
  simp only [Bool.or_eq_true, decide_eq_true_eq] at h
  rcases h with ((hnum | hnan) | hinf) | hninf
  · split at hnum
    · rename_i t2 r heq
      simp only [Bool.and_eq_true, decide_eq_true_eq] at hnum
      obtain ⟨rfl, -⟩ := hnum
      obtain ⟨sign, ip, fr, ex, heqt, hsign, hip, hfr, hex⟩ := parseNumTok_shape heq
      rcases hsign with rfl | rfl
      · rcases hip with rfl | ⟨d, ds, rfl, hd, -, -⟩
        · exact ⟨'0', fr ++ ex, by rw [heqt]; simp, Or.inr (Or.inl (by decide))⟩
        · exact ⟨d, ds ++ fr ++ ex, by rw [heqt]; simp, Or.inr (Or.inl hd)⟩
      · exact ⟨'-', ip ++ fr ++ ex, by rw [heqt]; simp, Or.inl rfl⟩
    · cases hnum
  · exact ⟨'N', ['a', 'N'], hnan, Or.inr (Or.inr (Or.inl rfl))⟩
  · exact ⟨'I', ['n', 'f', 'i', 'n', 'i', 't', 'y'], hinf, Or.inr (Or.inr (Or.inr rfl))⟩
  · exact ⟨'-', infinityTok, hninf, Or.inl rfl⟩

/-- Every serialized well-formed value starts with a non-whitespace
character that is neither `']'` nor `'}'`. -/
theorem dumps_head {v : Json} (h : wfJson v = true) :
    ∃ c tl, jsonDumps v = c :: tl ∧ isJsonWs c = false ∧ ¬ c = ']' ∧ ¬ c = '}' := by
  match v with
  | Json.null => exact ⟨'n', _, rfl, by decide, by decide, by decide⟩
  | Json.bool true => exact ⟨'t', _, rfl, by decide, by decide, by decide⟩
  | Json.bool false => exact ⟨'f', _, rfl, by decide, by decide, by decide⟩
  | Json.str s => exact ⟨'"', _, rfl, by decide, by decide, by decide⟩
  | Json.arr [] => exact ⟨'[', _, rfl, by decide, by decide, by decide⟩
  | Json.arr (x :: xs) => exact ⟨'[', _, rfl, by decide, by decide, by decide⟩
  | Json.obj [] => exact ⟨'{', _, rfl, by decide, by decide, by decide⟩
  | Json.obj (kv :: kvs) => exact ⟨'{', _, rfl, by decide, by decide, by decide⟩
  | Json.num t0 =>
    have hv : validNum t0 = true := h
    obtain ⟨c, tl, heq, hc⟩ := validNum_head hv
    refine ⟨c, tl, heq, ?_, ?_, ?_⟩
    · rcases hc with rfl | hd | rfl | rfl
      · decide
      · exact (digit_head_ok hd).1
      · decide
      · decide
    · rcases hc with rfl | hd | rfl | rfl
      · decide
      · exact (digit_head_ok hd).2.1
      · decide
      · decide
    · rcases hc with rfl | hd | rfl | rfl
      · decide
      · exact (digit_head_ok hd).2.2
      · decide
      · decide

theorem elemsFollow (xs : List Json) (ext : List Char) :
    goodFollow (dumpsElems xs ++ ']' :: ext) = true := by
  cases xs <;> rfl

theorem membersFollow (kvs : List (List Char × Json)) (ext : List Char) :
    goodFollow (dumpsMembers kvs ++ '}' :: ext) = true := by
  cases kvs <;> rfl

/-- A non-whitespace head character that is not a quote or a bracket
keeps `skipWs` from consuming anything. -/
theorem skipWs_cons_of {c : Char} (l : List Char) (h : isJsonWs c = false) :
    skipWs (c :: l) = c :: l := by
  simp [skipWs, List.dropWhile_cons, h]

/-- One leading blank before a non-whitespace character is all that
`skipWs` eats in serialized output. -/
theorem skipWs_space_cons {c : Char} (l : List Char) (h : isJsonWs c = false) :
    skipWs (' ' :: c :: l) = c :: l := by
  unfold skipWs
  rw [List.dropWhile_cons, if_pos (by decide : isJsonWs ' ' = true),
    List.dropWhile_cons, if_neg (by simp [h])]

/-- A valid numeric lexeme at the head of the input, followed by a
stopper, is scanned as a number (every keyword constant fails on its
first characters). -/
theorem parseValue_num (n : Nat) (t ext : List Char) (hs : NumShape t)
    (hstop : numStop ext = true) :
    parseValue (n + 1) (t ++ ext) = some (Json.num t, ext) := by
  obtain ⟨sign, ip, fr, ex, rfl, hsign, hip, hfr, hex⟩ := hs
  have hne : ∀ (d : Char), isDigitC d = true → ∀ x : Char, isDigitC x = false → ¬ d = x :=
    fun d hd x hx hdx => absurd (hdx ▸ hd) (by simp [hx])
  rcases hsign with rfl | rfl
  · obtain ⟨d, dtl, rfl, hdig⟩ : ∃ d dtl, ip = d :: dtl ∧ isDigitC d = true := by
      rcases hip with rfl | ⟨d, ds, hds, hdg, -, -⟩
      · exact ⟨'0', [], rfl, by decide⟩
      · exact ⟨d, ds, hds, hdg⟩
    simp only [List.nil_append, List.cons_append, List.append_assoc]
    simp only [parseValue]
    rw [if_neg (hne d hdig '"' (by decide)), if_neg (hne d hdig '{' (by decide)),
      if_neg (hne d hdig '[' (by decide))]
    rw [keyword_cons_ne _ _ (hne d hdig 't' (by decide)),
      keyword_cons_ne _ _ (hne d hdig 'f' (by decide)),
      keyword_cons_ne _ _ (hne d hdig 'n' (by decide)),
      keyword_cons_ne _ _ (hne d hdig 'N' (by decide))]
    rw [show (infinityTok : List Char) = 'I' :: ['n', 'f', 'i', 'n', 'i', 't', 'y'] from rfl]
    rw [keyword_cons_ne _ _ (hne d hdig 'I' (by decide)),
      keyword_cons_ne _ _ (hne d hdig '-' (by decide))]
    rw [show d :: (dtl ++ (fr ++ (ex ++ ext))) = (d :: (dtl ++ (fr ++ ex))) ++ ext
      from by simp]
    rw [numShape_parse (d :: (dtl ++ (fr ++ ex))) ext
      ⟨[], d :: dtl, fr, ex, by simp, Or.inl rfl, hip, hfr, hex⟩ hstop]
    rfl
  · obtain ⟨d2, dtl2, rfl, hdig2⟩ : ∃ d2 dtl2, ip = d2 :: dtl2 ∧ isDigitC d2 = true := by
      rcases hip with rfl | ⟨d, ds, hds, hdg, -, -⟩
      · exact ⟨'0', [], rfl, by decide⟩
      · exact ⟨d, ds, hds, hdg⟩
    simp only [List.cons_append, List.nil_append, List.append_assoc]
    simp only [parseValue]
    rw [if_neg (by decide : ¬ (('-' : Char) = '"')),
      if_neg (by decide : ¬ (('-' : Char) = '{')),
      if_neg (by decide : ¬ (('-' : Char) = '['))]
    rw [keyword_cons_ne _ _ (by decide : ¬ (('-' : Char) = 't')),
      keyword_cons_ne _ _ (by decide : ¬ (('-' : Char) = 'f')),
      keyword_cons_ne _ _ (by decide : ¬ (('-' : Char) = 'n')),
      keyword_cons_ne _ _ (by decide : ¬ (('-' : Char) = 'N'))]
    rw [show (infinityTok : List Char) = 'I' :: ['n', 'f', 'i', 'n', 'i', 't', 'y'] from rfl]
    rw [keyword_cons_ne _ _ (by decide : ¬ (('-' : Char) = 'I'))]
    rw [show keyword ('-' :: 'I' :: ['n', 'f', 'i', 'n', 'i', 't', 'y'])
        ('-' :: d2 :: (dtl2 ++ (fr ++ (ex ++ ext))))
        = keyword ('I' :: ['n', 'f', 'i', 'n', 'i', 't', 'y'])
          (d2 :: (dtl2 ++ (fr ++ (ex ++ ext)))) from by simp [keyword]]
    rw [keyword_cons_ne _ _ (hne d2 hdig2 'I' (by decide))]
    rw [show ('-' : Char) :: d2 :: (dtl2 ++ (fr ++ (ex ++ ext)))
        = ('-' :: d2 :: (dtl2 ++ (fr ++ ex))) ++ ext from by simp]
    rw [numShape_parse ('-' :: d2 :: (dtl2 ++ (fr ++ ex))) ext
      ⟨['-'], d2 :: dtl2, fr, ex, by simp, Or.inr rfl, hip, hfr, hex⟩ hstop]
    rfl

/-- Completeness of the scanner on serialized well-formed values:
`json.dumps` output parses back to exactly the original value (with any
good follower as the rest). -/
theorem dumps_complete : ∀ fuel : Nat,
    (∀ v ext, wfJson v = true → goodFollow ext = true → (jsonDumps v).length ≤ fuel →
      parseValue fuel (jsonDumps v ++ ext) = some (v, ext)) ∧
    (∀ k vv kvs acc ext, wfKV (acc ++ (k, vv) :: kvs) = true →
      (encodeStr k).length + (jsonDumps vv).length + (dumpsMembers kvs).length + 3 ≤ fuel →
      parseMembers fuel
        (encodeStr k ++ ':' :: ' ' :: (jsonDumps vv ++ (dumpsMembers kvs ++ '}' :: ext))) acc
        = some (Json.obj (acc ++ (k, vv) :: kvs), ext)) ∧
    (∀ x xs acc ext, wfJson x = true → wfL xs = true →
      (jsonDumps x).length + (dumpsElems xs).length + 1 ≤ fuel →
      parseElems fuel (jsonDumps x ++ (dumpsElems xs ++ ']' :: ext)) acc
        = some (Json.arr (acc ++ x :: xs), ext)) := by
  intro fuel
  induction fuel with
  | zero =>
    refine ⟨?_, ?_, ?_⟩
    · intro v ext hwf hgf hlen
      obtain ⟨c, tl, hd, -⟩ := dumps_head hwf
      rw [hd] at hlen
      simp at hlen
    · intro k vv kvs acc ext hwf hlen
      omega
    · intro x xs acc ext hwx hwxs hlen
      omega
  | succ n ih =>
    obtain ⟨ihV, ihM, ihE⟩ := ih
    refine ⟨?_, ?_, ?_⟩
    · intro v ext hwf hgf hlen
      match v with
      | Json.null => rfl
      | Json.bool true => rfl
      | Json.bool false => rfl
      | Json.num t0 =>
        have hv : validNum t0 = true := hwf
        unfold validNum at hv
        simp only [Bool.or_eq_true, decide_eq_true_eq] at hv
        rcases hv with ((hnum | rfl) | rfl) | rfl
        · split at hnum
          · rename_i t2 r heq
            simp only [Bool.and_eq_true, decide_eq_true_eq] at hnum
            obtain ⟨rfl, -⟩ := hnum
            exact parseValue_num n t2 ext (parseNumTok_shape heq) (goodFollow_numStop hgf)
          · cases hnum
        · rfl
        · rfl
        · rfl
      | Json.str s =>
        show parseValue (n + 1) (encodeStr s ++ ext) = some (Json.str s, ext)
        rw [show encodeStr s ++ ext
            = '"' :: ((s.map escJsonChar).flatten ++ '"' :: ext) from by simp [encodeStr]]
        simp only [parseValue]
        rw [if_pos True.intro]
        rw [parseStr_complete s ext _ (Nat.lt_succ_self _)]
        rfl
      | Json.arr [] => rfl
      | Json.obj [] => rfl
      | Json.arr (x :: xs) =>
        have hwf2 : wfJson x = true ∧ wfL xs = true := by
          simpa [wfJson, wfL] using hwf
        obtain ⟨c, tl, hdx, hcws, hcrb, -⟩ := dumps_head hwf2.1
        rw [show jsonDumps (Json.arr (x :: xs)) ++ ext
            = '[' :: (jsonDumps x ++ (dumpsElems xs ++ ']' :: ext)) from by simp [jsonDumps]]
        simp only [parseValue]
        rw [if_neg (by decide : ¬ (('[' : Char) = '"')),
          if_neg (by decide : ¬ (('[' : Char) = '{')), if_pos True.intro]
        rw [hdx, List.cons_append, skipWs_cons_of _ hcws]
        split
        · rename_i r2 heq
          obtain ⟨hc, -⟩ := List.cons.injEq .. ▸ heq
          exact absurd hc hcrb
        · have hE := ihE x xs [] ext hwf2.1 hwf2.2 (by
            simp [jsonDumps] at hlen
            omega)
          rw [hdx, List.cons_append] at hE
          simpa using hE
      | Json.obj (kv :: kvs) =>
        obtain ⟨k, vv⟩ := kv
        have hwkv : wfKV ((k, vv) :: kvs) = true := hwf
        rw [show jsonDumps (Json.obj ((k, vv) :: kvs)) ++ ext
            = '{' :: ('"' :: ((k.map escJsonChar).flatten
              ++ '"' :: (':' :: ' ' :: (jsonDumps vv ++ (dumpsMembers kvs ++ '}' :: ext)))))
            from by simp [jsonDumps, encodeStr]]
        simp only [parseValue]
        rw [if_neg (by decide : ¬ (('{' : Char) = '"')), if_pos True.intro]
        rw [skipWs_cons_of _ (by decide : isJsonWs '"' = false)]
        split
        · rename_i r2 heq
          obtain ⟨hc, -⟩ := List.cons.injEq .. ▸ heq
          exact absurd hc (by decide)
        · have hM := ihM k vv kvs [] ext hwkv (by
            simp [jsonDumps, encodeStr] at hlen ⊢
            omega)
          rw [show encodeStr k ++ ':' :: ' ' :: (jsonDumps vv ++ (dumpsMembers kvs ++ '}' :: ext))
              = '"' :: ((k.map escJsonChar).flatten
                ++ '"' :: (':' :: ' ' :: (jsonDumps vv ++ (dumpsMembers kvs ++ '}' :: ext))))
              from by simp [encodeStr]] at hM
          simpa using hM
    · intro k vv kvs acc ext hwf hlen
      have hkvwf := wfKV_append_right acc _ hwf
      simp only [wfKV, Bool.and_eq_true] at hkvwf
      obtain ⟨⟨hnk2, hwvv⟩, hwkvs⟩ := hkvwf
      have hnk : noKey k acc = true := wfKV_mid_noKey k vv acc kvs hwf
      have hikv : insertKV acc k vv = acc ++ [(k, vv)] := insertKV_of_noKey acc k vv hnk
      obtain ⟨c, tl, hdv, hcws, -, -⟩ := dumps_head hwvv
      simp only [parseMembers]
      rw [show encodeStr k ++ ':' :: ' ' :: (jsonDumps vv ++ (dumpsMembers kvs ++ '}' :: ext))
          = '"' :: ((k.map escJsonChar).flatten
            ++ '"' :: (':' :: ' ' :: (jsonDumps vv ++ (dumpsMembers kvs ++ '}' :: ext))))
          from by simp [encodeStr]]
      split
      · rename_i rest heq
        obtain ⟨-, hrest⟩ := List.cons.injEq .. ▸ heq
        subst hrest
        rw [parseStr_complete k
          (':' :: ' ' :: (jsonDumps vv ++ (dumpsMembers kvs ++ '}' :: ext)))
          _ (Nat.lt_succ_self _)]
        dsimp only
        rw [skipWs_cons_of _ (by decide : isJsonWs ':' = false)]
        split
        · rename_i r2 heq2
          obtain ⟨-, hr2⟩ := List.cons.injEq .. ▸ heq2
          subst hr2
          rw [hdv, List.cons_append,
            skipWs_space_cons (tl ++ (dumpsMembers kvs ++ '}' :: ext)) hcws]
          have hV := ihV vv (dumpsMembers kvs ++ '}' :: ext) hwvv (membersFollow kvs ext)
            (by omega)
          rw [hdv, List.cons_append] at hV
          rw [hV]
          dsimp only
          cases kvs with
          | nil =>
            rw [show skipWs (dumpsMembers ([] : List (List Char × Json)) ++ '}' :: ext)
                = '}' :: ext from rfl]
            split
            · rename_i r4 heq4
              obtain ⟨hc4, -⟩ := List.cons.injEq .. ▸ heq4
              exact absurd hc4 (by decide)
            · rename_i r4 heq4
              obtain ⟨-, hr4⟩ := List.cons.injEq .. ▸ heq4
              subst hr4
              rw [hikv]
            · rename_i hne1 hne2
              exact ((hne2 ext) rfl).elim
          | cons kv2 kvs2 =>
            obtain ⟨k2, v2⟩ := kv2
            rw [show skipWs (dumpsMembers ((k2, v2) :: kvs2) ++ '}' :: ext)
                = ',' :: (' ' :: ((encodeStr k2 ++ ':' :: ' ' :: jsonDumps v2
                  ++ dumpsMembers kvs2) ++ '}' :: ext))
                from by simp [dumpsMembers, skipWs, isJsonWs]]
            split
            · rename_i r4 heq4
              obtain ⟨-, hr4⟩ := List.cons.injEq .. ▸ heq4
              subst hr4
              rw [show ((' ' :: ((encodeStr k2 ++ ':' :: ' ' :: jsonDumps v2
                  ++ dumpsMembers kvs2) ++ '}' :: ext)) : List Char)
                  = ' ' :: '"' :: ((k2.map escJsonChar).flatten
                    ++ '"' :: (':' :: ' ' :: (jsonDumps v2 ++ (dumpsMembers kvs2 ++ '}' :: ext))))
                  from by simp [encodeStr]]
              rw [skipWs_space_cons _ (by decide : isJsonWs '"' = false)]
              have hM2 := ihM k2 v2 kvs2 (insertKV acc k vv) ext
                (by rw [hikv, List.append_assoc]; exact hwf)
                (by
                  simp [dumpsMembers] at hlen
                  omega)
              rw [show encodeStr k2
                  ++ ':' :: ' ' :: (jsonDumps v2 ++ (dumpsMembers kvs2 ++ '}' :: ext))
                  = '"' :: ((k2.map escJsonChar).flatten
                    ++ '"' :: (':' :: ' ' :: (jsonDumps v2
                      ++ (dumpsMembers kvs2 ++ '}' :: ext))))
                  from by simp [encodeStr]] at hM2
              rw [hM2, hikv, List.append_assoc]
              rfl
            · rename_i r4 heq4
              obtain ⟨hc4, -⟩ := List.cons.injEq .. ▸ heq4
              exact absurd hc4 (by decide)
            · rename_i hne1 hne2
              exact ((hne1 (' ' :: ((encodeStr k2 ++ ':' :: ' ' :: jsonDumps v2
                ++ dumpsMembers kvs2) ++ '}' :: ext))) rfl).elim
        · rename_i hne
          exact ((hne (' ' :: (jsonDumps vv ++ (dumpsMembers kvs ++ '}' :: ext)))) rfl).elim
      · rename_i hne
        exact ((hne ((k.map escJsonChar).flatten
          ++ '"' :: (':' :: ' ' :: (jsonDumps vv ++ (dumpsMembers kvs ++ '}' :: ext))))) rfl).elim
    · intro x xs acc ext hwx hwxs hlen
      simp only [parseElems]
      have hV := ihV x (dumpsElems xs ++ ']' :: ext) hwx (elemsFollow xs ext) (by omega)
      rw [hV]
      dsimp only
      cases xs with
      | nil =>
        rw [show skipWs (dumpsElems ([] : List Json) ++ ']' :: ext) = ']' :: ext from rfl]
        split
        · rename_i r2 heq2
          obtain ⟨hc2, -⟩ := List.cons.injEq .. ▸ heq2
          exact absurd hc2 (by decide)
        · rename_i r2 heq2
          obtain ⟨-, hr2⟩ := List.cons.injEq .. ▸ heq2
          subst hr2
          rfl
        · rename_i hne1 hne2
          exact ((hne2 ext) rfl).elim
      | cons y ys =>
        have hwys : wfJson y = true ∧ wfL ys = true := by
          simpa [wfL] using hwxs
        obtain ⟨c, tl, hdy, hcws, -, -⟩ := dumps_head hwys.1
        rw [show skipWs (dumpsElems (y :: ys) ++ ']' :: ext)
            = ',' :: (' ' :: ((jsonDumps y ++ dumpsElems ys) ++ ']' :: ext))
            from by simp [dumpsElems, skipWs, isJsonWs]]
        split
        · rename_i r2 heq2
          obtain ⟨-, hr2⟩ := List.cons.injEq .. ▸ heq2
          subst hr2
          rw [hdy]
          rw [show ((' ' :: ((c :: tl ++ dumpsElems ys) ++ ']' :: ext)) : List Char)
              = ' ' :: c :: (tl ++ (dumpsElems ys ++ ']' :: ext)) from by simp]
          rw [skipWs_space_cons _ hcws]
          have hE := ihE y ys (acc ++ [x]) ext hwys.1 hwys.2 (by
            simp [dumpsElems] at hlen
            omega)
          rw [hdy, List.cons_append] at hE
          rw [hE]
          simp
        · rename_i r2 heq2
          obtain ⟨hc2, -⟩ := List.cons.injEq .. ▸ heq2
          exact absurd hc2 (by decide)
        · rename_i hne1 hne2
          exact ((hne1 (' ' :: ((jsonDumps y ++ dumpsElems ys) ++ ']' :: ext))) rfl).elim

/-! ### The text branch as one per-character block map -/

/-- Per-character view of `escape_sql`. -/
def sqlBlock (c : Char) : List Char :=
  if c = '\'' then ['\'', '\''] else [c]

/-- Per-character view of the whole text branch
`html_escape (escape_sql ·)`. -/
def txBlock (c : Char) : List Char :=
  ((sqlBlock c).map hHtml).flatten

theorem escape_sql_eq_sqlBlock (v : List Char) :
    escape_sql v = (v.map sqlBlock).flatten := by
  induction v with
  | nil => rfl
  | cons c cs ih =>
    show (if c = '\'' then _ else _) ++ escape_sql cs = sqlBlock c ++ (cs.map sqlBlock).flatten
    rw [ih]
    rfl

theorem html_escape_append (a b : List Char) :
    html_escape (a ++ b) = html_escape a ++ html_escape b := by
  simp [html_escape_eq_hHtml]

theorem text_branch_eq (v : List Char) :
    html_escape (escape_sql v) = (v.map txBlock).flatten := by
  rw [escape_sql_eq_sqlBlock]
  induction v with
  | nil => rfl
  | cons c cs ih =>
    simp only [List.map_cons, List.flatten_cons]
    rw [html_escape_append, ih]
    congr 1
    rw [html_escape_eq_hHtml]
    rfl

/-- The five characters the text branch expands. -/
def escCh (c : Char) : Bool :=
  c = '&' || c = '<' || c = '>' || c = '"' || c = '\''

theorem txBlock_plain {c : Char} (h : escCh c = false) : txBlock c = [c] := by
  simp only [escCh, Bool.or_eq_false_iff, decide_eq_false_iff_not] at h
  obtain ⟨⟨⟨⟨h1, h2⟩, h3⟩, h4⟩, h5⟩ := h
  simp [txBlock, sqlBlock, hHtml, h1, h2, h3, h4, h5]

theorem txBlock_ne_nil (c : Char) : ¬ txBlock c = [] := by
  by_cases h : escCh c = true
  · simp only [escCh, Bool.or_eq_true, decide_eq_true_eq] at h
    rcases h with (((rfl | rfl) | rfl) | rfl) | rfl <;> decide
  · rw [txBlock_plain (by simpa using h)]
    simp

theorem amp_mem_txBlock {c : Char} (h : escCh c = true) : '&' ∈ txBlock c := by
  simp only [escCh, Bool.or_eq_true, decide_eq_true_eq] at h
  rcases h with (((rfl | rfl) | rfl) | rfl) | rfl <;> decide

/-- Whitespace never occurs inside a block of a non-whitespace
character, and a whitespace character maps to itself. -/
theorem txBlock_ws {c : Char} (h : isPySpace c = true) : txBlock c = [c] := by
  refine txBlock_plain ?_
  cases he : escCh c
  · rfl
  · exfalso
    simp only [escCh, Bool.or_eq_true, decide_eq_true_eq] at he
    rcases he with (((rfl | rfl) | rfl) | rfl) | rfl <;> simp [isPySpace] at h

theorem txBlock_no_ws {c d : Char} (hc : isPySpace c = false) (hd : d ∈ txBlock c) :
    isPySpace d = false := by
  by_cases h : escCh c = true
  · simp only [escCh, Bool.or_eq_true, decide_eq_true_eq] at h
    rcases h with (((rfl | rfl) | rfl) | rfl) | rfl
    · rw [show txBlock '&' = ['&', 'a', 'm', 'p', ';'] from by decide] at hd
      fin_cases hd <;> rfl
    · rw [show txBlock '<' = ['&', 'l', 't', ';'] from by decide] at hd
      fin_cases hd <;> rfl
    · rw [show txBlock '>' = ['&', 'g', 't', ';'] from by decide] at hd
      fin_cases hd <;> rfl
    · rw [show txBlock '"' = ['&', 'q', 'u', 'o', 't', ';'] from by decide] at hd
      fin_cases hd <;> rfl
    · rw [show txBlock '\'' =
          ['&', '#', 'x', '2', '7', ';', '&', '#', 'x', '2', '7', ';'] from by decide] at hd
      fin_cases hd <;> rfl
  · rw [txBlock_plain (by simpa using h)] at hd
    simp at hd
    subst hd
    exact hc

theorem quot_not_mem_txBlock (c : Char) : ¬ '"' ∈ txBlock c := by
  by_cases h : escCh c = true
  · simp only [escCh, Bool.or_eq_true, decide_eq_true_eq] at h
    rcases h with (((rfl | rfl) | rfl) | rfl) | rfl <;> decide
  · rw [txBlock_plain (by simpa using h)]
    intro hm
    simp at hm
    subst hm
    simp [escCh] at h

/-- A character that occurs in no multi-character block: its only
occurrences in blocks are as the whole block of itself. -/
theorem txBlock_only_self {p : Char} (hp : escCh p = false)
    (hmulti : ¬ p = ';' ∧ ¬ p = '&' ∧ ¬ p = 'a' ∧ ¬ p = 'm' ∧ ¬ p = 'p' ∧ ¬ p = 'l' ∧
      ¬ p = 't' ∧ ¬ p = 'g' ∧ ¬ p = 'q' ∧ ¬ p = 'u' ∧ ¬ p = 'o' ∧ ¬ p = '#' ∧
      ¬ p = 'x' ∧ ¬ p = '2' ∧ ¬ p = '7') :
    ∀ c : Char, p ∈ txBlock c → c = p ∧ txBlock c = [p] := by
  intro c hm
  by_cases h : escCh c = true
  · exfalso
    obtain ⟨q1, q2, q3, q4, q5, q6, q7, q8, q9, q10, q11, q12, q13, q14, q15⟩ := hmulti
    simp only [escCh, Bool.or_eq_true, decide_eq_true_eq] at h
    rcases h with (((rfl | rfl) | rfl) | rfl) | rfl
    · rw [show txBlock '&' = ['&', 'a', 'm', 'p', ';'] from by decide] at hm
      fin_cases hm <;> simp_all
    · rw [show txBlock '<' = ['&', 'l', 't', ';'] from by decide] at hm
      fin_cases hm <;> simp_all
    · rw [show txBlock '>' = ['&', 'g', 't', ';'] from by decide] at hm
      fin_cases hm <;> simp_all
    · rw [show txBlock '"' = ['&', 'q', 'u', 'o', 't', ';'] from by decide] at hm
      fin_cases hm <;> simp_all
    · rw [show txBlock '\'' =
          ['&', '#', 'x', '2', '7', ';', '&', '#', 'x', '2', '7', ';'] from by decide] at hm
      fin_cases hm <;> simp_all
  · rw [txBlock_plain (by simpa using h)] at hm ⊢
    simp at hm
    subst hm
    exact ⟨rfl, rfl⟩

theorem mem_txFlat {w : List Char} {d : Char} (h : d ∈ (w.map txBlock).flatten) :
    ∃ c ∈ w, d ∈ txBlock c := by
  rcases List.mem_flatten.mp h with ⟨bl, hbl, hd⟩
  rcases List.mem_map.mp hbl with ⟨c, hc, rfl⟩
  exact ⟨c, hc, hd⟩

theorem mem_txFlat_of {w : List Char} {c d : Char} (hc : c ∈ w) (hd : d ∈ txBlock c) :
    d ∈ (w.map txBlock).flatten :=
  List.mem_flatten.mpr ⟨txBlock c, List.mem_map.mpr ⟨c, hc, rfl⟩, hd⟩

theorem txFlat_append (a b : List Char) :
    ((a ++ b).map txBlock).flatten = (a.map txBlock).flatten ++ (b.map txBlock).flatten := by
  simp

/-- When every character of `w` is plain, the text escape is the
identity. -/
theorem txFlat_id {w : List Char} (h : ∀ c ∈ w, escCh c = false) :
    (w.map txBlock).flatten = w := by
  induction w with
  | nil => rfl
  | cons c cs ih =>
    simp only [List.map_cons, List.flatten_cons]
    rw [txBlock_plain (h c (by simp)), ih (fun d hd => h d (by simp [hd]))]
    rfl

/-- Splitting the escaped text at a character that occurs in no
multi-character block splits the source at that same character. -/
theorem txFlat_split {p : Char}
    (hp : ∀ c : Char, p ∈ txBlock c → c = p ∧ txBlock c = [p]) :
    ∀ (w x y : List Char), (w.map txBlock).flatten = x ++ p :: y →
      ∃ w1 w2, w = w1 ++ p :: w2 ∧ x = (w1.map txBlock).flatten ∧
        y = (w2.map txBlock).flatten := by
  intro w
  induction w with
  | nil =>
    intro x y h
    simp at h
  | cons c cs ih =>
    intro x y h
    simp only [List.map_cons, List.flatten_cons] at h
    rcases List.append_eq_append_iff.mp h with ⟨x2, hx, hrest⟩ | ⟨c2, hblock, hrest⟩
    · obtain ⟨w1, w2, rfl, rfl, rfl⟩ := ih x2 y hrest
      exact ⟨c :: w1, w2, rfl, by simp [hx], rfl⟩
    · cases c2 with
      | nil =>
        simp only [List.append_nil] at hblock
        have hrest2 : (cs.map txBlock).flatten = [] ++ p :: y := by
          simpa using hrest.symm
        obtain ⟨w1, w2, hcs, hw1, hy⟩ := ih [] y hrest2
        have hw1nil : w1 = [] := by
          cases w1 with
          | nil => rfl
          | cons a as =>
            exfalso
            simp only [List.map_cons, List.flatten_cons] at hw1
            exact txBlock_ne_nil a (List.append_eq_nil.mp hw1.symm).1
        subst hw1nil
        simp only [List.nil_append] at hcs
        refine ⟨[c], w2, by simp [hcs], ?_, hy⟩
        rw [show ((([c] : List Char).map txBlock).flatten) = txBlock c from by simp, hblock]
      | cons q c2tl =>
        obtain ⟨hpq, hy⟩ := List.cons.injEq .. ▸ hrest
        subst hpq
        have hpmem : p ∈ txBlock c := by
          rw [hblock]
          simp
        obtain ⟨rfl, hbl⟩ := hp c hpmem
        rw [hbl] at hblock
        have hlen := congrArg List.length hblock
        simp only [List.length_cons, List.length_append, List.length_nil] at hlen
        have hx0 : x = [] := List.length_eq_zero.mp (by omega)
        have hc0 : c2tl = [] := List.length_eq_zero.mp (by omega)
        subst hx0
        subst hc0
        refine ⟨[], cs, rfl, rfl, ?_⟩
        first
        | simpa using hy
        | simpa using hy.symm

/-- Peeling one plain character off the escaped text: a head character
other than `'&'` comes from a singleton block. -/
theorem txFlat_cons_plain {w : List Char} {d : Char} {R : List Char}
    (h : (w.map txBlock).flatten = d :: R) (hd : ¬ d = '&') :
    ∃ w2, w = d :: w2 ∧ R = (w2.map txBlock).flatten := by
  cases w with
  | nil => simp at h
  | cons c cs =>
    simp only [List.map_cons, List.flatten_cons] at h
    by_cases he : escCh c = true
    · exfalso
      have hhd : ∃ tail, txBlock c = '&' :: tail := by
        simp only [escCh, Bool.or_eq_true, decide_eq_true_eq] at he
        rcases he with (((rfl | rfl) | rfl) | rfl) | rfl
        · exact ⟨['a', 'm', 'p', ';'], by decide⟩
        · exact ⟨['l', 't', ';'], by decide⟩
        · exact ⟨['g', 't', ';'], by decide⟩
        · exact ⟨['q', 'u', 'o', 't', ';'], by decide⟩
        · exact ⟨['#', 'x', '2', '7', ';', '&', '#', 'x', '2', '7', ';'], by decide⟩
      obtain ⟨tail, hbl⟩ := hhd
      rw [hbl] at h
      obtain ⟨h1, -⟩ := List.cons.injEq .. ▸ h
      exact hd h1.symm
    · rw [txBlock_plain (by simpa using he)] at h
      obtain ⟨rfl, hr⟩ := List.cons.injEq .. ▸ h
      exact ⟨cs, rfl, hr.symm⟩

/-! ### `str.strip` against the block map -/

theorem mem_dropWhile_or {p : Char → Bool} {c : Char} :
    ∀ {l : List Char}, c ∈ l → p c = true ∨ c ∈ l.dropWhile p := by
  intro l
  induction l with
  | nil => intro h; cases h
  | cons a as ih =>
    intro h
    rw [List.dropWhile_cons]
    split_ifs with ha
    · rcases List.mem_cons.mp h with rfl | h2
      · exact Or.inl ha
      · exact ih h2
    · exact Or.inr h

theorem mem_pyStrip_of {c : Char} {l : List Char} (hc : c ∈ l) (hws : isPySpace c = false) :
    c ∈ pyStrip l := by
  unfold pyStrip dropTrailing
  have h1 : c ∈ l.dropWhile isPySpace := by
    rcases @mem_dropWhile_or isPySpace c l hc with h | h
    · rw [hws] at h; cases h
    · exact h
  have h2 : c ∈ (l.dropWhile isPySpace).reverse := by simpa using h1
  rcases @mem_dropWhile_or isPySpace c _ h2 with h | h
  · rw [hws] at h; cases h
  · simpa using h

theorem dropWhile_cons_neg {p : Char → Bool} {c : Char} (l : List Char) (h : p c = false) :
    (c :: l).dropWhile p = c :: l := by
  rw [List.dropWhile_cons, if_neg (by simp [h])]

theorem dropTrailing_append_ws {p : Char → Bool} {a : Char} (x : List Char) (h : p a = true) :
    dropTrailing p (x ++ [a]) = dropTrailing p x := by
  unfold dropTrailing
  rw [List.reverse_append]
  simp [List.dropWhile_cons, h]

theorem dropTrailing_keep {p : Char → Bool} {d : Char} (y : List Char)
    (hy : y.getLast? = some d) (hd : p d = false) : dropTrailing p y = y := by
  unfold dropTrailing
  have hrev : y.reverse.head? = some d := by rw [List.head?_reverse]; exact hy
  match hr : y.reverse, hrev with
  | e :: es, hrev =>
    simp only [List.head?_cons, Option.some.injEq] at hrev
    subst hrev
    rw [dropWhile_cons_neg es hd, ← hr]
    simp

/-- Leading whitespace removal commutes with the block map. -/
theorem dropWhile_txFlat (w : List Char) :
    ((w.map txBlock).flatten).dropWhile isPySpace
      = ((w.dropWhile isPySpace).map txBlock).flatten := by
  induction w with
  | nil => rfl
  | cons c cs ih =>
    simp only [List.map_cons, List.flatten_cons]
    by_cases hws : isPySpace c = true
    · rw [txBlock_ws hws]
      show (c :: (cs.map txBlock).flatten).dropWhile isPySpace = _
      rw [List.dropWhile_cons, if_pos hws, ih, List.dropWhile_cons, if_pos hws]
    · have hws2 : isPySpace c = false := by simpa using hws
      match hbl : txBlock c with
      | [] => exact absurd hbl (txBlock_ne_nil c)
      | d :: bs =>
        have hd : isPySpace d = false :=
          txBlock_no_ws hws2 (by rw [hbl]; simp)
        show (d :: (bs ++ (cs.map txBlock).flatten)).dropWhile isPySpace = _
        rw [dropWhile_cons_neg _ hd, dropWhile_cons_neg _ hws2]
        simp [hbl]

/-- Trailing whitespace removal commutes with the block map. -/
theorem dropTrailing_txFlat (w : List Char) :
    dropTrailing isPySpace ((w.map txBlock).flatten)
      = ((dropTrailing isPySpace w).map txBlock).flatten := by
  induction w using List.reverseRecOn with
  | nil => rfl
  | append_singleton l a ih =>
    rw [txFlat_append]
    have hfa : (([a] : List Char).map txBlock).flatten = txBlock a := by simp
    by_cases hws : isPySpace a = true
    · rw [show (([a] : List Char).map txBlock).flatten = [a] from by
        rw [hfa, txBlock_ws hws]]
      rw [dropTrailing_append_ws _ hws, dropTrailing_append_ws _ hws, ih]
    · have hws2 : isPySpace a = false := by simpa using hws
      match hbl : txBlock a with
      | [] => exact absurd hbl (txBlock_ne_nil a)
      | d :: bs =>
        have hlast : (d :: bs).getLast? = some ((d :: bs).getLast (by simp)) :=
          List.getLast?_eq_getLast _ _
        have hlws : isPySpace ((d :: bs).getLast (by simp)) = false := by
          refine txBlock_no_ws hws2 ?_
          rw [hbl]
          exact List.getLast_mem _
        have hga : ((l.map txBlock).flatten ++ (([a] : List Char).map txBlock).flatten).getLast?
            = some ((d :: bs).getLast (by simp)) := by
          rw [List.getLast?_append_of_ne_nil _
            (show (([a] : List Char).map txBlock).flatten ≠ [] from by
              rw [hfa, hbl]; simp), hfa, hbl]
          exact hlast
        have hgb : (l ++ [a]).getLast? = some a := by
          rw [List.getLast?_append_of_ne_nil _ (show ([a] : List Char) ≠ [] from by simp)]
          rfl
        rw [dropTrailing_keep _ hga hlws, dropTrailing_keep _ hgb hws2, txFlat_append]

/-- `str.strip` commutes with the block map: whitespace characters map
to themselves and blocks of non-whitespace characters stay fully
non-whitespace. -/
theorem pyStrip_txFlat (w : List Char) :
    pyStrip ((w.map txBlock).flatten) = ((pyStrip w).map txBlock).flatten := by
  unfold pyStrip
  rw [dropWhile_txFlat, dropTrailing_txFlat]

/-! ### Reading the detector verdict back -/

theorem detect_text_conds {v : List Char} (h : detect_type v = "text") :
    ¬ ((((pyStrip v).head? = some '{' ∧ (pyStrip v).getLast? = some '}') ∨
        ((pyStrip v).head? = some '[' ∧ (pyStrip v).getLast? = some ']')) ∧
      (jsonLoads (pyStrip v)).isSome = true) ∧
    emailFullmatch (pyStrip v) = false ∧ phoneFullmatch (pyStrip v) = false ∧
    urlFullmatch (pyStrip v) = false := by
  unfold detect_type at h
  dsimp only at h
  split_ifs at h with h1 h2 h3 h4 h5
  · exact absurd h (by decide)
  · exact absurd h (by decide)
  · exact absurd h (by decide)
  · exact absurd h (by decide)
  · exact absurd h (by decide)
  · exact ⟨h1, by simpa using h3, by simpa using h4, by simpa using h5⟩

theorem detect_email_elim {v : List Char} (h : detect_type v = "email") :
    emailFullmatch (pyStrip v) = true := by
  unfold detect_type at h
  dsimp only at h
  split_ifs at h with h1 h2 h3 h4 h5 <;> first
  | exact h3
  | exact absurd h (by decide)

theorem detect_phone_elim {v : List Char} (h : detect_type v = "phone") :
    phoneFullmatch (pyStrip v) = true := by
  unfold detect_type at h
  dsimp only at h
  split_ifs at h with h1 h2 h3 h4 h5 <;> first
  | exact h4
  | exact absurd h (by decide)

theorem detect_url_elim {v : List Char} (h : detect_type v = "url") :
    urlFullmatch (pyStrip v) = true := by
  unfold detect_type at h
  dsimp only at h
  split_ifs at h with h1 h2 h3 h4 h5 <;> first
  | exact h5
  | exact absurd h (by decide)

theorem detect_json_elim {v : List Char} (h : detect_type v = "json") :
    (((pyStrip v).head? = some '{' ∧ (pyStrip v).getLast? = some '}') ∨
      ((pyStrip v).head? = some '[' ∧ (pyStrip v).getLast? = some ']')) ∧
    (jsonLoads (pyStrip v)).isSome = true := by
  unfold detect_type at h
  dsimp only at h
  split_ifs at h with h1 h2 h3 h4 h5 <;> first
  | exact h1
  | exact absurd h (by decide)

/-! ### No masquerading: phone -/

theorem phoneFullmatch_chars {l : List Char} (h : phoneFullmatch l = true) :
    ∀ ch ∈ l, (phoneClass ch || ch = '+') = true := by
  unfold phoneFullmatch at h
  have main : ∀ (c : Char) (rest : List Char), isDigitC c = true →
      rest.dropLast.all phoneClass = true →
      (match rest.getLast? with | some d => isDigitC d | none => false) = true →
      ∀ ch ∈ c :: rest, (phoneClass ch || ch = '+') = true := by
    intro c rest hc hclass hlast ch hch
    rcases List.mem_cons.mp hch with rfl | hch2
    · simp [phoneClass, hc]
    · rcases List.eq_nil_or_concat rest with rfl | ⟨ys, y, rfl⟩
      · cases hch2
      · rw [List.concat_eq_append] at hclass hlast hch2
        rw [List.getLast?_concat] at hlast
        have hy2 : isDigitC y = true := hlast
        rw [List.dropLast_concat] at hclass
        rcases List.mem_append.mp hch2 with hy | hy
        · have hcl := List.all_eq_true.mp hclass ch hy
          simp [hcl]
        · simp at hy
          subst hy
          simp [phoneClass, hy2]
  intro ch hch
  cases l with
  | nil => cases hch
  | cons c0 rest0 =>
    by_cases hplus : c0 = '+'
    · subst hplus
      cases rest0 with
      | nil => exact absurd h (by decide)
      | cons c rest =>
        have h3 : (isDigitC c && decide (7 ≤ rest.length) && rest.dropLast.all phoneClass &&
            (match rest.getLast? with | some d => isDigitC d | none => false)) = true := h
        simp only [Bool.and_eq_true] at h3
        obtain ⟨⟨⟨hc, -⟩, hclass⟩, hlast⟩ := h3
        rcases List.mem_cons.mp hch with rfl | hch2
        · decide
        · exact main c rest hc hclass hlast ch hch2
    · have hb : (match (c0 :: rest0 : List Char) with
          | '+' :: rest => rest
          | _ => c0 :: rest0) = c0 :: rest0 := by
        split
        · rename_i rest heq
          obtain ⟨hcc, -⟩ := List.cons.injEq .. ▸ heq
          exact absurd hcc hplus
        · rfl
      rw [hb] at h
      have h3 : (isDigitC c0 && decide (7 ≤ rest0.length) && rest0.dropLast.all phoneClass &&
          (match rest0.getLast? with | some d => isDigitC d | none => false)) = true := h
      simp only [Bool.and_eq_true] at h3
      obtain ⟨⟨⟨hc, -⟩, hclass⟩, hlast⟩ := h3
      exact main c0 rest0 hc hclass hlast ch hch

theorem phoneFullmatch_amp {l : List Char} (ha : '&' ∈ l) : phoneFullmatch l = false := by
  cases hp : phoneFullmatch l
  · rfl
  · exact absurd (phoneFullmatch_chars hp '&' ha) (by decide)

/-! ### No masquerading: email -/

/-- Step equation of `splitFirstAt` past a non-`'@'` head. -/
theorem splitFirstAt_cons_ne {c : Char} (cs : List Char) (hc : ¬ c = '@') :
    splitFirstAt (c :: cs) = (splitFirstAt cs).map (fun p => (c :: p.1, p.2)) := by
  conv_lhs => unfold splitFirstAt
  split
  · rename_i heq
    exact absurd heq (by simp)
  · rename_i rest heq
    obtain ⟨h1, -⟩ := List.cons.injEq .. ▸ heq
    exact absurd h1 hc
  · rename_i c2 rest hne heq
    obtain ⟨h1, h2⟩ := List.cons.injEq .. ▸ heq
    subst h2
    rw [h1]

theorem splitFirstAt_eq : ∀ (l a b : List Char), splitFirstAt l = some (a, b) →
    l = a ++ '@' :: b ∧ ¬ '@' ∈ a := by
  intro l
  induction l with
  | nil =>
    intro a b h
    simp [splitFirstAt] at h
  | cons c cs ih =>
    intro a b h
    by_cases hc : c = '@'
    · subst hc
      rw [show splitFirstAt ('@' :: cs) = some ([], cs) from rfl] at h
      simp only [Option.some.injEq, Prod.mk.injEq] at h
      obtain ⟨rfl, rfl⟩ := h
      exact ⟨rfl, by simp⟩
    · rw [splitFirstAt_cons_ne cs hc] at h
      rcases hsub : splitFirstAt cs with - | p
      · rw [hsub] at h
        cases h
      · obtain ⟨p1, p2⟩ := p
        rw [hsub] at h
        simp only [Option.map_some', Option.some.injEq, Prod.mk.injEq] at h
        obtain ⟨rfl, rfl⟩ := h
        obtain ⟨hcs, hna⟩ := ih p1 p2 hsub
        refine ⟨by rw [hcs]; rfl, ?_⟩
        intro hm
        rcases List.mem_cons.mp hm with h1 | h1
        · exact hc h1.symm
        · exact hna h1

theorem splitFirstAt_complete : ∀ (a b : List Char), ¬ '@' ∈ a →
    splitFirstAt (a ++ '@' :: b) = some (a, b) := by
  intro a
  induction a with
  | nil => intro b h; rfl
  | cons c cs ih =>
    intro b h
    have hc : ¬ c = '@' := by
      intro hc
      exact h (by rw [hc]; simp)
    show splitFirstAt (c :: (cs ++ '@' :: b)) = _
    rw [splitFirstAt_cons_ne _ hc, ih b (fun hm => h (by simp [hm]))]
    rfl

/-- Two decompositions at the first occurrence of the same character
agree. -/
theorem first_occ_unique {p : Char} : ∀ (x1 : List Char) {y1 x2 y2 : List Char},
    x1 ++ p :: y1 = x2 ++ p :: y2 → ¬ p ∈ x1 → ¬ p ∈ x2 → x1 = x2 ∧ y1 = y2 := by
  intro x1
  induction x1 with
  | nil =>
    intro y1 x2 y2 h h1 h2
    cases x2 with
    | nil =>
      obtain ⟨-, hy⟩ := List.cons.injEq .. ▸ h
      exact ⟨rfl, hy⟩
    | cons d x2' =>
      obtain ⟨hd, -⟩ := List.cons.injEq .. ▸ h
      exact absurd (by rw [← hd]; simp : p ∈ d :: x2') h2
  | cons c x1' ih =>
    intro y1 x2 y2 h h1 h2
    cases x2 with
    | nil =>
      obtain ⟨hd, -⟩ := List.cons.injEq .. ▸ h
      exact absurd (by rw [hd]; simp : p ∈ c :: x1') h1
    | cons d x2' =>
      obtain ⟨hd, hrest⟩ := List.cons.injEq .. ▸ h
      subst hd
      obtain ⟨he, hy⟩ := ih hrest (fun hm => h1 (by simp [hm])) (fun hm => h2 (by simp [hm]))
      exact ⟨by rw [he], hy⟩

/-- An interior dot is exactly a decomposition with nonempty sides. -/
theorem interiorDot_iff (l : List Char) :
    interiorDot l = true ↔ ∃ x y, l = x ++ '.' :: y ∧ ¬ x = [] ∧ ¬ y = [] := by
  constructor
  · intro h
    unfold interiorDot at h
    have h2 : '.' ∈ (l.drop 1).dropLast := List.elem_iff.mp h
    cases l with
    | nil => simp at h2
    | cons c l' =>
      simp only [List.drop_succ_cons, List.drop_zero] at h2
      rcases List.eq_nil_or_concat l' with rfl | ⟨m, z, rfl⟩
      · simp at h2
      · rw [List.concat_eq_append, List.dropLast_concat] at h2
        obtain ⟨m1, m2, rfl⟩ := List.append_of_mem h2
        refine ⟨c :: m1, m2 ++ [z], by simp, by simp, by simp⟩
  · rintro ⟨x, y, rfl, hx, hy⟩
    unfold interiorDot
    refine List.elem_iff.mpr ?_
    cases x with
    | nil => exact absurd rfl hx
    | cons x0 x' =>
      simp only [List.cons_append, List.drop_succ_cons, List.drop_zero]
      rcases List.eq_nil_or_concat y with rfl | ⟨y', z, rfl⟩
      · exact absurd rfl hy
      · rw [List.concat_eq_append,
          show x' ++ '.' :: (y' ++ [z]) = (x' ++ '.' :: y') ++ [z] from by simp,
          List.dropLast_concat]
        simp

/-- The escaped characters are all acceptable email-part characters. -/
theorem escCh_emailChunkOk {c : Char} (h : escCh c = true) : emailChunkOk c = true := by
  simp only [escCh, Bool.or_eq_true, decide_eq_true_eq] at h
  rcases h with (((rfl | rfl) | rfl) | rfl) | rfl <;> decide

theorem all_emailChunkOk_txFlat {w : List Char}
    (h : ((w.map txBlock).flatten).all emailChunkOk = true) :
    w.all emailChunkOk = true := by
  rw [List.all_eq_true]
  intro c hc
  by_cases he : escCh c = true
  · exact escCh_emailChunkOk he
  · refine List.all_eq_true.mp h c ?_
    refine mem_txFlat_of hc ?_
    rw [txBlock_plain (by simpa using he)]
    simp

/-- If the text-escaped string matches the email pattern, so does the
original: `'@'` and `'.'` occur in no multi-character block, so the
decompositions transfer, and the escaped characters are themselves in
the `[^@\s]` class. -/
theorem emailFullmatch_txFlat {t : List Char}
    (h : emailFullmatch ((t.map txBlock).flatten) = true) : emailFullmatch t = true := by
  unfold emailFullmatch at h
  rcases hs : splitFirstAt ((t.map txBlock).flatten) with - | AB
  · rw [hs] at h
    cases h
  · obtain ⟨A, B⟩ := AB
    rw [hs] at h
    simp only [Bool.and_eq_true] at h
    obtain ⟨⟨⟨hA1, hA2⟩, hB1⟩, hB2⟩ := h
    obtain ⟨hdec, hnA⟩ := splitFirstAt_eq _ A B hs
    obtain ⟨w1, w2, rfl, rfl, rfl⟩ :=
      txFlat_split (txBlock_only_self (by decide) (by decide)) t A B hdec
    have hnw1 : ¬ '@' ∈ w1 := by
      intro hm
      exact hnA (mem_txFlat_of hm (by rw [show txBlock '@' = ['@'] from by decide]; simp))
    unfold emailFullmatch
    rw [splitFirstAt_complete w1 w2 hnw1]
    have hw1ne : ¬ w1 = [] := by
      rintro rfl
      exact absurd hA1 (by decide)
    have hw1e : w1.isEmpty = false := by
      cases w1 with
      | nil => exact absurd rfl hw1ne
      | cons a as => rfl
    have hid : interiorDot w2 = true := by
      obtain ⟨X, Y, hXY, hXne, hYne⟩ := (interiorDot_iff _).mp hB2
      obtain ⟨u1, u2, rfl, rfl, rfl⟩ :=
        txFlat_split (txBlock_only_self (by decide) (by decide)) w2 X Y hXY
      refine (interiorDot_iff _).mpr ⟨u1, u2, rfl, ?_, ?_⟩
      · rintro rfl
        exact hXne rfl
      · rintro rfl
        exact hYne rfl
    show (!w1.isEmpty && w1.all emailChunkOk && w2.all emailChunkOk && interiorDot w2) = true
    rw [hw1e, all_emailChunkOk_txFlat hA2, all_emailChunkOk_txFlat hB1, hid]
    rfl

/-! ### No masquerading: URL -/

theorem txFlat_ne_nil_of {w : List Char} (h : ¬ w = []) :
    ¬ (w.map txBlock).flatten = [] := by
  cases w with
  | nil => exact absurd rfl h
  | cons c cs =>
    simp only [List.map_cons, List.flatten_cons]
    intro hm
    exact txBlock_ne_nil c (List.append_eq_nil.mp hm).1

theorem txFlat_all_nonspace {w : List Char}
    (h : ((w.map txBlock).flatten).all (fun c => !isPySpace c) = true) :
    w.all (fun c => !isPySpace c) = true := by
  rw [List.all_eq_true]
  intro c hc
  by_cases he : escCh c = true
  · simp only [escCh, Bool.or_eq_true, decide_eq_true_eq] at he
    rcases he with (((rfl | rfl) | rfl) | rfl) | rfl <;> decide
  · refine List.all_eq_true.mp h c ?_
    refine mem_txFlat_of hc ?_
    rw [txBlock_plain (by simpa using he)]
    simp

/-- If the text-escaped string matches the URL pattern, so does the
original: the scheme characters are all plain singleton blocks with a
non-`'&'` head, and the remainder transfers. -/
theorem urlFullmatch_txFlat {t : List Char}
    (h : urlFullmatch ((t.map txBlock).flatten) = true) : urlFullmatch t = true := by
  unfold urlFullmatch at h
  split at h
  · rename_i rest heq
    obtain ⟨t1, rfl, hR1⟩ := txFlat_cons_plain heq (by decide)
    obtain ⟨t2, rfl, hR2⟩ := txFlat_cons_plain hR1.symm (by decide)
    obtain ⟨t3, rfl, hR3⟩ := txFlat_cons_plain hR2.symm (by decide)
    obtain ⟨t4, rfl, hR4⟩ := txFlat_cons_plain hR3.symm (by decide)
    split at h
    · rename_i r
      obtain ⟨t5, rfl, hR5⟩ := txFlat_cons_plain hR4.symm (by decide)
      obtain ⟨t6, rfl, hR6⟩ := txFlat_cons_plain hR5.symm (by decide)
      obtain ⟨t7, rfl, hR7⟩ := txFlat_cons_plain hR6.symm (by decide)
      simp only [Bool.and_eq_true] at h
      obtain ⟨hne, hall⟩ := h
      rw [hR7] at hne hall
      have ht7 : ¬ t7 = [] := by
        rintro rfl
        exact absurd hne (by decide)
      show (!t7.isEmpty && t7.all (fun c => !isPySpace c)) = true
      rw [txFlat_all_nonspace hall]
      cases t7 with
      | nil => exact absurd rfl ht7
      | cons a as => rfl
    · rename_i r
      obtain ⟨t5, rfl, hR5⟩ := txFlat_cons_plain hR4.symm (by decide)
      obtain ⟨t6, rfl, hR6⟩ := txFlat_cons_plain hR5.symm (by decide)
      obtain ⟨t7, rfl, hR7⟩ := txFlat_cons_plain hR6.symm (by decide)
      obtain ⟨t8, rfl, hR8⟩ := txFlat_cons_plain hR7.symm (by decide)
      simp only [Bool.and_eq_true] at h
      obtain ⟨hne, hall⟩ := h
      rw [hR8] at hne hall
      have ht8 : ¬ t8 = [] := by
        rintro rfl
        exact absurd hne (by decide)
      show (!t8.isEmpty && t8.all (fun c => !isPySpace c)) = true
      rw [txFlat_all_nonspace hall]
      cases t8 with
      | nil => exact absurd rfl ht8
      | cons a as => rfl
    · exact absurd h (by decide)
  · exact absurd h (by decide)

/-! ### No masquerading: JSON (a quote-free input with an ampersand
never parses) -/

theorem jsonWs_not_amp {c : Char} (h : isJsonWs c = true) : ¬ c = '&' := by
  rintro rfl
  exact absurd h (by decide)

theorem amp_notin_append {a b : List Char} (ha : ¬ '&' ∈ a) (hb : ¬ '&' ∈ b) :
    ¬ '&' ∈ a ++ b := by
  intro h
  rcases List.mem_append.mp h with h | h
  · exact ha h
  · exact hb h

theorem amp_notin_cons {c : Char} {b : List Char} (hc : ¬ c = '&') (hb : ¬ '&' ∈ b) :
    ¬ '&' ∈ c :: b := by
  intro h
  rcases List.mem_cons.mp h with h | h
  · exact hc h.symm
  · exact hb h

theorem amp_notin_ws {w : List Char} (h : ∀ c ∈ w, isJsonWs c = true) : ¬ '&' ∈ w := by
  intro hm
  exact jsonWs_not_amp (h _ hm) rfl

theorem amp_notin_take_ws (x : List Char) : ¬ '&' ∈ x.takeWhile isJsonWs :=
  amp_notin_ws (fun c hc => List.mem_takeWhile_imp hc)

/-- Splitting off the whitespace that `skipWs` consumed. -/
theorem skipWs_split {x y : List Char} (h : skipWs x = y) :
    x = x.takeWhile isJsonWs ++ y := by
  conv_lhs => rw [← List.takeWhile_append_dropWhile isJsonWs x]
  rw [show x.dropWhile isJsonWs = y from h]

theorem mem_of_mem_skipWs {c : Char} {l : List Char} (h : c ∈ skipWs l) : c ∈ l :=
  List.Sublist.subset (List.dropWhile_sublist isJsonWs) h

/-- The fraction part the lexer grabs has no ampersand. -/
theorem grabFrac_amp (l tk r : List Char) (h : grabFrac l = (tk, r)) : ¬ '&' ∈ tk := by
  unfold grabFrac at h
  split at h
  · rename_i rr
    dsimp only at h
    split_ifs at h with hds
    · simp only [Prod.mk.injEq] at h
      obtain ⟨rfl, rfl⟩ := h
      simp
    · simp only [Prod.mk.injEq] at h
      obtain ⟨rfl, rfl⟩ := h
      refine amp_notin_cons (by decide) ?_
      intro hm
      exact absurd (List.mem_takeWhile_imp hm) (by decide)
  · simp only [Prod.mk.injEq] at h
    obtain ⟨rfl, rfl⟩ := h
    simp

/-- The exponent part the lexer grabs has no ampersand. -/
theorem grabExp_amp (l tk r : List Char) (h : grabExp l = (tk, r)) : ¬ '&' ∈ tk := by
  unfold grabExp at h
  split at h
  · rename_i c rr
    split_ifs at h with hce
    · split at h
      · rename_i s r2
        dsimp only at h
        split_ifs at h with hs hd1 hd2
        · simp only [Prod.mk.injEq] at h
          obtain ⟨rfl, rfl⟩ := h
          simp
        · simp only [Prod.mk.injEq] at h
          obtain ⟨rfl, rfl⟩ := h
          refine amp_notin_cons ?_ (amp_notin_cons ?_ ?_)
          · rcases hce with rfl | rfl <;> decide
          · rcases hs with rfl | rfl <;> decide
          · intro hm
            exact absurd (List.mem_takeWhile_imp hm) (by decide)
        · simp only [Prod.mk.injEq] at h
          obtain ⟨rfl, rfl⟩ := h
          simp
        · simp only [Prod.mk.injEq] at h
          obtain ⟨rfl, rfl⟩ := h
          refine amp_notin_cons ?_ ?_
          · rcases hce with rfl | rfl <;> decide
          · intro hm
            exact absurd (List.mem_takeWhile_imp hm) (by decide)
      · simp only [Prod.mk.injEq] at h
        obtain ⟨rfl, rfl⟩ := h
        simp
    · simp only [Prod.mk.injEq] at h
      obtain ⟨rfl, rfl⟩ := h
      simp
  · simp only [Prod.mk.injEq] at h
    obtain ⟨rfl, rfl⟩ := h
    simp

/-- The number lexeme has no ampersand. -/
theorem parseNumCore_amp (l tk r : List Char) (h : parseNumCore l = some (tk, r)) :
    ¬ '&' ∈ tk := by
  unfold parseNumCore at h
  split at h
  · cases h
  · rename_i c rr
    split_ifs at h with hc0 hcd
    · obtain ⟨fr, r2, hgf⟩ : ∃ fr r2, grabFrac rr = (fr, r2) := ⟨_, _, rfl⟩
      rw [hgf] at h
      dsimp only at h
      obtain ⟨ex, r3, hge⟩ : ∃ ex r3, grabExp r2 = (ex, r3) := ⟨_, _, rfl⟩
      rw [hge] at h
      dsimp only at h
      simp only [Option.some.injEq, Prod.mk.injEq] at h
      obtain ⟨rfl, rfl⟩ := h
      exact amp_notin_cons (by decide)
        (amp_notin_append (grabFrac_amp rr fr r2 hgf) (grabExp_amp r2 ex r3 hge))
    · obtain ⟨fr, r2, hgf⟩ : ∃ fr r2, grabFrac (rr.dropWhile isDigitC) = (fr, r2) :=
        ⟨_, _, rfl⟩
      rw [hgf] at h
      dsimp only at h
      obtain ⟨ex, r3, hge⟩ : ∃ ex r3, grabExp r2 = (ex, r3) := ⟨_, _, rfl⟩
      rw [hge] at h
      dsimp only at h
      simp only [Option.some.injEq, Prod.mk.injEq] at h
      obtain ⟨rfl, rfl⟩ := h
      refine amp_notin_cons ?_ (amp_notin_append (amp_notin_append ?_
        (grabFrac_amp _ fr r2 hgf)) (grabExp_amp r2 ex r3 hge))
      · intro hc
        rw [hc] at hcd
        exact absurd hcd (by decide)
      · intro hm
        exact absurd (List.mem_takeWhile_imp hm) (by decide)

theorem parseNumTok_amp (l tk r : List Char) (h : parseNumTok l = some (tk, r)) :
    ¬ '&' ∈ tk := by
  unfold parseNumTok at h
  split at h
  · rename_i rr
    rcases hc : parseNumCore rr with - | p
    · rw [hc] at h
      cases h
    · obtain ⟨t2, r2⟩ := p
      rw [hc] at h
      simp only [Option.map_some', Option.some.injEq, Prod.mk.injEq] at h
      obtain ⟨rfl, rfl⟩ := h
      exact amp_notin_cons (by decide) (parseNumCore_amp rr t2 r2 hc)
  · exact parseNumCore_amp l tk r h

/-- Without a double quote in the input, no object member list can
start. -/
theorem parseMembers_noquote : ∀ (fuel : Nat) (l : List Char)
    (acc : List (List Char × Json)), ¬ '"' ∈ l → parseMembers fuel l acc = none := by
  intro fuel l acc hq
  match fuel with
  | 0 => rfl
  | fuel + 1 =>
    unfold parseMembers
    split
    · rename_i rest
      exact absurd (by simp : '"' ∈ ('"' :: rest : List Char)) hq
    · rfl

/-- In a quote-free input, a successful parse consumes an
ampersand-free prefix (strings are unreachable, so every consumed
character comes from whitespace, the keywords, the number lexer or the
punctuation). -/
theorem parse_noquote : ∀ fuel : Nat,
    (∀ l v r, ¬ '"' ∈ l → parseValue fuel l = some (v, r) →
      ∃ c, l = c ++ r ∧ ¬ '&' ∈ c) ∧
    (∀ l acc v r, ¬ '"' ∈ l → parseElems fuel l acc = some (v, r) →
      ∃ c, l = c ++ r ∧ ¬ '&' ∈ c) := by
  intro fuel
  induction fuel with
  | zero =>
    constructor
    · intro l v r hq h
      exact Option.noConfusion h
    · intro l acc v r hq h
      exact Option.noConfusion h
  | succ fuel ih =>
    obtain ⟨ihV, ihE⟩ := ih
    constructor
    · intro l v r hq h
      unfold parseValue at h
      split at h
      · exact Option.noConfusion h
      · rename_i c rest
        split_ifs at h with hquote hbrace hbrack
        · exact absurd (by rw [hquote]; simp : '"' ∈ c :: rest) hq
        · split at h
          · rename_i r2 heq2
            simp only [Option.some.injEq, Prod.mk.injEq] at h
            obtain ⟨rfl, rfl⟩ := h
            refine ⟨c :: (rest.takeWhile isJsonWs ++ ['}']), ?_, ?_⟩
            · have h3 : rest = rest.takeWhile isJsonWs ++ '}' :: r2 := skipWs_split heq2
              conv_lhs => rw [h3]
              simp
            · refine amp_notin_cons ?_ (amp_notin_append (amp_notin_take_ws rest) ?_)
              · rw [hbrace]
                decide
              · intro hm
                simp at hm
          · rename_i hmem
            rw [parseMembers_noquote fuel (skipWs rest) []
              (fun hm => hq (by simp [mem_of_mem_skipWs hm]))] at h
            exact Option.noConfusion h
        · split at h
          · rename_i r2 heq2
            simp only [Option.some.injEq, Prod.mk.injEq] at h
            obtain ⟨rfl, rfl⟩ := h
            refine ⟨c :: (rest.takeWhile isJsonWs ++ [']']), ?_, ?_⟩
            · have h3 : rest = rest.takeWhile isJsonWs ++ ']' :: r2 := skipWs_split heq2
              conv_lhs => rw [h3]
              simp
            · refine amp_notin_cons ?_ (amp_notin_append (amp_notin_take_ws rest) ?_)
              · rw [hbrack]
                decide
              · intro hm
                simp at hm
          · rename_i hmem
            obtain ⟨c2, hdec, hamp⟩ := ihE (skipWs rest) [] v r
              (fun hm => hq (by simp [mem_of_mem_skipWs hm])) h
            refine ⟨c :: (rest.takeWhile isJsonWs ++ c2), ?_, ?_⟩
            · have h3 : rest = rest.takeWhile isJsonWs ++ skipWs rest := skipWs_split rfl
              conv_lhs => rw [h3, hdec]
              simp
            · refine amp_notin_cons ?_ (amp_notin_append (amp_notin_take_ws rest) hamp)
              rw [hbrack]
              decide
        · split at h
          · rename_i r2 heq2
            simp only [Option.some.injEq, Prod.mk.injEq] at h
            obtain ⟨rfl, rfl⟩ := h
            exact ⟨_, keyword_eq _ _ _ heq2, by decide⟩
          · split at h
            · rename_i r2 heq2
              simp only [Option.some.injEq, Prod.mk.injEq] at h
              obtain ⟨rfl, rfl⟩ := h
              exact ⟨_, keyword_eq _ _ _ heq2, by decide⟩
            · split at h
              · rename_i r2 heq2
                simp only [Option.some.injEq, Prod.mk.injEq] at h
                obtain ⟨rfl, rfl⟩ := h
                exact ⟨_, keyword_eq _ _ _ heq2, by decide⟩
              · split at h
                · rename_i r2 heq2
                  simp only [Option.some.injEq, Prod.mk.injEq] at h
                  obtain ⟨rfl, rfl⟩ := h
                  exact ⟨_, keyword_eq _ _ _ heq2, by decide⟩
                · split at h
                  · rename_i r2 heq2
                    simp only [Option.some.injEq, Prod.mk.injEq] at h
                    obtain ⟨rfl, rfl⟩ := h
                    exact ⟨_, keyword_eq _ _ _ heq2, by decide⟩
                  · split at h
                    · rename_i r2 heq2
                      simp only [Option.some.injEq, Prod.mk.injEq] at h
                      obtain ⟨rfl, rfl⟩ := h
                      exact ⟨_, keyword_eq _ _ _ heq2, by decide⟩
                    · rcases hnt : parseNumTok (c :: rest) with - | p
                      · rw [hnt] at h
                        exact Option.noConfusion h
                      · obtain ⟨tk, rst⟩ := p
                        rw [hnt] at h
                        simp only [Option.map_some', Option.some.injEq,
                          Prod.mk.injEq] at h
                        obtain ⟨rfl, rfl⟩ := h
                        exact ⟨tk, parseNumTok_eq _ tk rst hnt, parseNumTok_amp _ tk rst hnt⟩
    · intro l acc v r hq h
      unfold parseElems at h
      split at h
      · exact Option.noConfusion h
      · rename_i v1 r1 heq1
        obtain ⟨c1, hdec1, hamp1⟩ := ihV l v1 r1 hq heq1
        split at h
        · rename_i r2 heq2
          have hq2 : ¬ '"' ∈ skipWs r2 := by
            intro hm
            refine hq ?_
            rw [hdec1]
            refine List.mem_append.mpr (Or.inr ?_)
            have h1 : ('"' : Char) ∈ ',' :: r2 := by
              simp [mem_of_mem_skipWs hm]
            rw [← heq2] at h1
            exact mem_of_mem_skipWs h1
          obtain ⟨c2, hdec2, hamp2⟩ := ihE (skipWs r2) (acc ++ [v1]) v r hq2 h
          refine ⟨c1 ++ (r1.takeWhile isJsonWs ++ ',' :: (r2.takeWhile isJsonWs ++ c2)), ?_, ?_⟩
          · have h3 : r1 = r1.takeWhile isJsonWs ++ ',' :: r2 := skipWs_split heq2
            have h4 : r2 = r2.takeWhile isJsonWs ++ skipWs r2 := skipWs_split rfl
            conv_lhs => rw [hdec1, h3]
            conv_lhs => rw [h4, hdec2]
            simp
          · exact amp_notin_append hamp1 (amp_notin_append (amp_notin_take_ws r1)
              (amp_notin_cons (by decide) (amp_notin_append (amp_notin_take_ws r2) hamp2)))
        · rename_i r2 heq2
          simp only [Option.some.injEq, Prod.mk.injEq] at h
          obtain ⟨rfl, rfl⟩ := h
          refine ⟨c1 ++ (r1.takeWhile isJsonWs ++ [']']), ?_, ?_⟩
          · have h3 : r1 = r1.takeWhile isJsonWs ++ ']' :: r2 := skipWs_split heq2
            conv_lhs => rw [hdec1, h3]
            simp
          · refine amp_notin_append hamp1 (amp_notin_append (amp_notin_take_ws r1) ?_)
            intro hm
            simp at hm
        · exact Option.noConfusion h

/-- `json.loads` rejects any quote-free input containing `'&'`. -/
theorem jsonLoads_amp {l : List Char} (ha : '&' ∈ l) (hq : ¬ '"' ∈ l) :
    jsonLoads l = none := by
  unfold jsonLoads
  split
  · rename_i v r heq
    split_ifs with hre
    · exfalso
      have hq2 : ¬ '"' ∈ skipWs l := fun hm => hq (mem_of_mem_skipWs hm)
      obtain ⟨c1, hdec, hamp⟩ := (parse_noquote (l.length + 1)).1 (skipWs l) v r hq2 heq
      have hrws : ∀ c ∈ r, isJsonWs c = true :=
        List.dropWhile_eq_nil_iff.mp (List.isEmpty_iff.mp hre)
      have hl : l = l.takeWhile isJsonWs ++ (c1 ++ r) := by
        rw [← hdec]
        exact skipWs_split rfl
      rw [hl] at ha
      rcases List.mem_append.mp ha with h1 | h1
      · exact amp_notin_take_ws l h1
      · rcases List.mem_append.mp h1 with h2 | h2
        · exact hamp h2
        · exact jsonWs_not_amp (hrws _ h2) rfl
    · rfl
  · rfl

theorem quot_notin_txFlat (w : List Char) : ¬ '"' ∈ (w.map txBlock).flatten := by
  intro h
  obtain ⟨c, -, hd⟩ := mem_txFlat h
  exact quot_not_mem_txBlock c hd

/-! ### The text branch of the sanitizer -/

theorem sanitizeBody_text (san : List Char → List Char) (v : List Char)
    (hd : detect_type v = "text") :
    sanitizeBody san v none = ("text", html_escape (escape_sql v)) := by
  simp only [sanitizeBody]
  rw [hd]
  rfl

theorem text_sanitize_eq {v : List Char} (hd : detect_type v = "text") :
    sanitize_value v none = ("text", html_escape (escape_sql v)) := by
  have hsan : sanitize_value v none =
      sanitizeBody (fun o => (sanitizeVal v.length o (some (detect_type o))).2) v none := rfl
  rw [hsan, sanitizeBody_text _ v hd]

/-! ### Edge-whitespace toolkit -/

theorem digit_not_pyspace {c : Char} (h : isDigitC c = true) : isPySpace c = false := by
  cases hws : isPySpace c
  · rfl
  · exfalso
    simp only [isPySpace, Bool.or_eq_true, decide_eq_true_eq] at hws
    rcases hws with ((((rfl | rfl) | rfl) | rfl) | rfl) | rfl <;> exact absurd h (by decide)

theorem mem_of_getLast?_eq {α : Type} {l : List α} {c : α} (h : l.getLast? = some c) :
    c ∈ l := by
  rcases List.eq_nil_or_concat l with rfl | ⟨ys, y, rfl⟩
  · cases h
  · rw [List.concat_eq_append, List.getLast?_concat] at h
    obtain rfl : y = c := by simpa using h
    simp

theorem noEdgeWs_build {l : List Char}
    (h1 : ∀ c, l.head? = some c → isPySpace c = false)
    (h2 : ∀ c, l.getLast? = some c → isPySpace c = false) : noEdgeWs l = true := by
  unfold noEdgeWs
  rcases hh : l.head? with - | c <;> rcases hg : l.getLast? with - | d
  · rfl
  · show (true && !isPySpace d) = true
    rw [h2 d hg]
    rfl
  · show (!isPySpace c && true) = true
    rw [h1 c hh]
    rfl
  · show (!isPySpace c && !isPySpace d) = true
    rw [h1 c hh, h2 d hg]
    rfl

theorem noEdgeWs_head {l : List Char} {c : Char} (h : noEdgeWs l = true)
    (hh : l.head? = some c) : isPySpace c = false := by
  unfold noEdgeWs at h
  rw [hh] at h
  simp only [Bool.and_eq_true] at h
  have h4 : (!isPySpace c) = true := h.1
  simpa using h4

theorem noEdgeWs_last {l : List Char} {c : Char} (h : noEdgeWs l = true)
    (hg : l.getLast? = some c) : isPySpace c = false := by
  unfold noEdgeWs at h
  rw [hg] at h
  simp only [Bool.and_eq_true] at h
  have h4 : (!isPySpace c) = true := h.2
  simpa using h4

theorem noEdgeWs_of_all {l : List Char} (h : ∀ c ∈ l, isPySpace c = false) :
    noEdgeWs l = true := by
  refine noEdgeWs_build ?_ ?_
  · intro c hc
    cases l with
    | nil => cases hc
    | cons a as =>
      have ha : a = c := by simpa using hc
      subst ha
      exact h _ (List.mem_cons_self _ _)
  · intro c hc
    exact h c (mem_of_getLast?_eq hc)

theorem head_dropWhile_false {p : Char → Bool} :
    ∀ {l : List Char} {c : Char}, (l.dropWhile p).head? = some c → p c = false := by
  intro l
  induction l with
  | nil =>
    intro c h
    cases h
  | cons a as ih =>
    intro c h
    rw [List.dropWhile_cons] at h
    split_ifs at h with ha
    · exact ih h
    · obtain rfl : a = c := by simpa using h
      simpa using ha

theorem dropTrailing_prefix (p : Char → Bool) (x : List Char) :
    ∃ t, dropTrailing p x ++ t = x := by
  obtain ⟨s, hs⟩ : ∃ s, s ++ x.reverse.dropWhile p = x.reverse :=
    ⟨x.reverse.takeWhile p, List.takeWhile_append_dropWhile p x.reverse⟩
  refine ⟨s.reverse, ?_⟩
  have h2 := congrArg List.reverse hs
  simp only [List.reverse_append, List.reverse_reverse] at h2
  exact h2

theorem pyStrip_noEdgeWs (l : List Char) : noEdgeWs (pyStrip l) = true := by
  refine noEdgeWs_build ?_ ?_
  · intro c hc
    obtain ⟨t, ht⟩ := dropTrailing_prefix isPySpace (l.dropWhile isPySpace)
    have ht2 : pyStrip l ++ t = l.dropWhile isPySpace := ht
    have hh : (l.dropWhile isPySpace).head? = some c := by
      rw [← ht2]
      cases hps : pyStrip l with
      | nil =>
        rw [hps] at hc
        cases hc
      | cons a as =>
        rw [hps] at hc
        have ha : a = c := by simpa using hc
        subst ha
        simp
    exact head_dropWhile_false hh
  · intro c hc
    have hc2 : ((l.dropWhile isPySpace).reverse.dropWhile isPySpace).head? = some c := by
      have h0 : pyStrip l
          = ((l.dropWhile isPySpace).reverse.dropWhile isPySpace).reverse := rfl
      rw [h0] at hc
      rwa [List.getLast?_reverse] at hc
    exact head_dropWhile_false hc2

theorem pyStrip_eq_self_of_noEdgeWs {l : List Char} (h : noEdgeWs l = true) :
    pyStrip l = l := by
  cases l with
  | nil => rfl
  | cons a as =>
    have ha : isPySpace a = false := noEdgeWs_head h (by simp)
    have hg : ∃ d, (a :: as).getLast? = some d := by
      rcases List.eq_nil_or_concat (a :: as) with h0 | ⟨ys, y, hys⟩
      · exact absurd h0 (by simp)
      · exact ⟨y, by rw [hys, List.concat_eq_append, List.getLast?_concat]⟩
    obtain ⟨d, hd⟩ := hg
    have hdw : isPySpace d = false := noEdgeWs_last h hd
    show dropTrailing isPySpace ((a :: as).dropWhile isPySpace) = a :: as
    rw [dropWhile_cons_neg _ ha]
    exact dropTrailing_keep _ hd hdw

theorem noEdgeWs_of_pyStrip_eq {l : List Char} (h : pyStrip l = l) : noEdgeWs l = true := by
  rw [← h]
  exact pyStrip_noEdgeWs l

theorem txFlat_noEdgeWs {w : List Char} (h : noEdgeWs w = true) :
    noEdgeWs ((w.map txBlock).flatten) = true := by
  refine noEdgeWs_of_pyStrip_eq ?_
  rw [pyStrip_txFlat, pyStrip_eq_self_of_noEdgeWs h]

/-! ### Serialized JSON has non-whitespace edges -/

theorem all_npws_cons {c : Char} {b : List Char} (hc : isPySpace c = false)
    (hb : ∀ d ∈ b, isPySpace d = false) : ∀ d ∈ c :: b, isPySpace d = false := by
  intro d hd
  rcases List.mem_cons.mp hd with rfl | hd
  · exact hc
  · exact hb d hd

theorem all_npws_append {a b : List Char} (ha : ∀ d ∈ a, isPySpace d = false)
    (hb : ∀ d ∈ b, isPySpace d = false) : ∀ d ∈ a ++ b, isPySpace d = false := by
  intro d hd
  rcases List.mem_append.mp hd with h | h
  · exact ha d h
  · exact hb d h

theorem grabFrac_nws (l tk r : List Char) (h : grabFrac l = (tk, r)) :
    ∀ d ∈ tk, isPySpace d = false := by
  unfold grabFrac at h
  split at h
  · rename_i rr
    dsimp only at h
    split_ifs at h with hds
    · simp only [Prod.mk.injEq] at h
      obtain ⟨rfl, rfl⟩ := h
      intro d hd
      cases hd
    · simp only [Prod.mk.injEq] at h
      obtain ⟨rfl, rfl⟩ := h
      refine all_npws_cons (by decide) ?_
      intro d hd
      exact digit_not_pyspace (List.mem_takeWhile_imp hd)
  · simp only [Prod.mk.injEq] at h
    obtain ⟨rfl, rfl⟩ := h
    intro d hd
    cases hd

theorem grabExp_nws (l tk r : List Char) (h : grabExp l = (tk, r)) :
    ∀ d ∈ tk, isPySpace d = false := by
  unfold grabExp at h
  split at h
  · rename_i c rr
    split_ifs at h with hce
    · split at h
      · rename_i s r2
        dsimp only at h
        split_ifs at h with hs hd1 hd2
        · simp only [Prod.mk.injEq] at h
          obtain ⟨rfl, rfl⟩ := h
          intro d hd
          cases hd
        · simp only [Prod.mk.injEq] at h
          obtain ⟨rfl, rfl⟩ := h
          refine all_npws_cons ?_ (all_npws_cons ?_ ?_)
          · rcases hce with rfl | rfl <;> decide
          · rcases hs with rfl | rfl <;> decide
          · intro d hd
            exact digit_not_pyspace (List.mem_takeWhile_imp hd)
        · simp only [Prod.mk.injEq] at h
          obtain ⟨rfl, rfl⟩ := h
          intro d hd
          cases hd
        · simp only [Prod.mk.injEq] at h
          obtain ⟨rfl, rfl⟩ := h
          refine all_npws_cons ?_ ?_
          · rcases hce with rfl | rfl <;> decide
          · intro d hd
            exact digit_not_pyspace (List.mem_takeWhile_imp hd)
      · simp only [Prod.mk.injEq] at h
        obtain ⟨rfl, rfl⟩ := h
        intro d hd
        cases hd
    · simp only [Prod.mk.injEq] at h
      obtain ⟨rfl, rfl⟩ := h
      intro d hd
      cases hd
  · simp only [Prod.mk.injEq] at h
    obtain ⟨rfl, rfl⟩ := h
    intro d hd
    cases hd

theorem parseNumCore_nws (l tk r : List Char) (h : parseNumCore l = some (tk, r)) :
    ∀ d ∈ tk, isPySpace d = false := by
  unfold parseNumCore at h
  split at h
  · cases h
  · rename_i c rr
    split_ifs at h with hc0 hcd
    · obtain ⟨fr, r2, hgf⟩ : ∃ fr r2, grabFrac rr = (fr, r2) := ⟨_, _, rfl⟩
      rw [hgf] at h
      dsimp only at h
      obtain ⟨ex, r3, hge⟩ : ∃ ex r3, grabExp r2 = (ex, r3) := ⟨_, _, rfl⟩
      rw [hge] at h
      dsimp only at h
      simp only [Option.some.injEq, Prod.mk.injEq] at h
      obtain ⟨rfl, rfl⟩ := h
      exact all_npws_cons (by decide)
        (all_npws_append (grabFrac_nws rr fr r2 hgf) (grabExp_nws r2 ex r3 hge))
    · obtain ⟨fr, r2, hgf⟩ : ∃ fr r2, grabFrac (rr.dropWhile isDigitC) = (fr, r2) :=
        ⟨_, _, rfl⟩
      rw [hgf] at h
      dsimp only at h
      obtain ⟨ex, r3, hge⟩ : ∃ ex r3, grabExp r2 = (ex, r3) := ⟨_, _, rfl⟩
      rw [hge] at h
      dsimp only at h
      simp only [Option.some.injEq, Prod.mk.injEq] at h
      obtain ⟨rfl, rfl⟩ := h
      refine all_npws_cons (digit_not_pyspace hcd) (all_npws_append (all_npws_append ?_
        (grabFrac_nws _ fr r2 hgf)) (grabExp_nws r2 ex r3 hge))
      intro d hd
      exact digit_not_pyspace (List.mem_takeWhile_imp hd)

theorem parseNumTok_nws (l tk r : List Char) (h : parseNumTok l = some (tk, r)) :
    ∀ d ∈ tk, isPySpace d = false := by
  unfold parseNumTok at h
  split at h
  · rename_i rr
    rcases hc : parseNumCore rr with - | p
    · rw [hc] at h
      cases h
    · obtain ⟨t2, r2⟩ := p
      rw [hc] at h
      simp only [Option.map_some', Option.some.injEq, Prod.mk.injEq] at h
      obtain ⟨rfl, rfl⟩ := h
      exact all_npws_cons (by decide) (parseNumCore_nws rr t2 r2 hc)
  · exact parseNumCore_nws l tk r h

theorem validNum_nws {t : List Char} (h : validNum t = true) :
    ∀ d ∈ t, isPySpace d = false := by
  unfold validNum at h
  simp only [Bool.or_eq_true, decide_eq_true_eq] at h
  rcases h with ((hnum | hnan) | hinf) | hninf
  · split at hnum
    · rename_i t2 r heq
      simp only [Bool.and_eq_true, decide_eq_true_eq] at hnum
      obtain ⟨h1, -⟩ := hnum
      rw [h1] at heq
      exact parseNumTok_nws t t r heq
    · cases hnum
  · subst hnan
    intro d hd
    fin_cases hd <;> rfl
  · subst hinf
    intro d hd
    fin_cases hd <;> rfl
  · subst hninf
    intro d hd
    fin_cases hd <;> rfl

theorem dumps_head_nws {v : Json} (h : wfJson v = true) :
    ∀ c tl, jsonDumps v = c :: tl → isPySpace c = false := by
  intro c tl heq
  match v with
  | Json.null =>
    obtain ⟨h1, -⟩ := List.cons.injEq .. ▸ heq
    rw [← h1]
    rfl
  | Json.bool true =>
    obtain ⟨h1, -⟩ := List.cons.injEq .. ▸ heq
    rw [← h1]
    rfl
  | Json.bool false =>
    obtain ⟨h1, -⟩ := List.cons.injEq .. ▸ heq
    rw [← h1]
    rfl
  | Json.str s =>
    obtain ⟨h1, -⟩ := List.cons.injEq .. ▸ heq
    rw [← h1]
    rfl
  | Json.arr [] =>
    obtain ⟨h1, -⟩ := List.cons.injEq .. ▸ heq
    rw [← h1]
    rfl
  | Json.arr (x :: xs) =>
    obtain ⟨h1, -⟩ := List.cons.injEq .. ▸ heq
    rw [← h1]
    rfl
  | Json.obj [] =>
    obtain ⟨h1, -⟩ := List.cons.injEq .. ▸ heq
    rw [← h1]
    rfl
  | Json.obj (kv :: kvs) =>
    obtain ⟨h1, -⟩ := List.cons.injEq .. ▸ heq
    rw [← h1]
    rfl
  | Json.num t0 =>
    have hv : validNum t0 = true := h
    refine validNum_nws hv c ?_
    rw [show jsonDumps (Json.num t0) = t0 from rfl] at heq
    rw [heq]
    simp

theorem dumps_last_nws {v : Json} (h : wfJson v = true) :
    ∀ c, (jsonDumps v).getLast? = some c → isPySpace c = false := by
  intro c hc
  match v with
  | Json.null =>
    have hm := mem_of_getLast?_eq hc
    fin_cases hm <;> rfl
  | Json.bool true =>
    have hm := mem_of_getLast?_eq hc
    fin_cases hm <;> rfl
  | Json.bool false =>
    have hm := mem_of_getLast?_eq hc
    fin_cases hm <;> rfl
  | Json.num t0 =>
    have hv : validNum t0 = true := h
    exact validNum_nws hv c (mem_of_getLast?_eq hc)
  | Json.str s =>
    rw [show jsonDumps (Json.str s) = ('"' :: (s.map escJsonChar).flatten) ++ ['"'] from by
      simp [jsonDumps, encodeStr]] at hc
    rw [List.getLast?_concat] at hc
    obtain rfl : '"' = c := by simpa using hc
    rfl
  | Json.arr [] =>
    have hm := mem_of_getLast?_eq hc
    fin_cases hm <;> rfl
  | Json.arr (x :: xs) =>
    rw [show jsonDumps (Json.arr (x :: xs))
        = ('[' :: (jsonDumps x ++ dumpsElems xs)) ++ [']'] from by simp [jsonDumps]] at hc
    rw [List.getLast?_concat] at hc
    obtain rfl : ']' = c := by simpa using hc
    rfl
  | Json.obj [] =>
    have hm := mem_of_getLast?_eq hc
    fin_cases hm <;> rfl
  | Json.obj (kv :: kvs) =>
    rw [show jsonDumps (Json.obj (kv :: kvs))
        = ('{' :: (encodeStr kv.1 ++ ':' :: ' ' :: jsonDumps kv.2 ++ dumpsMembers kvs))
          ++ ['}'] from by simp [jsonDumps]] at hc
    rw [List.getLast?_concat] at hc
    obtain rfl : '}' = c := by simpa using hc
    rfl

theorem dumps_noEdgeWs {v : Json} (h : wfJson v = true) :
    noEdgeWs (jsonDumps v) = true := by
  refine noEdgeWs_build ?_ (fun c hc => dumps_last_nws h c hc)
  intro c hc
  cases hd : jsonDumps v with
  | nil =>
    rw [hd] at hc
    cases hc
  | cons a tl =>
    rw [hd] at hc
    have ha : a = c := by simpa using hc
    subst ha
    exact dumps_head_nws h a tl hd

/-! ### The email mask never produces whitespace -/

theorem mem_intersperse_of {s : List Char} :
    ∀ {L : List (List Char)} {p : List Char}, p ∈ L → p ∈ L.intersperse s := by
  intro L
  induction L with
  | nil =>
    intro p hp
    cases hp
  | cons a t ih =>
    intro p hp
    cases t with
    | nil =>
      rcases List.mem_cons.mp hp with rfl | h2
      · simp
      · cases h2
    | cons b t2 =>
      rw [show (a :: b :: t2 : List (List Char)).intersperse s
          = a :: s :: (b :: t2 : List (List Char)).intersperse s from rfl]
      rcases List.mem_cons.mp hp with rfl | h2
      · simp
      · exact List.mem_cons.mpr (Or.inr (List.mem_cons.mpr (Or.inr (ih h2))))

theorem mem_of_mem_intersperse {s : List Char} :
    ∀ {L : List (List Char)} {p : List Char}, p ∈ L.intersperse s → p = s ∨ p ∈ L := by
  intro L
  induction L with
  | nil =>
    intro p hp
    cases hp
  | cons a t ih =>
    intro p hp
    cases t with
    | nil =>
      rcases List.mem_cons.mp hp with rfl | h2
      · exact Or.inr (by simp)
      · cases h2
    | cons b t2 =>
      rw [show (a :: b :: t2 : List (List Char)).intersperse s
          = a :: s :: (b :: t2 : List (List Char)).intersperse s from rfl] at hp
      rcases List.mem_cons.mp hp with rfl | h2
      · exact Or.inr (by simp)
      · rcases List.mem_cons.mp h2 with rfl | h3
        · exact Or.inl rfl
        · rcases ih h3 with h4 | h4
          · exact Or.inl h4
          · exact Or.inr (by simp [h4])

theorem mem_intercalate_sub {s : List Char} {L : List (List Char)} {p : List Char}
    (hp : p ∈ L) : ∀ c ∈ p, c ∈ List.intercalate s L := by
  intro c hc
  show c ∈ (L.intersperse s).flatten
  exact List.mem_flatten.mpr ⟨p, mem_intersperse_of hp, hc⟩

theorem mem_intercalate_elim {s : List Char} {L : List (List Char)} {c : Char}
    (hc : c ∈ List.intercalate s L) : c ∈ s ∨ ∃ p ∈ L, c ∈ p := by
  have hc2 : c ∈ (L.intersperse s).flatten := hc
  obtain ⟨p, hp, hcp⟩ := List.mem_flatten.mp hc2
  rcases mem_of_mem_intersperse hp with rfl | hp2
  · exact Or.inl hcp
  · exact Or.inr ⟨p, hp2, hcp⟩

theorem splitOn_subset {d p : List Char} (hp : p ∈ d.splitOn '.') : ∀ c ∈ p, c ∈ d := by
  intro c hc
  have h1 : c ∈ List.intercalate ['.'] (d.splitOn '.') := mem_intercalate_sub hp c hc
  rw [List.intercalate_splitOn d '.'] at h1
  exact h1

theorem mask_part_mem : ∀ (p : List Char) (c : Char), c ∈ mask_part p → c ∈ p ∨ c = '*' := by
  intro p c hc
  match p with
  | [] => cases hc
  | [a] =>
    rw [show mask_part [a] = [a, '*'] from rfl] at hc
    rcases List.mem_cons.mp hc with rfl | hc2
    · exact Or.inl (by simp)
    · simp at hc2
      exact Or.inr hc2
  | [a, b] =>
    rw [show mask_part [a, b] = [a, '*'] from rfl] at hc
    rcases List.mem_cons.mp hc with rfl | hc2
    · exact Or.inl (by simp)
    · simp at hc2
      exact Or.inr hc2
  | a :: b :: e :: rest =>
    rw [show mask_part (a :: b :: e :: rest)
        = a :: (List.replicate ((b :: e :: rest).length - 1) '*' ++
          (b :: e :: rest).drop ((b :: e :: rest).length - 1)) from rfl] at hc
    rcases List.mem_cons.mp hc with rfl | hc2
    · exact Or.inl (by simp)
    · rcases List.mem_append.mp hc2 with h3 | h3
      · exact Or.inr (List.eq_of_mem_replicate h3)
      · exact Or.inl (List.mem_cons.mpr (Or.inr (List.drop_subset _ _ h3)))

theorem chunk_not_ws {c : Char} (h : emailChunkOk c = true) : isPySpace c = false := by
  unfold emailChunkOk at h
  simp only [Bool.and_eq_true, Bool.not_eq_true'] at h
  exact h.2

theorem emailMatchAt_chunks {l lo d a : List Char}
    (h : emailMatchAt l = some (lo, d, a)) :
    (∀ c ∈ lo, emailChunkOk c = true) ∧ (∀ c ∈ d, emailChunkOk c = true) := by
  unfold emailMatchAt at h
  dsimp only at h
  split_ifs at h with hrun
  split at h
  · rename_i rest heq
    split_ifs at h with hdot
    simp only [Option.some.injEq, Prod.mk.injEq] at h
    obtain ⟨rfl, rfl, rfl⟩ := h
    constructor
    · intro c hc
      exact List.mem_takeWhile_imp hc
    · intro c hc
      exact List.mem_takeWhile_imp hc
  · first
    | exact Option.noConfusion h
    | cases h

theorem emailSearch_chunks : ∀ {v b lo d a : List Char},
    emailSearch v = some (b, lo, d, a) →
    (∀ c ∈ lo, emailChunkOk c = true) ∧ (∀ c ∈ d, emailChunkOk c = true) := by
  intro v
  induction v with
  | nil =>
    intro b lo d a h
    cases h
  | cons x xs ih =>
    intro b lo d a h
    unfold emailSearch at h
    split at h
    · rename_i lo2 d2 a2 heq
      simp only [Option.some.injEq, Prod.mk.injEq] at h
      obtain ⟨rfl, rfl, rfl, rfl⟩ := h
      exact emailMatchAt_chunks heq
    · split at h
      · rename_i b2 lo2 d2 a2 heq
        simp only [Option.some.injEq, Prod.mk.injEq] at h
        obtain ⟨rfl, rfl, rfl, rfl⟩ := h
        exact ih heq
      · cases h

theorem mask_email_noEdgeWs {w : List Char} (h : noEdgeWs w = true) :
    noEdgeWs (mask_email w) = true := by
  unfold mask_email
  split
  · exact h
  · rename_i b lo d a heq
    obtain ⟨hlo, hdm⟩ := emailSearch_chunks heq
    refine noEdgeWs_of_all ?_
    intro c hc
    rcases List.mem_append.mp hc with h1 | h1
    · rcases mask_part_mem lo c h1 with h2 | rfl
      · exact chunk_not_ws (hlo c h2)
      · rfl
    · rcases List.mem_cons.mp h1 with rfl | h2
      · rfl
      · rcases mem_intercalate_elim h2 with h3 | ⟨p, hp, hcp⟩
        · simp at h3
          subst h3
          rfl
        · obtain ⟨p0, hp0, rfl⟩ := List.mem_map.mp hp
          rcases mask_part_mem p0 c hcp with h4 | rfl
          · exact chunk_not_ws (hdm c (splitOn_subset hp0 c h4))
          · rfl

/-! ### The phone mask keeps non-whitespace edges -/

theorem reinter_length_eq : ∀ (v ds : List Char), (reinter v ds).length = v.length := by
  intro v
  induction v with
  | nil =>
    intro ds
    rfl
  | cons c cs ih =>
    intro ds
    unfold reinter
    split_ifs with hd
    · cases ds with
      | nil => simp [ih]
      | cons d ds' => simp [ih]
    · simp [ih]

theorem reinter_ne_nil {v ds : List Char} (hv : ¬ v = []) : ¬ reinter v ds = [] := by
  intro h0
  apply hv
  have hl := reinter_length_eq v ds
  rw [h0] at hl
  simp only [List.length_nil] at hl
  exact List.length_eq_zero.mp hl.symm

theorem reinter_head (c : Char) (cs ds : List Char) :
    ∃ e, (reinter (c :: cs) ds).head? = some e ∧ (e = c ∨ e ∈ ds) := by
  unfold reinter
  split_ifs with hd
  · cases ds with
    | nil => exact ⟨c, rfl, Or.inl rfl⟩
    | cons d ds' => exact ⟨d, rfl, Or.inr (by simp)⟩
  · exact ⟨c, rfl, Or.inl rfl⟩

theorem reinter_last : ∀ (v ds : List Char), ¬ v = [] →
    ∃ e, (reinter v ds).getLast? = some e ∧ (v.getLast? = some e ∨ e ∈ ds) := by
  intro v
  induction v with
  | nil =>
    intro ds h
    exact absurd rfl h
  | cons c cs ih =>
    intro ds h
    by_cases hcs : cs = []
    · subst hcs
      unfold reinter
      split_ifs with hd
      · cases ds with
        | nil => exact ⟨c, rfl, Or.inl rfl⟩
        | cons d ds' => exact ⟨d, rfl, Or.inr (by simp)⟩
      · exact ⟨c, rfl, Or.inl rfl⟩
    · unfold reinter
      split_ifs with hd
      · cases ds with
        | nil =>
          obtain ⟨e, he, hor⟩ := ih [] hcs
          refine ⟨e, ?_, ?_⟩
          · show (c :: reinter cs [] : List Char).getLast? = some e
            rw [show (c :: reinter cs [] : List Char) = [c] ++ reinter cs [] from rfl,
              List.getLast?_append_of_ne_nil _ (reinter_ne_nil hcs)]
            exact he
          · rcases hor with h1 | h1
            · refine Or.inl ?_
              rw [show (c :: cs : List Char) = [c] ++ cs from rfl,
                List.getLast?_append_of_ne_nil _ hcs]
              exact h1
            · cases h1
        | cons d ds' =>
          obtain ⟨e, he, hor⟩ := ih ds' hcs
          refine ⟨e, ?_, ?_⟩
          · show (d :: reinter cs ds' : List Char).getLast? = some e
            rw [show (d :: reinter cs ds' : List Char) = [d] ++ reinter cs ds' from rfl,
              List.getLast?_append_of_ne_nil _ (reinter_ne_nil hcs)]
            exact he
          · rcases hor with h1 | h1
            · refine Or.inl ?_
              rw [show (c :: cs : List Char) = [c] ++ cs from rfl,
                List.getLast?_append_of_ne_nil _ hcs]
              exact h1
            · exact Or.inr (by simp [h1])
      · obtain ⟨e, he, hor⟩ := ih ds hcs
        refine ⟨e, ?_, ?_⟩
        · rw [show (c :: reinter cs ds : List Char) = [c] ++ reinter cs ds from rfl,
            List.getLast?_append_of_ne_nil _ (reinter_ne_nil hcs)]
          exact he
        · rcases hor with h1 | h1
          · refine Or.inl ?_
            rw [show (c :: cs : List Char) = [c] ++ cs from rfl,
              List.getLast?_append_of_ne_nil _ hcs]
            exact h1
          · exact Or.inr h1

theorem mask_phone_noEdgeWs {w : List Char} (h : noEdgeWs w = true) :
    noEdgeWs (mask_phone w) = true := by
  unfold mask_phone
  dsimp only
  split_ifs with hlen
  · refine noEdgeWs_of_all ?_
    intro c hc
    obtain rfl := List.eq_of_mem_replicate hc
    rfl
  · have hds : ∀ d ∈ (List.replicate ((w.filter isDigitC).length - 2) '*' ++
        (w.filter isDigitC).drop ((w.filter isDigitC).length - 2)), isPySpace d = false := by
      intro d hd
      rcases List.mem_append.mp hd with h1 | h1
      · obtain rfl := List.eq_of_mem_replicate h1
        rfl
      · exact digit_not_pyspace (List.of_mem_filter (List.drop_subset _ _ h1))
    have hw : ¬ w = [] := by
      intro h0
      subst h0
      exact hlen (by decide)
    refine noEdgeWs_build ?_ ?_
    · intro c hc
      cases w with
      | nil => exact absurd rfl hw
      | cons a as =>
        obtain ⟨e, he, hor⟩ := reinter_head a as
          (List.replicate (((a :: as).filter isDigitC).length - 2) '*' ++
            ((a :: as).filter isDigitC).drop (((a :: as).filter isDigitC).length - 2))
        rw [he] at hc
        have hec : e = c := by simpa using hc
        subst hec
        rcases hor with rfl | h1
        · exact noEdgeWs_head h rfl
        · exact hds e h1
    · intro c hc
      obtain ⟨e, he, hor⟩ := reinter_last w
        (List.replicate ((w.filter isDigitC).length - 2) '*' ++
          (w.filter isDigitC).drop ((w.filter isDigitC).length - 2)) hw
      rw [he] at hc
      have hec : e = c := by simpa using hc
      subst hec
      rcases hor with h1 | h1
      · exact noEdgeWs_last h h1
      · exact hds e h1

/-! ### Query stripping emits only input or scheme characters -/

theorem urlQMatchAt_sub {l g after : List Char} (h : urlQMatchAt l = some (g, after)) :
    (∀ c ∈ g, c ∈ l ∨ c ∈ (['h', 't', 'p', 's', ':', '/'] : List Char)) ∧
    (∀ c ∈ after, c ∈ l) := by
  unfold urlQMatchAt at h
  split at h
  · rename_i rest
    cases rest with
    | nil => exact Option.noConfusion h
    | cons x r =>
      by_cases hx : x = 's'
      · subst hx
        have hp2 : (match ('s' :: r : List Char) with
            | 's' :: r2 => ((['s'] : List Char), r2)
            | _ => (([] : List Char), 's' :: r)) = (['s'], r) := by
          split
          · rename_i r2 heq
            obtain ⟨-, h2⟩ := List.cons.injEq .. ▸ heq
            rw [h2]
          · rename_i hne
            exact (hne r rfl).elim
        rw [hp2] at h
        dsimp only at h
        split at h
        · rename_i r3
          split_ifs at h with hrun
          split at h
          · rename_i r4 heq4
            simp only [Option.some.injEq, Prod.mk.injEq] at h
            obtain ⟨rfl, rfl⟩ := h
            constructor
            · intro c hc
              rw [show ('h' :: 't' :: 't' :: 'p' ::
                  (['s'] ++ ':' :: '/' :: '/' :: r3.takeWhile urlRunOk) : List Char)
                  = ['h', 't', 't', 'p', 's', ':', '/', '/'] ++ r3.takeWhile urlRunOk
                  from by simp] at hc
              rcases List.mem_append.mp hc with h1 | h1
              · fin_cases h1 <;> simp
              · refine Or.inl ?_
                have h3 : c ∈ r3 := (List.takeWhile_sublist urlRunOk).subset h1
                simp [h3]
            · intro c hc
              have h4 : c ∈ '?' :: r4 := by
                simp [(List.dropWhile_sublist (fun c => !(c = '\n'))).subset hc]
              rw [← heq4] at h4
              have h3 : c ∈ r3 := (List.dropWhile_sublist urlRunOk).subset h4
              simp [h3]
          · exact Option.noConfusion h
        · exact Option.noConfusion h
      · have hp : (match (x :: r : List Char) with
            | 's' :: r2 => ((['s'] : List Char), r2)
            | _ => (([] : List Char), x :: r)) = (([] : List Char), x :: r) := by
          split
          · rename_i r2 heq
            obtain ⟨h1, -⟩ := List.cons.injEq .. ▸ heq
            exact absurd h1 hx
          · rfl
        rw [hp] at h
        dsimp only at h
        split at h
        · rename_i r3 heq3
          obtain ⟨h1, h2⟩ := List.cons.injEq .. ▸ heq3
          subst h1
          subst h2
          split_ifs at h with hrun
          split at h
          · rename_i r4 heq4
            simp only [Option.some.injEq, Prod.mk.injEq] at h
            obtain ⟨rfl, rfl⟩ := h
            constructor
            · intro c hc
              rw [show ('h' :: 't' :: 't' :: 'p' ::
                  (([] : List Char) ++ ':' :: '/' :: '/' :: r3.takeWhile urlRunOk) : List Char)
                  = ['h', 't', 't', 'p', ':', '/', '/'] ++ r3.takeWhile urlRunOk
                  from by simp] at hc
              rcases List.mem_append.mp hc with h1 | h1
              · fin_cases h1 <;> simp
              · refine Or.inl ?_
                have h3 : c ∈ r3 := (List.takeWhile_sublist urlRunOk).subset h1
                simp [h3]
            · intro c hc
              have h4 : c ∈ '?' :: r4 := by
                simp [(List.dropWhile_sublist (fun c => !(c = '\n'))).subset hc]
              rw [← heq4] at h4
              have h3 : c ∈ r3 := (List.dropWhile_sublist urlRunOk).subset h4
              simp [h3]
          · exact Option.noConfusion h
        · exact Option.noConfusion h
  · exact Option.noConfusion h

theorem stripUrlGo_sub : ∀ (fuel : Nat) (l : List Char) (c : Char), c ∈ stripUrlGo fuel l →
    c ∈ l ∨ c ∈ (['h', 't', 'p', 's', ':', '/'] : List Char) := by
  intro fuel
  induction fuel with
  | zero =>
    intro l c hc
    exact Or.inl hc
  | succ fuel ih =>
    intro l c hc
    match l with
    | [] => cases hc
    | x :: xs =>
      have hstep : stripUrlGo (fuel + 1) (x :: xs) = (match urlQMatchAt (x :: xs) with
          | some (g, after) => g ++ stripUrlGo fuel after
          | none => x :: stripUrlGo fuel xs) := rfl
      rw [hstep] at hc
      rcases hq : urlQMatchAt (x :: xs) with - | p
      · rw [hq] at hc
        have hc2 : c ∈ x :: stripUrlGo fuel xs := hc
        rcases List.mem_cons.mp hc2 with rfl | h2
        · exact Or.inl (by simp)
        · rcases ih xs c h2 with h3 | h3
          · exact Or.inl (by simp [h3])
          · exact Or.inr h3
      · obtain ⟨g, after⟩ := p
        rw [hq] at hc
        obtain ⟨hg, hafter⟩ := urlQMatchAt_sub hq
        have hc2 : c ∈ g ++ stripUrlGo fuel after := hc
        rcases List.mem_append.mp hc2 with h2 | h2
        · exact hg c h2
        · rcases ih after c h2 with h3 | h3
          · exact Or.inl (hafter c h3)
          · exact Or.inr h3

theorem urlFullmatch_chars {l : List Char} (h : urlFullmatch l = true) :
    ∀ c ∈ l, isPySpace c = false := by
  unfold urlFullmatch at h
  split at h
  · split at h
    · rename_i r
      simp only [Bool.and_eq_true] at h
      obtain ⟨-, hall⟩ := h
      intro c hc
      simp only [List.mem_cons] at hc
      rcases hc with rfl | rfl | rfl | rfl | rfl | rfl | rfl | hc
      · rfl
      · rfl
      · rfl
      · rfl
      · rfl
      · rfl
      · rfl
      · have h2 := List.all_eq_true.mp hall c hc
        simpa using h2
    · rename_i r
      simp only [Bool.and_eq_true] at h
      obtain ⟨-, hall⟩ := h
      intro c hc
      simp only [List.mem_cons] at hc
      rcases hc with rfl | rfl | rfl | rfl | rfl | rfl | rfl | rfl | hc
      · rfl
      · rfl
      · rfl
      · rfl
      · rfl
      · rfl
      · rfl
      · rfl
      · have h2 := List.all_eq_true.mp hall c hc
        simpa using h2
    · exact absurd h (by decide)
  · exact absurd h (by decide)

theorem strip_url_noEdgeWs {w : List Char} (h : urlFullmatch w = true) :
    noEdgeWs (strip_url_query w) = true := by
  refine noEdgeWs_of_all ?_
  intro c hc
  have hc2 : c ∈ stripUrlGo w.length w := hc
  rcases stripUrlGo_sub w.length w c hc2 with h1 | h1
  · exact urlFullmatch_chars h c h1
  · fin_cases h1 <;> rfl

/-! ### First and last line of `splitlines` -/

theorem splitLinesGo_first : ∀ (l acc : List Char), ¬ acc = [] →
    ∃ t ls, splitLinesGo l acc = (acc.reverse ++ t) :: ls := by
  intro l acc
  induction l, acc using splitLinesGo.induct with
  | case1 acc h =>
    intro hne
    exact absurd (List.isEmpty_iff.mp h) hne
  | case2 acc h =>
    intro hne
    refine ⟨[], [], ?_⟩
    simp [splitLinesGo, h]
  | case3 rest acc ih =>
    intro hne
    refine ⟨[], splitLinesGo rest [], ?_⟩
    simp [splitLinesGo]
  | case4 rest acc ih =>
    intro hne
    refine ⟨[], splitLinesGo rest [], ?_⟩
    simp [splitLinesGo]
  | case5 rest acc hne2 ih =>
    intro hne
    refine ⟨[], splitLinesGo rest [], ?_⟩
    simp [splitLinesGo]
  | case6 c rest acc h1 h2 h3 ih =>
    intro hne
    obtain ⟨t, ls, hrec⟩ := ih (by simp)
    refine ⟨c :: t, ls, ?_⟩
    have hstep : splitLinesGo (c :: rest) acc = splitLinesGo rest (c :: acc) := by
      simp [splitLinesGo, h1, h2, h3]
    rw [hstep, hrec]
    simp

theorem splitLinesGo_ne_nil (l acc : List Char) (hne : ¬ acc = []) :
    ¬ splitLinesGo l acc = [] := by
  intro h0
  obtain ⟨t, ls, heq⟩ := splitLinesGo_first l acc hne
  rw [heq] at h0
  cases h0

theorem splitLinesGo_ne_nil2 : ∀ (l acc : List Char), ¬ l = [] →
    ¬ splitLinesGo l acc = [] := by
  intro l acc
  induction l, acc using splitLinesGo.induct with
  | case1 acc h =>
    intro hl
    exact absurd rfl hl
  | case2 acc h =>
    intro hl
    exact absurd rfl hl
  | case3 rest acc ih =>
    intro hl h0
    rw [show splitLinesGo ('\r' :: '\n' :: rest) acc
        = acc.reverse :: splitLinesGo rest [] from by simp [splitLinesGo]] at h0
    cases h0
  | case4 rest acc ih =>
    intro hl h0
    rw [show splitLinesGo ('\n' :: rest) acc
        = acc.reverse :: splitLinesGo rest [] from by simp [splitLinesGo]] at h0
    cases h0
  | case5 rest acc hne ih =>
    intro hl h0
    rw [show splitLinesGo ('\r' :: rest) acc
        = acc.reverse :: splitLinesGo rest [] from by simp [splitLinesGo]] at h0
    cases h0
  | case6 c rest acc h1 h2 h3 ih =>
    intro hl h0
    rw [show splitLinesGo (c :: rest) acc = splitLinesGo rest (c :: acc) from by
      simp [splitLinesGo, h1, h2, h3]] at h0
    exact splitLinesGo_ne_nil rest (c :: acc) (by simp) h0

theorem splitLinesGo_last : ∀ (l acc : List Char), ∀ {z : Char}, l.getLast? = some z →
    ¬ z = '\n' → ¬ z = '\r' →
    ∃ ln, (splitLinesGo l acc).getLast? = some ln ∧ ln.getLast? = some z := by
  intro l acc
  induction l, acc using splitLinesGo.induct with
  | case1 acc h =>
    intro z hz hn hr
    exact Option.noConfusion hz
  | case2 acc h =>
    intro z hz hn hr
    exact Option.noConfusion hz
  | case3 rest acc ih =>
    intro z hz hn hr
    have hrne : ¬ rest = [] := by
      intro h0
      subst h0
      have h4 : some '\n' = some z := hz
      obtain h5 := Option.some.injEq .. ▸ h4
      exact hn h5.symm
    have hz2 : rest.getLast? = some z := by
      rw [show ('\r' :: '\n' :: rest : List Char) = ['\r', '\n'] ++ rest from rfl,
        List.getLast?_append_of_ne_nil _ hrne] at hz
      exact hz
    obtain ⟨ln, hh1, hh2⟩ := ih hz2 hn hr
    refine ⟨ln, ?_, hh2⟩
    rw [show splitLinesGo ('\r' :: '\n' :: rest) acc
        = acc.reverse :: splitLinesGo rest [] from by simp [splitLinesGo]]
    rw [show (acc.reverse :: splitLinesGo rest [] : List (List Char))
        = [acc.reverse] ++ splitLinesGo rest [] from rfl,
      List.getLast?_append_of_ne_nil _ (splitLinesGo_ne_nil2 rest [] hrne)]
    exact hh1
  | case4 rest acc ih =>
    intro z hz hn hr
    have hrne : ¬ rest = [] := by
      intro h0
      subst h0
      have h4 : some '\n' = some z := hz
      obtain h5 := Option.some.injEq .. ▸ h4
      exact hn h5.symm
    have hz2 : rest.getLast? = some z := by
      rw [show ('\n' :: rest : List Char) = ['\n'] ++ rest from rfl,
        List.getLast?_append_of_ne_nil _ hrne] at hz
      exact hz
    obtain ⟨ln, hh1, hh2⟩ := ih hz2 hn hr
    refine ⟨ln, ?_, hh2⟩
    rw [show splitLinesGo ('\n' :: rest) acc
        = acc.reverse :: splitLinesGo rest [] from by simp [splitLinesGo]]
    rw [show (acc.reverse :: splitLinesGo rest [] : List (List Char))
        = [acc.reverse] ++ splitLinesGo rest [] from rfl,
      List.getLast?_append_of_ne_nil _ (splitLinesGo_ne_nil2 rest [] hrne)]
    exact hh1
  | case5 rest acc hne ih =>
    intro z hz hn hr
    have hrne : ¬ rest = [] := by
      intro h0
      subst h0
      have h4 : some '\r' = some z := hz
      obtain h5 := Option.some.injEq .. ▸ h4
      exact hr h5.symm
    have hz2 : rest.getLast? = some z := by
      rw [show ('\r' :: rest : List Char) = ['\r'] ++ rest from rfl,
        List.getLast?_append_of_ne_nil _ hrne] at hz
      exact hz
    obtain ⟨ln, hh1, hh2⟩ := ih hz2 hn hr
    refine ⟨ln, ?_, hh2⟩
    rw [show splitLinesGo ('\r' :: rest) acc
        = acc.reverse :: splitLinesGo rest [] from by simp [splitLinesGo]]
    rw [show (acc.reverse :: splitLinesGo rest [] : List (List Char))
        = [acc.reverse] ++ splitLinesGo rest [] from rfl,
      List.getLast?_append_of_ne_nil _ (splitLinesGo_ne_nil2 rest [] hrne)]
    exact hh1
  | case6 c rest acc h1 h2 h3 ih =>
    intro z hz hn hr
    by_cases hrest : rest = []
    · subst hrest
      have h4 : some c = some z := hz
      obtain h5 := Option.some.injEq .. ▸ h4
      subst h5
      refine ⟨(c :: acc).reverse, ?_, ?_⟩
      · rw [show splitLinesGo [c] acc = splitLinesGo [] (c :: acc) from by
          simp [splitLinesGo, h1, h2, h3]]
        rw [show splitLinesGo [] (c :: acc) = [(c :: acc).reverse] from by simp [splitLinesGo]]
        rfl
      · rw [List.getLast?_reverse]
        rfl
    · have hz2 : rest.getLast? = some z := by
        rw [show (c :: rest : List Char) = [c] ++ rest from rfl,
          List.getLast?_append_of_ne_nil _ hrest] at hz
        exact hz
      obtain ⟨ln, hh1, hh2⟩ := ih hz2 hn hr
      refine ⟨ln, ?_, hh2⟩
      rw [show splitLinesGo (c :: rest) acc = splitLinesGo rest (c :: acc) from by
        simp [splitLinesGo, h1, h2, h3]]
      exact hh1

theorem splitLinesGo_head : ∀ (l acc : List Char), ∀ {c : Char}, l.head? = some c →
    ¬ c = '\n' → ¬ c = '\r' →
    ∃ t ls, splitLinesGo l acc = (acc.reverse ++ c :: t) :: ls := by
  intro l acc
  induction l, acc using splitLinesGo.induct with
  | case1 acc h =>
    intro c hc hn hr
    exact Option.noConfusion hc
  | case2 acc h =>
    intro c hc hn hr
    exact Option.noConfusion hc
  | case3 rest acc ih =>
    intro c hc hn hr
    have h4 : some '\r' = some c := hc
    obtain h5 := Option.some.injEq .. ▸ h4
    exact absurd h5.symm hr
  | case4 rest acc ih =>
    intro c hc hn hr
    have h4 : some '\n' = some c := hc
    obtain h5 := Option.some.injEq .. ▸ h4
    exact absurd h5.symm hn
  | case5 rest acc hne ih =>
    intro c hc hn hr
    have h4 : some '\r' = some c := hc
    obtain h5 := Option.some.injEq .. ▸ h4
    exact absurd h5.symm hr
  | case6 c0 rest acc h1 h2 h3 ih =>
    intro c hc hn hr
    have h4 : some c0 = some c := hc
    obtain h5 := Option.some.injEq .. ▸ h4
    subst h5
    obtain ⟨t, ls, hrec⟩ := splitLinesGo_first rest (c0 :: acc) (by simp)
    refine ⟨t, ls, ?_⟩
    rw [show splitLinesGo (c0 :: rest) acc = splitLinesGo rest (c0 :: acc) from by
      simp [splitLinesGo, h1, h2, h3], hrec]
    simp

/-! ### Edges of `intercalate` -/

theorem intercalate_singleton (s f : List Char) : List.intercalate s [f] = f := by
  show (List.intersperse s [f]).flatten = f
  rw [show List.intersperse s [f] = [f] from rfl]
  simp

theorem intercalate_cons_cons (s f b : List Char) (t : List (List Char)) :
    List.intercalate s (f :: b :: t) = f ++ s ++ List.intercalate s (b :: t) := by
  show (List.intersperse s (f :: b :: t)).flatten = _
  rw [show List.intersperse s (f :: b :: t) = f :: s :: List.intersperse s (b :: t) from rfl]
  rw [List.flatten_cons, List.flatten_cons]
  show f ++ (s ++ (List.intersperse s (b :: t)).flatten) = f ++ s ++ List.intercalate s (b :: t)
  rw [List.append_assoc]
  rfl

theorem intercalate_cons_ex (s f : List Char) (L : List (List Char)) :
    ∃ q, List.intercalate s (f :: L) = f ++ q := by
  cases L with
  | nil =>
    refine ⟨[], ?_⟩
    rw [intercalate_singleton]
    simp
  | cons b t =>
    refine ⟨s ++ List.intercalate s (b :: t), ?_⟩
    rw [intercalate_cons_cons, List.append_assoc]

theorem intercalate_getLast {s : List Char} : ∀ (L : List (List Char)) (g : List Char)
    (z : Char), L.getLast? = some g → g.getLast? = some z →
    (List.intercalate s L).getLast? = some z := by
  intro L
  induction L with
  | nil =>
    intro g z hg hz
    exact Option.noConfusion hg
  | cons f ls ih =>
    intro g z hg hz
    cases ls with
    | nil =>
      have h4 : some f = some g := hg
      obtain h5 := Option.some.injEq .. ▸ h4
      subst h5
      rw [intercalate_singleton]
      exact hz
    | cons b t =>
      have hg2 : (b :: t : List (List Char)).getLast? = some g := by
        rw [show (f :: b :: t : List (List Char)) = [f] ++ b :: t from rfl,
          List.getLast?_append_of_ne_nil _
            (by simp : ¬ (b :: t : List (List Char)) = [])] at hg
        exact hg
      have hI := ih g z hg2 hz
      rw [intercalate_cons_cons]
      have hIne : ¬ List.intercalate s (b :: t) = [] := by
        intro h0
        rw [h0] at hI
        exact Option.noConfusion hI
      rw [List.getLast?_append_of_ne_nil _ hIne]
      exact hI

/-! ### Edges of one env line -/

theorem envLine_head (line : List Char) :
    (envLine sanDetected line).head? = line.head? := by
  unfold envLine
  split_ifs with h1 h2 h3
  · rfl
  · rfl
  · split
    · rename_i kk val heq
      obtain ⟨hdec, -⟩ := splitFirstEq_spec line kk val heq
      rw [hdec]
      cases kk with
      | nil => rfl
      | cons a as => rfl
    · rfl
  · rfl

theorem envLine_last_cases (line : List Char) :
    envLine sanDetected line = line ∨
    ∃ kk val, splitFirstEq line = some (kk, val) ∧
      envLine sanDetected line = kk ++ '=' :: sanDetected (pyStrip val) := by
  unfold envLine
  split_ifs with h1 h2 h3
  · exact Or.inl rfl
  · exact Or.inl rfl
  · split
    · rename_i kk val heq
      exact Or.inr ⟨kk, val, heq, rfl⟩
    · exact Or.inl rfl
  · exact Or.inl rfl

/-! ### Claim C1 -/

/-- C1: `detect_type` is total — it returns one of the six kinds for
every string — and computes exactly the first-match-wins cascade the
claim describes (trim; delimiter-shaped JSON that parses; else the env
line test; else the anchored email, phone, URL matchers; else text),
here stated as equality with `detectTypeSpec`, the cascade written
from the claim's words. -/
theorem C1_detect_type_total_and_ordered :
    ∀ v : List Char, detect_type v = detectTypeSpec v ∧
      detect_type v ∈ (["json", "env", "email", "phone", "url", "text"] : List String) := by
  intro v
  refine ⟨rfl, ?_⟩
  simp only [detect_type]
  split_ifs <;> simp

/-! ### Claim C2 -/

/-- `json.loads (json.dumps t) = t` for every well-formed value. -/
theorem loads_of_dumps {t : Json} (h : wfJson t = true) :
    jsonLoads (jsonDumps t) = some t := by
  obtain ⟨c, tl, hd, hcws, -, -⟩ := dumps_head h
  unfold jsonLoads
  have hsk : skipWs (jsonDumps t) = jsonDumps t := by
    rw [hd]
    exact skipWs_cons_of _ hcws
  rw [hsk]
  have hP := (dumps_complete ((jsonDumps t).length + 1)).1 t [] h rfl (by omega)
  rw [List.append_nil] at hP
  rw [hP]
  rfl

/-- The JSON branch of `sanitize_value`, with the nested recursive
sanitization expressed through the canonical full-fuel `sanDetected`. -/
theorem sanitizeBody_json (san : List Char → List Char) (v : List Char)
    (k : Option String) (t : Json)
    (hd : (match k with
      | none => detect_type v
      | some kk => if kk = "" then detect_type v else kk) = "json")
    (hp : jsonLoads v = some t) :
    sanitizeBody san v k = ("json", jsonDumps (mapLeaves san t)) := by
  simp only [sanitizeBody]
  rw [hd, hp]
  rfl

theorem json_sanitize_eq (v : List Char) (k : Option String) (t : Json)
    (hk : k = some "json" ∨ (k = none ∧ detect_type v = "json"))
    (hp : jsonLoads v = some t) :
    sanitize_value v k = ("json", jsonDumps (mapLeaves sanDetected t)) := by
  have hsan : sanitize_value v k =
      sanitizeBody (fun o => (sanitizeVal v.length o (some (detect_type o))).2) v k := rfl
  rw [hsan, sanitizeBody_json _ v k t ?hd hp]
  case hd =>
    rcases hk with rfl | ⟨rfl, hdet⟩
    · rfl
    · exact hdet
  congr 2
  apply mapLeaves_congr (sizeOf t) t le_rfl
  intro s hs
  have hb := jsonLoads_leaf_bound hp s hs
  show (sanitizeVal v.length s (some (detect_type s))).2 = sanDetected s
  unfold sanDetected sanitize_value
  rw [sanitizeVal_stable s.length s le_rfl v.length (s.length + 1)
    (some (detect_type s)) (by omega) (by omega)]

/-- C2 counterexample: the claim's "every input that parses as JSON"
scope is wrong in both directions.  `"1"` parses as JSON (`json.loads`
accepts a bare number), yet `sanitize_value` with no kind override
detects it as text and returns kind `"text"` — only inputs whose
trimmed text is brace- or bracket-delimited are detected as JSON.
Conversely the detector trims with `str.strip` before parsing while
the JSON branch re-parses the raw value, so `"\x0b\x7b\x7d"` is
detected as JSON yet `json.loads` rejects its raw text (`'\x0b'` is
stripped by `str.strip` but is not JSON whitespace) and sanitization
falls back to kind `"text"`. -/
theorem C2_counterexample :
    ((jsonLoads ['1']).isSome = true ∧ sanitize_value ['1'] none = ("text", ['1'])) ∧
    (detect_type ['\x0b', '\x7b', '\x7d'] = "json" ∧
      jsonLoads ['\x0b', '\x7b', '\x7d'] = none ∧
      (sanitize_value ['\x0b', '\x7b', '\x7d'] none).1 = "text") :=
  ⟨⟨rfl, rfl⟩, rfl, rfl, rfl⟩

/-- C2 (amended): for an input that is detected as JSON (its trimmed
text is brace- or bracket-delimited and parses) and whose raw
untrimmed text also parses as JSON — both conditions are needed, see
the counterexample for inputs satisfying exactly one — `sanitize_value`
returns kind `"json"` together with the serialization of the same tree
in which exactly the string leaves are rewritten by the recursive
detect-and-sanitize (`mapLeaves sanDetected` — object keys, order and
non-string leaves untouched by construction), and that output is valid
JSON: it re-parses to exactly the rewritten tree. -/
theorem C2_json_leafwise_roundtrip (v : List Char) (t : Json)
    (hd : detect_type v = "json") (hp : jsonLoads v = some t) :
    sanitize_value v none = ("json", jsonDumps (mapLeaves sanDetected t)) ∧
    jsonLoads (jsonDumps (mapLeaves sanDetected t)) = some (mapLeaves sanDetected t) := by
  constructor
  · exact json_sanitize_eq v none t (Or.inr ⟨rfl, hd⟩) hp
  · exact loads_of_dumps
      (mapLeaves_wf sanDetected (sizeOf t) t le_rfl (wf_of_loads hp))

/-- C2 witness at the spec's own example
`'\x7b"email":"user@example.com"\x7d'`: the sanitized output is the
dump of the leaf-masked tree, it re-parses to that tree, and it no
longer contains the original address. -/
theorem C2_witness :
    (sanitize_value "\x7b\"email\":\"user@example.com\"\x7d".data none
        = ("json", jsonDumps (mapLeaves sanDetected
            (Json.obj [("email".data, Json.str "user@example.com".data)]))) ∧
      jsonLoads (jsonDumps (mapLeaves sanDetected
          (Json.obj [("email".data, Json.str "user@example.com".data)])))
        = some (mapLeaves sanDetected
            (Json.obj [("email".data, Json.str "user@example.com".data)]))) ∧
    (sanitize_value "\x7b\"email\":\"user@example.com\"\x7d".data none).2
      = "\x7b\"email\": \"u**r@e*****e.c*m\"\x7d".data ∧
    ¬ "user@example.com".data
      <:+: (sanitize_value "\x7b\"email\":\"user@example.com\"\x7d".data none).2 :=
  ⟨C2_json_leafwise_roundtrip "\x7b\"email\":\"user@example.com\"\x7d".data
      (Json.obj [("email".data, Json.str "user@example.com".data)]) rfl rfl,
    rfl, by decide⟩

/-! ### Claim C3 -/

/-- C3: Env sanitization is line-local and key-preserving: under the
Env kind (overridden or detected) the output is the input's lines
joined with newline, where each line goes through `envLine` — blank
lines, comment lines and lines without an equals sign verbatim, any
other line split at its first equals sign with the key emitted
unchanged and the (stripped) value independently kind-detected and
sanitized by the same per-kind rules (`sanDetected`). -/
theorem C3_env_line_local (v : List Char) (k : Option String)
    (hk : k = some "env" ∨ (k = none ∧ detect_type v = "env")) :
    sanitize_value v k =
      ("env", List.intercalate ['\n'] ((splitLines v).map (envLine sanDetected))) :=
  env_sanitize_eq v k hk

/-- C3 witness: the claim's example block; the comment line survives
verbatim and only the value sides are rewritten. -/
theorem C3_env_witness :
    ((none : Option String) = some "env" ∨ ((none : Option String) = none ∧
      detect_type "A=1\n# comment\nB=bob@x.com".data = "env")) ∧
    sanitize_value "A=1\n# comment\nB=bob@x.com".data none =
      ("env", List.intercalate ['\n'] ((splitLines "A=1\n# comment\nB=bob@x.com".data).map (envLine sanDetected))) ∧
    sanitize_value "A=1\n# comment\nB=bob@x.com".data none =
      ("env", "A=1\n# comment\nB=b*b@x*.c*m".data) :=
  ⟨Or.inr ⟨rfl, by decide⟩,
   C3_env_line_local "A=1\n# comment\nB=bob@x.com".data none (Or.inr ⟨rfl, by decide⟩),
   by decide⟩

/-! ### Claim C4 -/

/-- C4: `mask_phone` with fewer than 4 digits returns one `'*'` per
digit (non-digits dropped); otherwise the result pairs up with the
input position by position — same length, non-digit positions
unchanged — and its digit positions are, in order, `'*'` for all but
the last two digits followed by the last two digits themselves. -/
theorem C4_mask_phone_spec (v : List Char) :
    ((v.filter isDigitC).length < 4 →
      mask_phone v = List.replicate (v.filter isDigitC).length '*') ∧
    (4 ≤ (v.filter isDigitC).length →
      (mask_phone v).length = v.length ∧
      (∀ p ∈ v.zip (mask_phone v), isDigitC p.1 = false → p.2 = p.1) ∧
      (v.zip (mask_phone v)).filterMap
          (fun p => if isDigitC p.1 then some p.2 else none) =
        List.replicate ((v.filter isDigitC).length - 2) '*' ++
          (v.filter isDigitC).drop ((v.filter isDigitC).length - 2)) := by
  constructor
  · intro h
    simp only [mask_phone]
    rw [if_pos h]
  · intro h
    have hlt : ¬ (v.filter isDigitC).length < 4 := by omega
    have hm : mask_phone v =
        reinter v (List.replicate ((v.filter isDigitC).length - 2) '*' ++
          (v.filter isDigitC).drop ((v.filter isDigitC).length - 2)) := by
      simp only [mask_phone]
      rw [if_neg hlt]
    have hlen : (List.replicate ((v.filter isDigitC).length - 2) '*' ++
        (v.filter isDigitC).drop ((v.filter isDigitC).length - 2)).length =
        (v.filter isDigitC).length := by
      simp
    refine ⟨?_, ?_, ?_⟩
    · rw [hm]
      exact reinter_length v _ hlen
    · rw [hm]
      exact reinter_nondigit v _ hlen
    · rw [hm, reinter_digits v _ hlen]

/-- C4 witness: the claim's own example, `"+1 (555) 123-4567"`. -/
theorem C4_mask_phone_witness :
    4 ≤ (("+1 (555) 123-4567".data).filter isDigitC).length ∧
    (mask_phone "+1 (555) 123-4567".data).length = ("+1 (555) 123-4567".data).length ∧
    mask_phone "+1 (555) 123-4567".data = "+* (***) ***-**67".data :=
  ⟨by decide, ((C4_mask_phone_spec "+1 (555) 123-4567".data).2 (by decide)).1, by decide⟩

/-! ### Claim C5 -/

/-- C5 counterexample: `mask_email("alice@example.com")` is not the
`"a***e@e*****m"` the spec (and the source's own docstring) states. -/
theorem C5_counterexample :
    mask_email "alice@example.com".data ≠ "a***e@e*****m".data := by
  decide

/-- C5 amended: the code masks the domain label by label, keeping the
dot, so `mask_email("alice@example.com") = "a***e@e*****e.c*m"`. -/
theorem C5_amended :
    mask_email "alice@example.com".data = "a***e@e*****e.c*m".data := by
  decide

/-! ### Claim C6 -/

/-- C6 counterexample: on a JSON-kind parse failure the code applies
only HTML escaping, not the claimed HTML-plus-SQL composite (which
would double the quote before escaping it). -/
theorem C6_counterexample :
    jsonLoads "'".data = none ∧
    sanitize_value "'".data (some "json") ≠
      ("text", html_escape (escape_sql "'".data)) :=
  ⟨rfl, by decide⟩

/-- C6 amended: when `sanitize_value` is invoked with kind JSON on a
string `json.loads` rejects, it silently reclassifies the result as
Text and applies HTML escaping only (no SQL escaping) to the raw
unparsed input. -/
theorem C6_amended (v : List Char) (h : jsonLoads v = none) :
    sanitize_value v (some "json") = ("text", html_escape v) := by
  unfold sanitize_value sanitizeVal sanitizeBody
  rw [h]
  rfl

/-- C6 witness: the single-quote string. -/
theorem C6_amended_witness :
    jsonLoads "'".data = none ∧
    sanitize_value "'".data (some "json") = ("text", html_escape "'".data) :=
  ⟨rfl, C6_amended "'".data rfl⟩

/-! ### Claim C7 -/

/-- C7 counterexample: the JavaScript escaper does not escape the
newline (the claim says both the Java and the JS variants escape
newline as `\n` and carriage return as `\r`). -/
theorem C7_counterexample :
    js_literal ['\n'] ≠ ['"', '\\', 'n', '"'] := by
  decide

/-- C7 amended: both escapers wrap in double quotes and backslash-escape
backslashes and double quotes; the Java variant additionally escapes
newline as `\n` and carriage return as `\r`, while the JavaScript
variant escapes nothing else (in particular neither newline nor
carriage return). -/
theorem C7_literal_escapers (s : List Char) :
    java_literal s = '"' :: (s.map escJavaSpec).flatten ++ ['"'] ∧
    js_literal s = '"' :: (s.map escJsSpec).flatten ++ ['"'] := by
  constructor
  · unfold java_literal
    rw [java_core_eq]
  · unfold js_literal
    rw [js_core_eq]

/-! ### Claim C8 -/

/-- C8: `html_escape` is not idempotent on any string containing one of
the five escaped characters: the first pass introduces a `'&'`, and a
second pass strictly lengthens any string containing `'&'`. -/
theorem C8_html_escape_not_idempotent (s : List Char)
    (h : ∃ c ∈ s, c = '&' ∨ c = '<' ∨ c = '>' ∨ c = '"' ∨ c = '\'') :
    html_escape (html_escape s) ≠ html_escape s := by
  obtain ⟨c, hc, hs⟩ := h
  intro heq
  have h1 : '&' ∈ html_escape s := amp_mem_html_escape hc hs
  have h2 := html_escape_length_lt h1
  rw [heq] at h2
  omega

/-- C8 witness: a string consisting of a single `'<'`. -/
theorem C8_witness :
    (∃ c ∈ ['<'], c = '&' ∨ c = '<' ∨ c = '>' ∨ c = '"' ∨ c = '\'') ∧
    html_escape (html_escape ['<']) ≠ html_escape ['<'] :=
  ⟨by decide, C8_html_escape_not_idempotent ['<'] (by decide)⟩

/-! ### The canonical nested sanitization, branch by branch -/

theorem sanitizeBody_text_kind (san : List Char → List Char) (v : List Char)
    (k : Option String)
    (hd : (match k with
      | none => detect_type v
      | some kk => if kk = "" then detect_type v else kk) = "text") :
    sanitizeBody san v k = ("text", html_escape (escape_sql v)) := by
  simp only [sanitizeBody]
  rw [hd]
  rfl

theorem sanDetected_email {w : List Char} (hd : detect_type w = "email") :
    sanDetected w = mask_email w := by
  unfold sanDetected
  rw [hd]
  rfl

theorem sanDetected_phone {w : List Char} (hd : detect_type w = "phone") :
    sanDetected w = mask_phone w := by
  unfold sanDetected
  rw [hd]
  rfl

theorem sanDetected_url {w : List Char} (hd : detect_type w = "url") :
    sanDetected w = strip_url_query w := by
  unfold sanDetected
  rw [hd]
  rfl

theorem sanDetected_json {w : List Char} {t : Json} (hp : jsonLoads w = some t)
    (hd : detect_type w = "json") :
    sanDetected w = jsonDumps (mapLeaves sanDetected t) := by
  have h0 : sanDetected w = (sanitize_value w (some (detect_type w))).2 := rfl
  rw [h0, hd, json_sanitize_eq w (some "json") t (Or.inl rfl) hp]

theorem sanDetected_env {w : List Char} (hd : detect_type w = "env") :
    sanDetected w = List.intercalate ['\n'] ((splitLines w).map (envLine sanDetected)) := by
  have h0 : sanDetected w = (sanitize_value w (some (detect_type w))).2 := rfl
  rw [h0, hd, env_sanitize_eq w (some "env") (Or.inl rfl)]

theorem sanDetected_text {w : List Char} (hd : detect_type w = "text") :
    sanDetected w = html_escape (escape_sql w) := by
  unfold sanDetected
  rw [hd]
  have hsan : sanitize_value w (some "text") =
      sanitizeBody (fun o => (sanitizeVal w.length o (some (detect_type o))).2) w
        (some "text") := rfl
  rw [hsan, sanitizeBody_text_kind _ w (some "text") rfl]

/-- Every branch of the recursive detect-and-sanitize keeps the edges
of its output free of whitespace, provided the input has no edge
whitespace (the env branch recurses into the stripped value sides,
which are strictly shorter; `n` bounds the length for that
induction). -/
theorem sanDetected_noEdgeWs : ∀ (n : Nat) (w : List Char), w.length ≤ n →
    noEdgeWs w = true → noEdgeWs (sanDetected w) = true := by
  intro n
  induction n with
  | zero =>
    intro w hlen hw
    have hw0 : w = [] := List.length_eq_zero.mp (Nat.le_zero.mp hlen)
    subst hw0
    rfl
  | succ n ih =>
    intro w hlen hw
    have hps : pyStrip w = w := pyStrip_eq_self_of_noEdgeWs hw
    have hsix : detect_type w = "json" ∨ detect_type w = "env" ∨ detect_type w = "email" ∨
        detect_type w = "phone" ∨ detect_type w = "url" ∨ detect_type w = "text" := by
      unfold detect_type
      dsimp only
      split_ifs <;> simp
    rcases hsix with hd | hd | hd | hd | hd | hd
    · have hcond := detect_json_elim hd
      rw [hps] at hcond
      obtain ⟨t, ht⟩ := Option.isSome_iff_exists.mp hcond.2
      rw [sanDetected_json ht hd]
      exact dumps_noEdgeWs (mapLeaves_wf sanDetected (sizeOf t) t le_rfl (wf_of_loads ht))
    · rw [sanDetected_env hd]
      have hwne : ¬ w = [] := by
        intro h0
        rw [h0] at hd
        exact absurd hd (by decide)
      obtain ⟨c, hwh⟩ : ∃ c, w.head? = some c := by
        cases w with
        | nil => exact absurd rfl hwne
        | cons a as => exact ⟨a, rfl⟩
      obtain ⟨z, hwz⟩ : ∃ z, w.getLast? = some z := by
        rcases List.eq_nil_or_concat w with h0 | ⟨ys, y, hys⟩
        · exact absurd h0 hwne
        · exact ⟨y, by rw [hys, List.concat_eq_append, List.getLast?_concat]⟩
      have hcws : isPySpace c = false := noEdgeWs_head hw hwh
      have hzws : isPySpace z = false := noEdgeWs_last hw hwz
      have hcn : ¬ c = '\n' := by
        intro h0
        rw [h0] at hcws
        exact absurd hcws (by decide)
      have hcr : ¬ c = '\r' := by
        intro h0
        rw [h0] at hcws
        exact absurd hcws (by decide)
      have hzn : ¬ z = '\n' := by
        intro h0
        rw [h0] at hzws
        exact absurd hzws (by decide)
      have hzr : ¬ z = '\r' := by
        intro h0
        rw [h0] at hzws
        exact absurd hzws (by decide)
      obtain ⟨t0, ls0, hsp⟩ := splitLinesGo_head w [] hwh hcn hcr
      have hsp2 : splitLines w = (c :: t0) :: ls0 := by
        unfold splitLines
        rw [hsp]
        simp
      obtain ⟨lastln, hL1, hL2⟩ := splitLinesGo_last w [] hwz hzn hzr
      have hL1b : (splitLines w).getLast? = some lastln := hL1
      have hlastmem : lastln ∈ splitLines w := mem_of_getLast?_eq hL1b
      have hlastlen : lastln.length ≤ w.length := splitLines_mem_length hlastmem
      have hM : ((splitLines w).map (envLine sanDetected)).getLast?
          = some (envLine sanDetected lastln) := by
        rw [List.getLast?_map, hL1b]
        rfl
      refine noEdgeWs_build ?_ ?_
      · intro e he
        rw [hsp2, List.map_cons] at he
        have hel : (envLine sanDetected (c :: t0)).head? = some c := by
          rw [envLine_head]
          rfl
        obtain ⟨q, hq⟩ := intercalate_cons_ex ['\n'] (envLine sanDetected (c :: t0))
          (ls0.map (envLine sanDetected))
        rw [hq] at he
        cases hE : envLine sanDetected (c :: t0) with
        | nil =>
          rw [hE] at hel
          exact Option.noConfusion hel
        | cons a tl =>
          rw [hE] at hel he
          have hac : a = c := by simpa using hel
          have hae : a = e := by simpa using he
          subst hae
          rw [hac]
          exact hcws
      · intro e he
        rcases envLine_last_cases lastln with hEq | ⟨kk, val, hsf, hEq⟩
        · have hI := intercalate_getLast (s := ['\n'])
            ((splitLines w).map (envLine sanDetected)) (envLine sanDetected lastln) z hM
            (by rw [hEq]; exact hL2)
          rw [hI] at he
          have hze : z = e := by simpa using he
          rw [← hze]
          exact hzws
        · have hvallen : (pyStrip val).length ≤ n := by
            have h1 := pyStrip_length_le val
            have h2 := (splitFirstEq_spec lastln kk val hsf).1
            have h3 : val.length < lastln.length := by
              rw [h2, List.length_append, List.length_cons]
              omega
            omega
          have hS := ih (pyStrip val) hvallen (pyStrip_noEdgeWs val)
          cases hSe : sanDetected (pyStrip val) with
          | nil =>
            have hlast2 : (envLine sanDetected lastln).getLast? = some '=' := by
              rw [hEq, hSe]
              rw [List.getLast?_concat]
            have hI := intercalate_getLast (s := ['\n'])
              ((splitLines w).map (envLine sanDetected)) (envLine sanDetected lastln) '='
              hM hlast2
            rw [hI] at he
            have hze : '=' = e := by simpa using he
            rw [← hze]
            rfl
          | cons s0 S2 =>
            have hSlast : ∃ d, (sanDetected (pyStrip val)).getLast? = some d ∧
                isPySpace d = false := by
              rcases List.eq_nil_or_concat (sanDetected (pyStrip val)) with h0 | ⟨ys, y, hys⟩
              · rw [hSe] at h0
                exact absurd h0 (by simp)
              · refine ⟨y, ?_, ?_⟩
                · rw [hys, List.concat_eq_append, List.getLast?_concat]
                · refine noEdgeWs_last hS ?_
                  rw [hys, List.concat_eq_append, List.getLast?_concat]
            obtain ⟨d, hd1, hd2⟩ := hSlast
            have hlast2 : (envLine sanDetected lastln).getLast? = some d := by
              rw [hEq]
              rw [show (kk ++ '=' :: sanDetected (pyStrip val) : List Char)
                  = (kk ++ ['=']) ++ sanDetected (pyStrip val) from by simp]
              rw [List.getLast?_append_of_ne_nil _ (by rw [hSe]; simp)]
              exact hd1
            have hI := intercalate_getLast (s := ['\n'])
              ((splitLines w).map (envLine sanDetected)) (envLine sanDetected lastln) d
              hM hlast2
            rw [hI] at he
            have hde : d = e := by simpa using he
            rw [← hde]
            exact hd2
    · rw [sanDetected_email hd]
      exact mask_email_noEdgeWs hw
    · rw [sanDetected_phone hd]
      exact mask_phone_noEdgeWs hw
    · have hurl := detect_url_elim hd
      rw [hps] at hurl
      rw [sanDetected_url hd]
      exact strip_url_noEdgeWs hurl
    · rw [sanDetected_text hd, text_branch_eq]
      exact txFlat_noEdgeWs hw

/-! ### Claim C9 -/

/-- C9 counterexample: on `"\x0b\x7b\x7d"` the sanitizer returns kind
`"text"` (the detector trims the vertical tab and sees JSON, but
`json.loads` does not treat `'\x0b'` as whitespace, so the JSON branch
fails and falls back to text), yet re-running the detector on the
sanitized output — the input unchanged — yields `"json"`.  The claim as
stated, quantified over every input whose sanitization returns kind
Text, is therefore false; it holds on the genuine text branch, i.e.
when the detector itself classifies the input as text. -/
theorem C9_counterexample :
    (sanitize_value ['\x0b', '\x7b', '\x7d'] none).1 = "text" ∧
    detect_type ((sanitize_value ['\x0b', '\x7b', '\x7d'] none).2) = "json" :=
  ⟨rfl, rfl⟩

/-- C9 (amended): for every input the detector classifies as text, the
sanitizer returns kind `"text"` with the SQL-then-HTML escaped string,
and re-running the detector on that output never yields `"email"`,
`"phone"`, `"url"` or `"json"`: the escape map sends each character to
a block (`&amp;` `&lt;` `&gt;` `&quot;` `&#x27;&#x27;`, identity
otherwise), blocks of non-whitespace characters stay non-whitespace,
`'@'` and `'.'` occur only as their own singleton blocks (so an email
match transfers back to the unescaped string), the URL scheme prefix
transfers back likewise, and any escaped character puts a `'&'` in the
output, which the phone pattern rejects and — the output being
quote-free — the JSON parser cannot consume. -/
theorem C9_text_no_masquerade (s : List Char) (hd : detect_type s = "text") :
    sanitize_value s none = ("text", html_escape (escape_sql s)) ∧
    ¬ detect_type (html_escape (escape_sql s)) = "email" ∧
    ¬ detect_type (html_escape (escape_sql s)) = "phone" ∧
    ¬ detect_type (html_escape (escape_sql s)) = "url" ∧
    ¬ detect_type (html_escape (escape_sql s)) = "json" := by
  obtain ⟨hj, he, hph, hu⟩ := detect_text_conds hd
  have hout := text_branch_eq s
  have hstrip : pyStrip ((s.map txBlock).flatten)
      = (((pyStrip s).map txBlock).flatten) := pyStrip_txFlat s
  refine ⟨text_sanitize_eq hd, ?_, ?_, ?_, ?_⟩
  · intro hdet
    rw [hout] at hdet
    have h1 := detect_email_elim hdet
    rw [hstrip] at h1
    exact absurd (emailFullmatch_txFlat h1) (by simp [he])
  · intro hdet
    rw [hout] at hdet
    have h1 := detect_phone_elim hdet
    rw [hstrip] at h1
    by_cases hall : ∀ c ∈ pyStrip s, escCh c = false
    · rw [txFlat_id hall, hph] at h1
      exact Bool.noConfusion h1
    · push_neg at hall
      obtain ⟨c, hcm, hcf⟩ := hall
      have hesc : escCh c = true := by
        cases hce : escCh c
        · exact absurd hce hcf
        · rfl
      have hamp : '&' ∈ ((pyStrip s).map txBlock).flatten :=
        mem_txFlat_of hcm (amp_mem_txBlock hesc)
      rw [phoneFullmatch_amp hamp] at h1
      exact Bool.noConfusion h1
  · intro hdet
    rw [hout] at hdet
    have h1 := detect_url_elim hdet
    rw [hstrip] at h1
    exact absurd (urlFullmatch_txFlat h1) (by simp [hu])
  · intro hdet
    rw [hout] at hdet
    have h1 := detect_json_elim hdet
    rw [hstrip] at h1
    by_cases hall : ∀ c ∈ pyStrip s, escCh c = false
    · rw [txFlat_id hall] at h1
      exact hj h1
    · push_neg at hall
      obtain ⟨c, hcm, hcf⟩ := hall
      have hesc : escCh c = true := by
        cases hce : escCh c
        · exact absurd hce hcf
        · rfl
      have hamp : '&' ∈ ((pyStrip s).map txBlock).flatten :=
        mem_txFlat_of hcm (amp_mem_txBlock hesc)
      have h2 := h1.2
      rw [jsonLoads_amp hamp (quot_notin_txFlat (pyStrip s))] at h2
      exact Bool.noConfusion h2

/-- C9 witness at `"hello & <world>"`: detected as text, escaped, and
the output is still detected as none of the four shapes. -/
theorem C9_witness :
    detect_type "hello & <world>".data = "text" ∧
    (sanitize_value "hello & <world>".data none
        = ("text", html_escape (escape_sql "hello & <world>".data)) ∧
      ¬ detect_type (html_escape (escape_sql "hello & <world>".data)) = "email" ∧
      ¬ detect_type (html_escape (escape_sql "hello & <world>".data)) = "phone" ∧
      ¬ detect_type (html_escape (escape_sql "hello & <world>".data)) = "url" ∧
      ¬ detect_type (html_escape (escape_sql "hello & <world>".data)) = "json") :=
  ⟨rfl, C9_text_no_masquerade "hello & <world>".data rfl⟩

/-! ### Claim C10 -/

/-- C10: in the Env branch, every KEY=VALUE line is split at its first
`'='`; the value side is stripped of surrounding whitespace before
being detected and sanitized, the key side is emitted verbatim, and the
stripped-then-sanitized value is what appears after the `'='` in the
output — with no edge whitespace on either the stripped value or its
sanitization (so the original surrounding whitespace of the value is
absent from the sanitized line). -/
theorem C10_env_value_stripped (v : List Char) (k : Option String)
    (hk : k = some "env" ∨ (k = none ∧ detect_type v = "env")) :
    sanitize_value v k =
      ("env", List.intercalate ['\n'] ((splitLines v).map (envLine sanDetected))) ∧
    ∀ line ∈ splitLines v, ∀ kk val, splitFirstEq line = some (kk, val) →
      (pyStrip line).isEmpty = false → ¬ (pyStrip line).head? = some '#' → '=' ∈ line →
      envLine sanDetected line = kk ++ '=' :: sanDetected (pyStrip val) ∧
      noEdgeWs (pyStrip val) = true ∧
      noEdgeWs (sanDetected (pyStrip val)) = true := by
  refine ⟨env_sanitize_eq v k hk, ?_⟩
  intro line hline kk val hsf hblank hcomment heq
  refine ⟨?_, pyStrip_noEdgeWs val, sanDetected_noEdgeWs (pyStrip val).length _ le_rfl
    (pyStrip_noEdgeWs val)⟩
  unfold envLine
  rw [if_neg (by simp [hblank] : ¬ (pyStrip line).isEmpty = true)]
  rw [if_neg hcomment]
  rw [if_pos heq]
  rw [hsf]

/-- C10 witness at `"A=  hello  "`: one line, key `A` kept verbatim,
value stripped to `hello` before sanitization, output `A=hello`. -/
theorem C10_witness :
    ((none : Option String) = some "env" ∨ ((none : Option String) = none ∧
      detect_type "A=  hello  ".data = "env")) ∧
    sanitize_value "A=  hello  ".data none =
      ("env", List.intercalate ['\n']
        ((splitLines "A=  hello  ".data).map (envLine sanDetected))) ∧
    ("A=  hello  ".data ∈ splitLines "A=  hello  ".data ∧
      splitFirstEq "A=  hello  ".data = some ("A".data, "  hello  ".data) ∧
      (pyStrip "A=  hello  ".data).isEmpty = false ∧
      ¬ (pyStrip "A=  hello  ".data).head? = some '#' ∧ '=' ∈ "A=  hello  ".data) ∧
    (envLine sanDetected "A=  hello  ".data
        = "A".data ++ '=' :: sanDetected (pyStrip "  hello  ".data) ∧
      noEdgeWs (pyStrip "  hello  ".data) = true ∧
      noEdgeWs (sanDetected (pyStrip "  hello  ".data)) = true) ∧
    (sanitize_value "A=  hello  ".data none).2 = "A=hello".data :=
  ⟨Or.inr ⟨rfl, rfl⟩,
   (C10_env_value_stripped "A=  hello  ".data none (Or.inr ⟨rfl, rfl⟩)).1,
   ⟨by decide, rfl, rfl, by decide, by decide⟩,
   (C10_env_value_stripped "A=  hello  ".data none (Or.inr ⟨rfl, rfl⟩)).2
     "A=  hello  ".data (by decide) "A".data "  hello  ".data rfl rfl (by decide) (by decide),
   rfl⟩

end UniSan
